import Mathlib

/-!
ADS_set: a hash set with separate chaining (src/ADS_set.h).

A shallow embedding of the container `ADS_set<Key, N>`.

* The bucket array `table` is a list of `tableSize + 1` buckets.  A bucket is the
  primary slot `table[i]` together with the overflow nodes reached from it through
  `nextElement`; every node is owned by exactly one chain, so the chain is a list.
* The link `nextElementOfChain` always points at a primary slot of the current table
  (or is null); it is embedded as an optional bucket index.
* A pointer to an `Element` is a position: bucket index and depth in the chain
  (depth `0` is the primary slot).  An operation that dereferences a null or dangling
  pointer, or that does not return, has no result (`none`).
* `size_t` and `int` values are natural numbers: the counters and indices never get
  near `2 ^ 31`.  `elementSize--` is truncated subtraction; in a reachable state it is
  only executed with a positive counter (`keysOf_length_pos`, `bucketKeys_length_le`).
* `float` is IEEE-754 binary32 with round-to-nearest-even, restricted to the finite
  non-negative values the growth manager computes; a value is kept as an exact
  fraction `m * 2 ^ up / 2 ^ dn`.
* `Key`, `std::hash<Key>` and the template parameter `N` are parameters; a
  default-constructed key is `default`.
-/

set_option linter.unusedSectionVars false

namespace SepChain

/-! ## binary32 arithmetic of the growth manager -/

/-- A finite non-negative binary32 value, `m * 2 ^ up / 2 ^ dn`. -/
structure F32 where
  m : Nat
  up : Nat
  dn : Nat
deriving DecidableEq

namespace F32

/-- Position of the leading bit: `ilog2 n n = floor (log2 n)` for `0 < n`. -/
def ilog2 : Nat → Nat → Nat
  | 0, _ => 0
  | fuel + 1, n => if n < 2 then 0 else ilog2 fuel (n / 2) + 1

/-- The quotient `a / b` rounded to 24 significant bits, ties to even.  With
`e = floor (log2 (a / b))` the quotient is scaled by `2 ^ (23 - e)`, rounded to an
integer and scaled back. -/
def roundQ (a b : Nat) : F32 :=
  if a = 0 ∨ b = 0 then ⟨0, 0, 0⟩ else
  let la := ilog2 a a
  let lb := ilog2 b b
  let c := if b * 2 ^ la ≤ a * 2 ^ lb then 0 else 1
  let up := la - (23 + lb + c)
  let dn := (23 + lb + c) - la
  let num := a * 2 ^ dn
  let den := b * 2 ^ up
  let q := num / den
  let r := num % den
  let m := if den < 2 * r ∨ (den = 2 * r ∧ q % 2 = 1) then q + 1 else q
  ⟨m, up, dn⟩

/-- Conversion `size_t -> float`. -/
def ofNat (n : Nat) : F32 := roundQ n 1

/-- The product `u * v` in binary32. -/
def mul (u v : F32) : F32 :=
  let r := roundQ (u.m * v.m) 1
  ⟨r.m, r.up + u.up + v.up, r.dn + u.dn + v.dn⟩

/-- The quotient `u / v` in binary32. -/
def div (u v : F32) : F32 :=
  let r := roundQ u.m v.m
  ⟨r.m, r.up + u.up + v.dn, r.dn + u.dn + v.up⟩

/-- The comparison `u < v`. -/
def lt (u v : F32) : Bool :=
  decide (u.m * 2 ^ (u.up + v.dn) < v.m * 2 ^ (v.up + u.dn))

/-- Conversion `float -> size_t` (truncation). -/
def toNat (u : F32) : Nat :=
  u.m * 2 ^ u.up / 2 ^ u.dn

/-- The rational number a binary32 value stands for. -/
def val (u : F32) : ℚ := (u.m : ℚ) * 2 ^ u.up / 2 ^ u.dn

/-- The natural number `m` is the integer nearest to `y`, the even one on a tie. -/
def Nearest (y : ℚ) (m : Nat) : Prop :=
  |y - m| < 1 / 2 ∨ (|y - m| = 1 / 2 ∧ m % 2 = 0)

/-- The value `v` is `x` rounded to 24 significant bits, ties to even. -/
def IsRound (x v : ℚ) : Prop :=
  (x = 0 ∧ v = 0) ∨
  ∃ (σ : ℤ) (m : Nat), (2 : ℚ) ^ 23 ≤ x / 2 ^ σ ∧ x / 2 ^ σ < 2 ^ 24 ∧
    Nearest (x / 2 ^ σ) m ∧ v = m * 2 ^ σ

end F32

/-- The member `float max_lf {0.7}`: the binary32 value nearest to 0.7. -/
def max_lf : F32 := ⟨11744051, 0, 24⟩

/-- The test `n > t * max_lf` of `reserve` (line 116 and line 119). -/
def lfExceeds (n t : Nat) : Bool :=
  F32.lt (F32.mul (F32.ofNat t) max_lf) (F32.ofNat n)

/-- The term `size_type(elementSize / max_lf)` of `rehash` (line 80). -/
def lfQuot (elementSize : Nat) : Nat :=
  F32.toNat (F32.div (F32.ofNat elementSize) max_lf)

/-! ## Data model -/

/-- The `enum class Mode`. -/
inductive Mode where
  | free
  | inuse
  | «end»
deriving DecidableEq

/-- The `struct Element` without its `nextElement` field, which is the rest of the
chain the element sits in. -/
structure Element (Key : Type) where
  key : Key
  mode : Mode
  nextElementOfChain : Option Nat
deriving DecidableEq

/-- A primary slot `table[i]` and the nodes reached from it through `nextElement`. -/
structure Bucket (Key : Type) where
  slot : Element Key
  chain : List (Element Key)
deriving DecidableEq

/-- The data members of `ADS_set` (`max_lf` is the constant above). -/
structure ADS_set (Key : Type) where
  tableSize : Nat
  elementSize : Nat
  table : List (Bucket Key)
deriving DecidableEq

/-- A pointer to an `Element`: the bucket and the depth in its chain. -/
structure Pos where
  bucket : Nat
  depth : Nat
deriving DecidableEq

section Defs

variable {Key : Type} [DecidableEq Key] [Inhabited Key]

/-- A default-constructed `Element`. -/
def Element.fresh : Element Key := ⟨default, Mode.free, none⟩

/-- A default-constructed primary slot with an empty chain. -/
def Bucket.fresh : Bucket Key := ⟨Element.fresh, []⟩

/-- The bucket `table[i]`. -/
def ADS_set.bucketAt (s : ADS_set Key) (i : Nat) : Bucket Key :=
  s.table.getD i Bucket.fresh

/-- The object before any constructor body ran: the default member initialisers. -/
def ADS_set.init : ADS_set Key := ⟨0, 0, []⟩

variable (hash : Key → Nat)

/-- Bucket index of a key: `hasher{}(k) % tableSize`. -/
def hash_idx (s : ADS_set Key) (k : Key) : Nat :=
  hash k % s.tableSize

/-- The chain loop of `count`. -/
def count_chain (key : Key) : List (Element Key) → Nat
  | [] => 0
  | e :: rest =>
    if e.mode = Mode.inuse ∧ e.key = key then 1 else count_chain key rest

/-- Membership test `count`. -/
def count (s : ADS_set Key) (key : Key) : Nat :=
  let position := hash_idx hash s key
  let b := s.bucketAt position
  if b.slot.mode = Mode.inuse ∧ key = b.slot.key then 1
  else count_chain key b.chain

/-- The chain loop of `find_pos`; `d` is the depth of the first node of the list. -/
def find_chain (key : Key) (position : Nat) : Nat → List (Element Key) → Option Pos
  | _, [] => none
  | d, e :: rest =>
    if e.mode = Mode.inuse then
      if key = e.key then some ⟨position, d⟩ else find_chain key position (d + 1) rest
    else none

/-- Lookup `find_pos`: the element holding the key, or null. -/
def find_pos (s : ADS_set Key) (key : Key) : Option Pos :=
  let position := hash_idx hash s key
  let b := s.bucketAt position
  if b.slot.mode = Mode.inuse then
    if key = b.slot.key then some ⟨position, 0⟩
    else find_chain key position 1 b.chain
  else none

/-- The two branches of `insertReal` on the bucket `table[position]`: occupy a
primary slot that is not in use, or move its occupant into a new node in front of the
chain and put the key into the primary slot. -/
def place (b : Bucket Key) (key : Key) : Bucket Key :=
  if b.slot.mode ≠ Mode.inuse then
    { b with slot := { b.slot with key := key, mode := Mode.inuse } }
  else
    let temp : Element Key := ⟨b.slot.key, b.slot.mode, b.slot.nextElementOfChain⟩
    { slot := { b.slot with key := key, mode := Mode.inuse }, chain := temp :: b.chain }

/-- Raw placement `insertReal`: the new state and the returned pointer. -/
def insertReal (s : ADS_set Key) (key : Key) : ADS_set Key × Option Pos :=
  if count hash s key = 0 then
    let position := hash_idx hash s key
    ({ s with table := s.table.set position (place (s.bucketAt position) key),
              elementSize := s.elementSize + 1 },
      some ⟨position, 0⟩)
  else (s, none)

/-- The table allocated by `rehash`: `n` free primary slots linked to their
successor, followed by the sentinel. -/
def newTable (n : Nat) : List (Bucket Key) :=
  (List.range n).map (fun i => (⟨⟨default, Mode.free, some (i + 1)⟩, []⟩ : Bucket Key))
    ++ [⟨⟨default, Mode.end, none⟩, []⟩]

/-- The inner loop of `rehash`: re-insert the live keys of one chain. -/
def migrateChain (s : ADS_set Key) : List (Element Key) → ADS_set Key
  | [] => s
  | e :: rest =>
    migrateChain (if e.mode = Mode.inuse then (insertReal hash s e.key).1 else s) rest

/-- The body of the outer loop of `rehash` for one old bucket. -/
def migrateBucket (s : ADS_set Key) (b : Bucket Key) : ADS_set Key :=
  if b.slot.mode = Mode.inuse then migrateChain hash s (b.slot :: b.chain) else s

variable (N : Nat)

/-- Rebuild the table: `rehash(n)`. -/
def rehash (s : ADS_set Key) (n : Nat) : ADS_set Key :=
  let oldTableSize := s.tableSize
  let newTableSize := max (max n (lfQuot s.elementSize)) N
  let s0 : ADS_set Key := ⟨newTableSize, 0, newTable newTableSize⟩
  (List.range oldTableSize).foldl (fun acc i => migrateBucket hash acc (s.bucketAt i)) s0

/-- The loop `while (n > new_max_sz * max_lf) new_max_sz = new_max_sz * 2 + 1` of
`reserve`, run for at most `fuel` rounds. -/
def reserve_loop (n : Nat) : Nat → Nat → Nat
  | 0, new_max_sz => new_max_sz
  | fuel + 1, new_max_sz =>
    if lfExceeds n new_max_sz then reserve_loop n fuel (new_max_sz * 2 + 1) else new_max_sz

/-- Growth check `reserve(n)`.  The loop leaves within `n + 4` rounds
(`reserve_loop_exit`). -/
def reserve (s : ADS_set Key) (n : Nat) : ADS_set Key :=
  if lfExceeds n s.tableSize then
    rehash hash N s (reserve_loop n (n + 4) s.tableSize)
  else s

/-- The default constructor `ADS_set()`. -/
def ADS_set.ctor : ADS_set Key :=
  rehash hash N { (ADS_set.init : ADS_set Key) with tableSize := 0 } N

/-- The member `size()`. -/
def size (s : ADS_set Key) : Nat := s.elementSize

/-- The member `empty()`. -/
def empty (s : ADS_set Key) : Bool := if s.elementSize = 0 then true else false

/-- List insert `insert(std::initializer_list)`. -/
def insert_list (s : ADS_set Key) (ilist : List Key) : ADS_set Key :=
  ilist.foldl (fun acc key => (insertReal hash acc key).1) s

/-- Range insert `insert(first, last)`; the range is the sequence of keys it yields. -/
def insert_range (s : ADS_set Key) (range : List Key) : ADS_set Key :=
  range.foldl (fun acc key =>
    if find_pos hash acc key = none then
      (insertReal hash (reserve hash N acc (acc.elementSize + 1)) key).1
    else acc) s

/-- The chain loop of `erase`: `cur` is `currentElement`, the list starts at
`nextElement`.  The result is the updated `cur` and its new successors when a node
was unlinked. -/
def erase_chain (key : Key) :
    Element Key → List (Element Key) → Option (Element Key × List (Element Key))
  | _, [] => none
  | cur, n :: rest =>
    if key = n.key ∧ n.mode ≠ Mode.free then
      match rest with
      | _ :: _ => some (cur, rest)
      | [] => some ({ cur with nextElementOfChain := n.nextElementOfChain }, [])
    else
      match erase_chain key n rest with
      | some (n', rest') => some (cur, n' :: rest')
      | none => none

/-- The member `erase(key)`: the new state and the returned number. -/
def erase (s : ADS_set Key) (key : Key) : ADS_set Key × Nat :=
  let position := hash_idx hash s key
  let b := s.bucketAt position
  if b.slot.mode = Mode.inuse then
    if key = b.slot.key ∧ b.slot.mode ≠ Mode.free then
      let b' : Bucket Key :=
        match b.chain with
        | n :: rest => ⟨⟨n.key, n.mode, n.nextElementOfChain⟩, rest⟩
        | [] => { b with slot := { b.slot with mode := Mode.free } }
      ({ s with table := s.table.set position b', elementSize := s.elementSize - 1 }, 1)
    else
      match erase_chain key b.slot b.chain with
      | some (slot', chain') =>
        ({ s with table := s.table.set position ⟨slot', chain'⟩,
                  elementSize := s.elementSize - 1 }, 1)
      | none => (s, 0)
  else (s, 0)

/-- The chain loop of `clear`: one decrement of the live count per node. -/
def clear_chain (elementSize : Nat) : List (Element Key) → Nat
  | [] => elementSize
  | _ :: rest => clear_chain (elementSize - 1) rest

/-- The loop body of `clear` for bucket `i`. -/
def clear_bucket (s : ADS_set Key) (i : Nat) : ADS_set Key :=
  let b := s.bucketAt i
  let slot' : Element Key :=
    if b.slot.mode ≠ Mode.free then { b.slot with mode := Mode.free } else b.slot
  let n := if b.slot.mode ≠ Mode.free then s.elementSize - 1 else s.elementSize
  { s with table := s.table.set i ⟨slot', []⟩, elementSize := clear_chain n b.chain }

/-- The member `clear()`. -/
def clear (s : ADS_set Key) : ADS_set Key :=
  (List.range s.tableSize).foldl clear_bucket s

/-- The member `swap(other)`: the new `*this` and the new `other`. -/
def swap (s other : ADS_set Key) : ADS_set Key × ADS_set Key := (other, s)

/-! ## Iterator -/

/-- The class `Iterator`: one pointer, possibly null. -/
structure Iterator where
  pos : Option Pos
deriving DecidableEq

/-- The element a pointer refers to; `none` for a pointer outside the table. -/
def ADS_set.elemAt (s : ADS_set Key) (p : Pos) : Option (Element Key) :=
  if p.bucket < s.table.length then
    if p.depth = 0 then some (s.bucketAt p.bucket).slot
    else (s.bucketAt p.bucket).chain[p.depth - 1]?
  else none

/-- The field `nextElement` of the element at `p`. -/
def ADS_set.nextElement (s : ADS_set Key) (p : Pos) : Option Pos :=
  if p.depth < (s.bucketAt p.bucket).chain.length then some ⟨p.bucket, p.depth + 1⟩ else none

/-- The number of `Element` objects of the table, chains included. -/
def ADS_set.numElements (s : ADS_set Key) : Nat :=
  (s.table.map (fun b => b.chain.length + 1)).sum

/-- The loop of `skip_free`.  No result (`none`) when a null or dangling pointer is
dereferenced or the rounds are used up. -/
def skip_free_loop (s : ADS_set Key) : Nat → Pos → Option Pos
  | 0, _ => none
  | fuel + 1, pos =>
    match s.elemAt pos with
    | none => none
    | some e =>
      if e.mode ≠ Mode.inuse ∧ e.mode ≠ Mode.end then
        if s.nextElement pos = none then
          match e.nextElementOfChain with
          | none => none
          | some j => skip_free_loop s fuel ⟨j, 0⟩
        else skip_free_loop s fuel pos
      else some pos

/-- The member `Iterator::skip_free`.  After its first round the loop is at a primary
slot, so a run of more than `table.length + 2` rounds has been at one slot twice and
does not end. -/
def skip_free (s : ADS_set Key) (pos : Pos) : Option Pos :=
  skip_free_loop s (s.table.length + 2) pos

/-- The constructor `Iterator(Element* pos)`. -/
def Iterator.ctor (s : ADS_set Key) (pos : Option Pos) : Option Iterator :=
  match pos with
  | none => some ⟨none⟩
  | some p => (skip_free s p).map (fun q => ⟨some q⟩)

/-- Dereference `operator*`. -/
def Iterator.deref (s : ADS_set Key) (it : Iterator) : Option Key :=
  match it.pos with
  | none => none
  | some p => (s.elemAt p).map (fun e => e.key)

/-- Pre-increment `operator++`. -/
def Iterator.next (s : ADS_set Key) (it : Iterator) : Option Iterator :=
  match it.pos with
  | none => none
  | some p =>
    match s.elemAt p with
    | none => none
    | some e =>
      if e.mode ≠ Mode.end then
        let p' : Option Pos :=
          if s.nextElement p ≠ none then s.nextElement p
          else e.nextElementOfChain.map (fun j => ⟨j, 0⟩)
        match p' with
        | none => none
        | some q => (skip_free s q).map (fun r => ⟨some r⟩)
      else some it

/-- The member `begin()`. -/
def ADS_set.begin (s : ADS_set Key) : Option Iterator :=
  Iterator.ctor s (some ⟨0, 0⟩)

/-- The member `end()`. -/
def ADS_set.end (s : ADS_set Key) : Option Iterator :=
  Iterator.ctor s (some ⟨s.tableSize, 0⟩)

/-- The loop `for (const auto& k : s)` collecting the keys it visits, from `it` on. -/
def for_range (s : ADS_set Key) : Nat → Iterator → Option (List Key)
  | 0, _ => none
  | fuel + 1, it =>
    match s.end with
    | none => none
    | some e =>
      if it = e then some []
      else
        match Iterator.deref s it, Iterator.next s it with
        | some k, some it' => (for_range s fuel it').map (fun ks => k :: ks)
        | _, _ => none

/-- The keys visited by iterating from `begin()` to `end()`.  The iteration visits an
element at most once unless it runs for ever, so `numElements + 1` rounds are enough. -/
def ADS_set.toList (s : ADS_set Key) : Option (List Key) :=
  match s.begin with
  | none => none
  | some it => for_range s (s.numElements + 1) it

/-- The member `find(key)`. -/
def find (s : ADS_set Key) (key : Key) : Option Iterator :=
  match find_pos hash s key with
  | some pos => Iterator.ctor s (some pos)
  | none => s.end

/-- The member `insert(key)`: the new state with the returned pair. -/
def insert (s : ADS_set Key) (key : Key) : Option (ADS_set Key × Iterator × Bool) :=
  match find_pos hash s key with
  | some pos => (Iterator.ctor s (some pos)).map (fun it => (s, it, false))
  | none =>
    let r := insertReal hash (reserve hash N s (s.elementSize + 1)) key
    (Iterator.ctor r.1 r.2).map (fun it => (r.1, it, true))

/-- The loop of `operator==` over the keys of `lhs`. -/
def eq_loop (lhs rhs : ADS_set Key) : Nat → Iterator → Option Bool
  | 0, _ => none
  | fuel + 1, it =>
    match lhs.end with
    | none => none
    | some e =>
      if it = e then some true
      else
        match Iterator.deref lhs it with
        | none => none
        | some k =>
          if find_pos hash rhs k = none then some false
          else
            match Iterator.next lhs it with
            | none => none
            | some it' => eq_loop lhs rhs fuel it'

/-- The friend `operator==`. -/
def op_eq (lhs rhs : ADS_set Key) : Option Bool :=
  if lhs.elementSize ≠ rhs.elementSize then some false
  else
    match lhs.begin with
    | none => none
    | some it => eq_loop hash lhs rhs (lhs.numElements + 1) it

/-- The friend `operator!=`. -/
def op_ne (lhs rhs : ADS_set Key) : Option Bool :=
  (op_eq hash lhs rhs).map (fun b => !b)

/-- The constructor `ADS_set(std::initializer_list)`. -/
def ADS_set.ctor_list (ilist : List Key) : ADS_set Key :=
  insert_list hash (ADS_set.ctor hash N) ilist

/-- The constructor `ADS_set(first, last)`. -/
def ADS_set.ctor_range (range : List Key) : ADS_set Key :=
  insert_range hash N (ADS_set.ctor hash N) range

/-- The copy constructor `ADS_set(const ADS_set& other)`. -/
def ADS_set.ctor_copy (other : ADS_set Key) : Option (ADS_set Key) :=
  (other.toList).map (fun ks =>
    ks.foldl (fun acc k => (insertReal hash acc k).1)
      (rehash hash N ADS_set.init other.tableSize))

/-- Copy assignment `operator=(const ADS_set& other)` for `this != &other`. -/
def assign (s other : ADS_set Key) : Option (ADS_set Key) :=
  (other.toList).map (fun ks =>
    ks.foldl (fun acc k => (insertReal hash acc k).1)
      (reserve hash N (clear s) other.elementSize))

/-- List assignment `operator=(std::initializer_list)`. -/
def assign_list (s : ADS_set Key) (ilist : List Key) : ADS_set Key :=
  insert_list hash (clear s) ilist

/-- The states a container can be in: built by a constructor and changed by the
public member functions. -/
inductive Reachable : ADS_set Key → Prop
  | ctor : Reachable (ADS_set.ctor hash N)
  | ctor_list (ilist : List Key) : Reachable (ADS_set.ctor_list hash N ilist)
  | ctor_range (range : List Key) : Reachable (ADS_set.ctor_range hash N range)
  | ctor_copy {other s : ADS_set Key} :
      Reachable other → ADS_set.ctor_copy hash N other = some s → Reachable s
  | assign {s other s' : ADS_set Key} :
      Reachable s → Reachable other → assign hash N s other = some s' → Reachable s'
  | assign_list {s : ADS_set Key} (ilist : List Key) :
      Reachable s → Reachable (assign_list hash s ilist)
  | insert {s s' : ADS_set Key} (key : Key) {it : Iterator} {b : Bool} :
      Reachable s → insert hash N s key = some (s', it, b) → Reachable s'
  | insert_list {s : ADS_set Key} (ilist : List Key) :
      Reachable s → Reachable (insert_list hash s ilist)
  | insert_range {s : ADS_set Key} (range : List Key) :
      Reachable s → Reachable (insert_range hash N s range)
  | erase {s : ADS_set Key} (key : Key) :
      Reachable s → Reachable (erase hash s key).1
  | clear {s : ADS_set Key} : Reachable s → Reachable (clear s)
  | swap_left {s other : ADS_set Key} :
      Reachable s → Reachable other → Reachable (swap s other).1
  | swap_right {s other : ADS_set Key} :
      Reachable s → Reachable other → Reachable (swap s other).2

/-! ## Abstraction and representation invariant -/

/-- The keys of a bucket in storage order: primary slot first, then the chain. -/
def bucketKeys (b : Bucket Key) : List Key :=
  if b.slot.mode = Mode.inuse then b.slot.key :: b.chain.map (fun e => e.key) else []

/-- The stored keys, bucket by bucket. -/
def keysOf (s : ADS_set Key) : List Key :=
  (List.range s.tableSize).flatMap (fun i => bucketKeys (s.bucketAt i))

/-- The keys stored in the buckets `i, i + 1, ...`. -/
def keysFrom (s : ADS_set Key) (i : Nat) : List Key :=
  (List.range' i (s.tableSize - i)).flatMap (fun j => bucketKeys (s.bucketAt j))

/-- Raw placement of a list of keys, one after the other. -/
def placeAll (s : ADS_set Key) (l : List Key) : ADS_set Key :=
  l.foldl (fun acc k => (insertReal hash acc k).1) s

/-- The keys held by the elements of a bucket that are in use, primary slot first. -/
def storedKeys (b : Bucket Key) : List Key :=
  (if b.slot.mode = Mode.inuse then [b.slot.key] else [])
    ++ (b.chain.filter (fun e => e.mode = Mode.inuse)).map (fun e => e.key)

/-- A sequence of calls `insert(key)`, one per key of the list, in order. -/
def insert_each (s : ADS_set Key) : List Key → Option (ADS_set Key)
  | [] => some s
  | key :: rest =>
    match insert hash N s key with
    | none => none
    | some r => insert_each r.1 rest

/-- Well-formedness of bucket `i` of a table with `ts` buckets. -/
structure BucketOK (ts i : Nat) (b : Bucket Key) : Prop where
  link : b.slot.nextElementOfChain = some (i + 1)
  mode : b.slot.mode ≠ Mode.end
  free_chain : b.slot.mode ≠ Mode.inuse → b.chain = []
  chain : ∀ e ∈ b.chain, e.mode = Mode.inuse ∧ e.nextElementOfChain = some (i + 1)
  home : ∀ k ∈ bucketKeys b, hash k % ts = i
  nodup : (bucketKeys b).Nodup

/-- The representation invariant of the container. -/
structure Inv (s : ADS_set Key) : Prop where
  cap : N ≤ s.tableSize
  pos : 0 < s.tableSize
  len : s.table.length = s.tableSize + 1
  buckets : ∀ i, i < s.tableSize → BucketOK hash s.tableSize i (s.bucketAt i)
  sentinel : (s.bucketAt s.tableSize).slot.mode = Mode.end ∧
    (s.bucketAt s.tableSize).chain = []
  live : s.elementSize = (keysOf s).length

end Defs

/-! ## Lists -/

section ListLemmas

theorem getD_set_eq {α : Type} (l : List α) (i j : Nat) (a d : α) :
    (l.set i a).getD j d = if i = j ∧ i < l.length then a else l.getD j d := by
  simp only [List.getD_eq_getElem?_getD, List.getElem?_set]
  by_cases hij : i = j
  · subst hij
    by_cases hi : i < l.length
    · simp [hi]
    · simp [hi, List.getElem?_eq_none (Nat.le_of_not_lt hi)]
  · simp [hij]

theorem length_flatMap_update {α : Type} (f g : Nat → List α) (p : Nat)
    (hfg : ∀ i, i ≠ p → g i = f i) :
    ∀ n, p < n →
      ((List.range n).flatMap g).length + (f p).length
        = ((List.range n).flatMap f).length + (g p).length := by
  have same : ∀ n, n ≤ p → (List.range n).flatMap g = (List.range n).flatMap f := by
    intro n
    induction n with
    | zero => intro _; rfl
    | succ n ih =>
      intro hn
      rw [List.range_succ, List.flatMap_append, List.flatMap_append, ih (by omega),
        List.flatMap_singleton, List.flatMap_singleton, hfg n (by omega)]
  intro n
  induction n with
  | zero => intro h; omega
  | succ n ih =>
    intro hn
    rw [List.range_succ, List.flatMap_append, List.flatMap_append,
      List.flatMap_singleton, List.flatMap_singleton, List.length_append, List.length_append]
    by_cases hp : p = n
    · subst hp
      rw [same p (le_refl p)]
      omega
    · have := ih (by omega)
      rw [hfg n (fun h => hp h.symm)]
      omega

theorem list_eq_map_range {α : Type} (l : List α) (d : α) :
    l = (List.range l.length).map (fun i => l.getD i d) := by
  apply List.ext_getElem?
  intro i
  by_cases hi : i < l.length
  · rw [List.getElem?_map, List.getElem?_range hi]
    simp [List.getD_eq_getElem?_getD, List.getElem?_eq_getElem hi]
  · rw [List.getElem?_eq_none (Nat.le_of_not_lt hi), List.getElem?_eq_none (by simpa using hi)]

end ListLemmas

/-! ## Rounding to binary32 -/

section Rounding

namespace F32

theorem ilog2_spec : ∀ fuel n : Nat, 0 < n → n ≤ fuel →
    2 ^ ilog2 fuel n ≤ n ∧ n < 2 ^ (ilog2 fuel n + 1) := by
  intro fuel
  induction fuel with
  | zero => intro n h1 h2; omega
  | succ f ih =>
    intro n h1 h2
    simp only [ilog2]
    split_ifs with h
    · have : n = 1 := by omega
      subst this; simp
    · obtain ⟨i1, i2⟩ := ih (n / 2) (by omega) (by omega)
      rw [pow_succ] at i2 ⊢
      rw [pow_succ]
      constructor <;> omega

theorem nearest_mono {y y' : ℚ} {m m' : Nat} (h : Nearest y m) (h' : Nearest y' m')
    (hy : y ≤ y') : m ≤ m' := by
  by_contra hlt
  have hge : (m' : ℚ) + 1 ≤ m := by
    have : m' + 1 ≤ m := by omega
    exact_mod_cast this
  have h1 : |y - m| ≤ 1 / 2 := by
    rcases h with h | h
    · exact le_of_lt h
    · exact le_of_eq h.1
  have h2 : |y' - m'| ≤ 1 / 2 := by
    rcases h' with h | h
    · exact le_of_lt h
    · exact le_of_eq h.1
  rw [abs_le] at h1 h2
  have e1 : y - m = -(1 / 2) := by linarith
  have e2 : y' - m' = 1 / 2 := by linarith
  have e3 : (m : ℚ) = m' + 1 := by linarith
  have e3' : m = m' + 1 := by exact_mod_cast e3
  rcases h with h | h
  · rw [abs_lt] at h; linarith [h.1]
  · rcases h' with h' | h'
    · rw [abs_lt] at h'; linarith [h'.2]
    · omega

theorem nearest_of_divmod (num den : Nat) (hden : 0 < den) :
    Nearest ((num : ℚ) / den)
      (if den < 2 * (num % den) ∨ (den = 2 * (num % den) ∧ (num / den) % 2 = 1)
        then num / den + 1 else num / den) := by
  have hd : (0 : ℚ) < den := by exact_mod_cast hden
  have hsplit : (num : ℚ) / den = (num / den : Nat) + ((num % den : Nat) : ℚ) / den := by
    have := Nat.div_add_mod num den
    have h2 : (num : ℚ) = den * (num / den : Nat) + (num % den : Nat) := by exact_mod_cast this.symm
    field_simp
    linarith
  have hr : num % den < den := Nat.mod_lt _ hden
  set q := num / den with hq
  set r := num % den with hrdef
  have hrq : (r : ℚ) < den := by exact_mod_cast hr
  have hr0 : (0 : ℚ) ≤ r := by positivity
  have hfrac0 : (0 : ℚ) ≤ (r : ℚ) / den := by positivity
  have hfrac1 : (r : ℚ) / den < 1 := by rw [div_lt_one hd]; exact hrq
  split_ifs with hc
  · rcases hc with hc | ⟨hc, hodd⟩
    · left
      have : (den : ℚ) < 2 * r := by exact_mod_cast hc
      have hf : 1 / 2 < (r : ℚ) / den := by rw [lt_div_iff₀ hd]; linarith
      rw [hsplit, abs_lt]
      push_cast
      constructor <;> linarith
    · right
      have : (den : ℚ) = 2 * r := by exact_mod_cast hc
      have hf : (r : ℚ) / den = 1 / 2 := by rw [div_eq_iff (ne_of_gt hd)]; linarith
      refine ⟨?_, by omega⟩
      rw [hsplit, hf]
      push_cast
      rw [show ((q : ℚ) + 1 / 2 - (q + 1)) = -(1 / 2) by ring]
      norm_num
  · push_neg at hc
    obtain ⟨hc1, hc2⟩ := hc
    rcases Nat.lt_or_eq_of_le hc1 with hlt | heq
    · left
      have : (2 * r : ℚ) < den := by exact_mod_cast hlt
      have hf : (r : ℚ) / den < 1 / 2 := by rw [div_lt_iff₀ hd]; linarith
      rw [hsplit, abs_lt]
      constructor <;> linarith
    · right
      have : (den : ℚ) = 2 * r := by exact_mod_cast heq.symm
      have hf : (r : ℚ) / den = 1 / 2 := by rw [div_eq_iff (ne_of_gt hd)]; linarith
      refine ⟨?_, ?_⟩
      · rw [hsplit, hf]
        rw [show ((q : ℚ) + 1 / 2 - q) = 1 / 2 by ring]
        norm_num
      · have := hc2 heq.symm
        omega


theorem nearest_bounds {y : ℚ} {m : Nat} (h : Nearest y m) :
    y - 1 / 2 ≤ m ∧ (m : ℚ) ≤ y + 1 / 2 := by
  have h1 : |y - m| ≤ 1 / 2 := by
    rcases h with h | h
    · exact le_of_lt h
    · exact le_of_eq h.1
  rw [abs_le] at h1
  constructor <;> linarith

theorem IsRound.nonneg {x v : ℚ} (h : IsRound x v) : 0 ≤ v := by
  rcases h with ⟨_, h⟩ | ⟨σ, m, _, _, _, h⟩
  · rw [h]
  · rw [h]; positivity

theorem IsRound.pos_of_pos {x v : ℚ} (h : IsRound x v) : 0 ≤ x := by
  rcases h with ⟨h, _⟩ | ⟨σ, m, h1, _, _, _⟩
  · rw [h]
  · have hp : (0 : ℚ) < 2 ^ σ := by positivity
    have : (0 : ℚ) < x / 2 ^ σ := lt_of_lt_of_le (by norm_num) h1
    exact le_of_lt ((div_pos_iff_of_pos_right hp).mp this)

/-- Rounding is monotone. -/
theorem IsRound.mono {x x' v v' : ℚ} (h : IsRound x v) (h' : IsRound x' v') (hx : x ≤ x') :
    v ≤ v' := by
  rcases h with ⟨_, hv⟩ | ⟨σ, m, h1, h2, h3, hv⟩
  · rw [hv]; exact h'.nonneg
  · have hp : (0 : ℚ) < 2 ^ σ := by positivity
    have hxpos : 0 < x := by
      have : (0 : ℚ) < x / 2 ^ σ := lt_of_lt_of_le (by norm_num) h1
      exact (div_pos_iff_of_pos_right hp).mp this
    rcases h' with ⟨hx0, _⟩ | ⟨σ', m', h1', h2', h3', hv'⟩
    · rw [hx0] at hx; exact absurd hxpos (not_lt.mpr hx)
    · have hp' : (0 : ℚ) < 2 ^ σ' := by positivity
      -- the exponents are ordered
      have hσ : σ ≤ σ' := by
        by_contra hcon
        have hlt : σ' + 1 ≤ σ := by omega
        have e1 : (2 : ℚ) ^ 24 * 2 ^ σ' ≤ 2 ^ 23 * 2 ^ σ := by
          have : (2 : ℚ) ^ (σ' + 1) ≤ 2 ^ σ := zpow_le_zpow_right₀ (by norm_num) hlt
          rw [zpow_add₀ (by norm_num : (2 : ℚ) ≠ 0), zpow_one] at this
          linarith
        have e2 : x' < 2 ^ 24 * 2 ^ σ' := (div_lt_iff₀ hp').mp h2'
        have e3 : 2 ^ 23 * 2 ^ σ ≤ x := (le_div_iff₀ hp).mp h1
        linarith
      have b := nearest_bounds h3
      have b' := nearest_bounds h3'
      rcases lt_or_eq_of_le hσ with hlt | heq
      · -- different binades
        have hm : (m : ℚ) ≤ 2 ^ 24 := by
          have : (m : ℚ) < 2 ^ 24 + 1 := by linarith
          have h4 : m < 2 ^ 24 + 1 := by exact_mod_cast this
          have h5 : m ≤ 2 ^ 24 := by omega
          exact_mod_cast h5
        have hm' : (2 : ℚ) ^ 23 ≤ m' := by
          have : (2 : ℚ) ^ 23 - 1 < m' := by linarith
          have h4 : 2 ^ 23 - 1 < m' := by
            have h6 : ((2 ^ 23 - 1 : Nat) : ℚ) < m' := by push_cast; linarith
            exact_mod_cast h6
          have h5 : 2 ^ 23 ≤ m' := by omega
          exact_mod_cast h5
        have e1 : (2 : ℚ) * 2 ^ σ ≤ 2 ^ σ' := by
          have : (2 : ℚ) ^ (σ + 1) ≤ 2 ^ σ' := zpow_le_zpow_right₀ (by norm_num) (by omega)
          rw [zpow_add₀ (by norm_num : (2 : ℚ) ≠ 0), zpow_one] at this
          linarith
        rw [hv, hv']
        calc (m : ℚ) * 2 ^ σ ≤ 2 ^ 24 * 2 ^ σ := by
              apply mul_le_mul_of_nonneg_right hm (le_of_lt hp)
          _ = 2 ^ 23 * (2 * 2 ^ σ) := by ring
          _ ≤ 2 ^ 23 * 2 ^ σ' := by
              apply mul_le_mul_of_nonneg_left e1 (by positivity)
          _ ≤ m' * 2 ^ σ' := by
              apply mul_le_mul_of_nonneg_right hm' (le_of_lt hp')
      · -- the same binade
        subst heq
        have hy : x / 2 ^ σ ≤ x' / 2 ^ σ := by
          apply div_le_div_of_nonneg_right hx (le_of_lt hp)
        have hmm := nearest_mono h3 h3' hy
        rw [hv, hv']
        apply mul_le_mul_of_nonneg_right _ (le_of_lt hp)
        exact_mod_cast hmm

/-- The relative error of rounding is at most `2 ^ (-24)`. -/
theorem IsRound.bounds {x v : ℚ} (h : IsRound x v) :
    x * (1 - 1 / 2 ^ 24) ≤ v ∧ v ≤ x * (1 + 1 / 2 ^ 24) := by
  rcases h with ⟨hx, hv⟩ | ⟨σ, m, h1, h2, h3, hv⟩
  · rw [hx, hv]; simp
  · have hp : (0 : ℚ) < 2 ^ σ := by positivity
    have b := nearest_bounds h3
    have hx : x = x / 2 ^ σ * 2 ^ σ := by field_simp
    have hy : (1 : ℚ) / 2 ≤ x / 2 ^ σ * (1 / 2 ^ 24) := by
      have : (2 : ℚ) ^ 23 * (1 / 2 ^ 24) ≤ x / 2 ^ σ * (1 / 2 ^ 24) :=
        mul_le_mul_of_nonneg_right h1 (by positivity)
      norm_num at this ⊢
      linarith
    rw [hv]
    constructor
    · calc x * (1 - 1 / 2 ^ 24) = (x / 2 ^ σ * (1 - 1 / 2 ^ 24)) * 2 ^ σ := by
            field_simp
            ring
        _ ≤ (m : ℚ) * 2 ^ σ := by
            apply mul_le_mul_of_nonneg_right _ (le_of_lt hp)
            linarith
    · calc (m : ℚ) * 2 ^ σ ≤ (x / 2 ^ σ * (1 + 1 / 2 ^ 24)) * 2 ^ σ := by
            apply mul_le_mul_of_nonneg_right _ (le_of_lt hp)
            linarith
        _ = x * (1 + 1 / 2 ^ 24) := by
            field_simp
            ring

/-- Scaling by a power of two commutes with rounding. -/
theorem IsRound.scale {x v : ℚ} (h : IsRound x v) (k : ℤ) :
    IsRound (x * 2 ^ k) (v * 2 ^ k) := by
  rcases h with ⟨hx, hv⟩ | ⟨σ, m, h1, h2, h3, hv⟩
  · left; rw [hx, hv]; simp
  · right
    have e : x * 2 ^ k / 2 ^ (σ + k) = x / 2 ^ σ := by
      rw [zpow_add₀ (by norm_num : (2 : ℚ) ≠ 0)]
      field_simp
      ring
    refine ⟨σ + k, m, by rw [e]; exact h1, by rw [e]; exact h2, by rw [e]; exact h3, ?_⟩
    rw [hv, zpow_add₀ (by norm_num : (2 : ℚ) ≠ 0)]
    ring


theorem zpow_natSub (up dn : Nat) :
    (2 : ℚ) ^ ((up : ℤ) - (dn : ℤ)) = 2 ^ up / 2 ^ dn := by
  rw [zpow_sub₀ (by norm_num : (2 : ℚ) ≠ 0), zpow_natCast, zpow_natCast]

theorem val_eq_zpow (u : F32) : val u = (u.m : ℚ) * 2 ^ ((u.up : ℤ) - (u.dn : ℤ)) := by
  rw [val, zpow_natSub, mul_div_assoc]

/-- The function `roundQ` rounds `a / b`. -/
theorem roundQ_isRound (a b : Nat) (hb : 0 < b) :
    IsRound ((a : ℚ) / b) (val (roundQ a b)) := by
  by_cases ha : a = 0
  · left
    subst ha
    simp [roundQ, val]
  · right
    have ha' : 0 < a := Nat.pos_of_ne_zero ha
    obtain ⟨la1, la2⟩ := ilog2_spec a a ha' le_rfl
    obtain ⟨lb1, lb2⟩ := ilog2_spec b b hb le_rfl
    simp only [roundQ]
    rw [if_neg (by omega)]
    generalize hc : (if b * 2 ^ ilog2 a a ≤ a * 2 ^ ilog2 b b then 0 else 1) = c
    set la := ilog2 a a with hla
    set lb := ilog2 b b with hlb
    have hclaim : b * 2 ^ la ≤ a * 2 ^ (lb + c) ∧ a * 2 ^ (lb + c) < 2 * (b * 2 ^ la) := by
      rw [pow_succ] at la2 lb2
      split_ifs at hc with hcond
      · subst hc
        refine ⟨hcond, ?_⟩
        have : a * 2 ^ lb < (2 ^ la * 2) * b :=
          Nat.mul_lt_mul_of_lt_of_le la2 lb1 (by positivity)
        simp only [Nat.add_zero]
        linarith
      · subst hc
        have h1 : b * 2 ^ la ≤ (2 ^ lb * 2) * a :=
          Nat.mul_le_mul (le_of_lt lb2) la1
        rw [pow_succ]
        constructor
        · linarith
        · have := Nat.lt_of_not_le hcond
          linarith
    set up := la - (23 + lb + c) with hup
    set dn := (23 + lb + c) - la with hdn
    have key : 2 ^ dn * 2 ^ la = 2 ^ 23 * 2 ^ (lb + c) * 2 ^ up := by
      rw [← pow_add, ← pow_add, ← pow_add]
      congr 1
      omega
    have hden : 0 < b * 2 ^ up := by positivity
    have hP : 0 < 2 ^ la := by positivity
    have hlow : 2 ^ 23 * (b * 2 ^ up) ≤ a * 2 ^ dn := by
      apply Nat.le_of_mul_le_mul_right _ hP
      calc 2 ^ 23 * (b * 2 ^ up) * 2 ^ la = 2 ^ 23 * 2 ^ up * (b * 2 ^ la) := by ring
        _ ≤ 2 ^ 23 * 2 ^ up * (a * 2 ^ (lb + c)) := Nat.mul_le_mul_left _ hclaim.1
        _ = a * (2 ^ 23 * 2 ^ (lb + c) * 2 ^ up) := by ring
        _ = a * 2 ^ dn * 2 ^ la := by rw [← key]; ring
    have hhigh : a * 2 ^ dn < 2 ^ 24 * (b * 2 ^ up) := by
      apply Nat.lt_of_mul_lt_mul_right (a := 2 ^ la)
      calc a * 2 ^ dn * 2 ^ la = a * (2 ^ dn * 2 ^ la) := by ring
        _ = 2 ^ 23 * 2 ^ up * (a * 2 ^ (lb + c)) := by rw [key]; ring
        _ < 2 ^ 23 * 2 ^ up * (2 * (b * 2 ^ la)) :=
            Nat.mul_lt_mul_of_pos_left hclaim.2 (by positivity)
        _ = 2 ^ 24 * (b * 2 ^ up) * 2 ^ la := by ring
    have hy : (a : ℚ) / b / 2 ^ ((up : ℤ) - (dn : ℤ))
        = ((a * 2 ^ dn : Nat) : ℚ) / ((b * 2 ^ up : Nat) : ℚ) := by
      rw [zpow_natSub]
      push_cast
      have hb0 : (b : ℚ) ≠ 0 := by exact_mod_cast (ne_of_gt hb)
      field_simp
    have hdq : (0 : ℚ) < ((b * 2 ^ up : Nat) : ℚ) := by exact_mod_cast hden
    refine ⟨(up : ℤ) - (dn : ℤ), _, ?_, ?_, ?_, val_eq_zpow _⟩
    · rw [hy, le_div_iff₀ hdq]
      exact_mod_cast hlow
    · rw [hy, div_lt_iff₀ hdq]
      exact_mod_cast hhigh
    · rw [hy]
      exact nearest_of_divmod _ _ hden


theorem ofNat_isRound (n : Nat) : IsRound (n : ℚ) (val (ofNat n)) := by
  have := roundQ_isRound n 1 (by norm_num)
  simpa [ofNat] using this

theorem mul_isRound (u v : F32) : IsRound (val u * val v) (val (mul u v)) := by
  have h := (roundQ_isRound (u.m * v.m) 1 (by norm_num)).scale
    (((u.up : ℤ) - (u.dn : ℤ)) + ((v.up : ℤ) - (v.dn : ℤ)))
  have e1 : ((u.m * v.m : Nat) : ℚ) / ((1 : Nat) : ℚ)
      * 2 ^ (((u.up : ℤ) - (u.dn : ℤ)) + ((v.up : ℤ) - (v.dn : ℤ))) = val u * val v := by
    rw [val_eq_zpow, val_eq_zpow, zpow_add₀ (by norm_num : (2 : ℚ) ≠ 0)]
    push_cast
    ring
  have e2 : val (roundQ (u.m * v.m) 1)
      * 2 ^ (((u.up : ℤ) - (u.dn : ℤ)) + ((v.up : ℤ) - (v.dn : ℤ))) = val (mul u v) := by
    rw [val_eq_zpow, val_eq_zpow, mul_assoc, ← zpow_add₀ (by norm_num : (2 : ℚ) ≠ 0)]
    simp only [mul]
    congr 2
    push_cast
    ring
  rw [e1, e2] at h
  exact h

theorem lt_iff (u v : F32) : lt u v = true ↔ val u < val v := by
  simp only [lt, decide_eq_true_eq, val]
  rw [div_lt_div_iff₀ (by positivity) (by positivity)]
  constructor
  · intro h
    have h' : ((u.m * 2 ^ (u.up + v.dn) : Nat) : ℚ) < ((v.m * 2 ^ (v.up + u.dn) : Nat) : ℚ) := by
      exact_mod_cast h
    push_cast at h'
    rw [pow_add, pow_add] at h'
    linarith
  · intro h
    have h' : ((u.m * 2 ^ (u.up + v.dn) : Nat) : ℚ) < ((v.m * 2 ^ (v.up + u.dn) : Nat) : ℚ) := by
      push_cast
      rw [pow_add, pow_add]
      linarith
    exact_mod_cast h'

end F32

open F32

theorem val_max_lf : val max_lf = 11744051 / 2 ^ 24 := by
  simp [val, max_lf]

theorem lfExceeds_eq_false_iff (n t : Nat) :
    lfExceeds n t = false ↔ val (ofNat n) ≤ val (mul (ofNat t) max_lf) := by
  rw [← not_lt, ← lt_iff, lfExceeds]
  simp

/-- The threshold `t * max_lf` computed in binary32 grows with `t`. -/
theorem threshold_mono {t t' : Nat} (h : t ≤ t') :
    val (mul (ofNat t) max_lf) ≤ val (mul (ofNat t') max_lf) := by
  apply (mul_isRound _ _).mono (mul_isRound _ _)
  apply mul_le_mul_of_nonneg_right _ (by rw [val_max_lf]; positivity)
  exact (ofNat_isRound t).mono (ofNat_isRound t') (by exact_mod_cast h)

theorem lfExceeds_mono {n t t' : Nat} (h : t ≤ t') (hf : lfExceeds n t = false) :
    lfExceeds n t' = false := by
  rw [lfExceeds_eq_false_iff] at hf ⊢
  exact le_trans hf (threshold_mono h)

theorem lfExceeds_of_large {n t : Nat} (h : 2 * n ≤ t) : lfExceeds n t = false := by
  rw [lfExceeds_eq_false_iff]
  have b1 := (ofNat_isRound n).bounds.2
  have b2 := (ofNat_isRound t).bounds.1
  have b3 := (mul_isRound (ofNat t) max_lf).bounds.1
  rw [val_max_lf] at b3
  have hq : (2 : ℚ) * n ≤ t := by exact_mod_cast h
  have hn : (0 : ℚ) ≤ n := by positivity
  have c1 : (t : ℚ) * (1 - 1 / 2 ^ 24) * (11744051 / 2 ^ 24) * (1 - 1 / 2 ^ 24)
      ≤ val (ofNat t) * (11744051 / 2 ^ 24) * (1 - 1 / 2 ^ 24) := by
    apply mul_le_mul_of_nonneg_right _ (by norm_num)
    apply mul_le_mul_of_nonneg_right b2 (by norm_num)
  have c2 : (n : ℚ) * (1 + 1 / 2 ^ 24)
      ≤ (t : ℚ) * (1 - 1 / 2 ^ 24) * (11744051 / 2 ^ 24) * (1 - 1 / 2 ^ 24) := by
    norm_num
    linarith
  linarith

/-- For every capacity the test bounds the size by `0.7 * t` up to the rounding error:
`n <= 0.7 * t * (1 + 2 ^ (-22))`. -/
theorem lfExceeds_approx {n t : Nat} (hf : lfExceeds n t = false) :
    10 * n * 2 ^ 22 ≤ 7 * t * (2 ^ 22 + 1) := by
  rw [lfExceeds_eq_false_iff] at hf
  have b1 := (ofNat_isRound n).bounds.1
  have b2 := (ofNat_isRound t).bounds.2
  have b3 := (mul_isRound (ofNat t) max_lf).bounds.2
  rw [val_max_lf] at b3
  have c1 : val (ofNat t) * (11744051 / 2 ^ 24) * (1 + 1 / 2 ^ 24)
      ≤ (t : ℚ) * (1 + 1 / 2 ^ 24) * (11744051 / 2 ^ 24) * (1 + 1 / 2 ^ 24) := by
    apply mul_le_mul_of_nonneg_right _ (by norm_num)
    apply mul_le_mul_of_nonneg_right b2 (by norm_num)
  have h2 : (n : ℚ) * (1 - 1 / 2 ^ 24)
      ≤ (t : ℚ) * (1 + 1 / 2 ^ 24) * (11744051 / 2 ^ 24) * (1 + 1 / 2 ^ 24) := by linarith
  have ht0 : (0 : ℚ) ≤ t := by positivity
  have h3 : (10 : ℚ) * n * 2 ^ 22 ≤ 7 * t * (2 ^ 22 + 1) := by
    norm_num at h2 ⊢
    linarith
  exact_mod_cast h3

theorem nearest_natCast {j m : Nat} (h : Nearest (j : ℚ) m) : m = j := by
  have h1 : |(j : ℚ) - m| < 1 := by
    rcases h with h | h
    · linarith
    · rw [h.1]; norm_num
  rw [abs_lt] at h1
  have a : (j : ℚ) < m + 1 := by linarith [h1.2]
  have b : (m : ℚ) < j + 1 := by linarith [h1.1]
  have a' : j < m + 1 := by exact_mod_cast a
  have b' : m < j + 1 := by exact_mod_cast b
  omega

/-- A natural number below `2 ^ 24` is a binary32 value: rounding leaves it as it is. -/
theorem isRound_natCast {j : Nat} {v : ℚ} (h : IsRound (j : ℚ) v) (hj : j < 2 ^ 24) :
    v = j := by
  rcases h with ⟨hx, hv⟩ | ⟨σ, m, h1, _, h3, hv⟩
  · rw [hv, hx]
  · have hjq : (j : ℚ) < 16777216 := by
      have : j < 16777216 := by omega
      exact_mod_cast this
    have hp : (0 : ℚ) < 2 ^ σ := by positivity
    have hσ : σ ≤ 0 := by
      by_contra hc
      have h1σ : (1 : ℤ) ≤ σ := by omega
      have h2 : (2 : ℚ) ^ (1 : ℤ) ≤ 2 ^ σ := zpow_le_zpow_right₀ (by norm_num) h1σ
      rw [le_div_iff₀ hp] at h1
      norm_num at h2 h1
      linarith
    obtain ⟨k, hk⟩ := Int.exists_eq_neg_ofNat hσ
    have e : (j : ℚ) / 2 ^ σ = ((j * 2 ^ k : Nat) : ℚ) := by
      rw [hk, zpow_neg, zpow_natCast]
      push_cast
      field_simp
    rw [e] at h3
    have hm := nearest_natCast h3
    rw [hv, hm, hk, zpow_neg, zpow_natCast]
    push_cast
    field_simp

/-- Below `2 ^ k` the spacing of binary32 values is at most `2 ^ (k - 24)`, so rounding
moves a number up by at most half of that. -/
theorem isRound_upper {x v : ℚ} (h : IsRound x v) {k : Nat} (hk : k ≤ 24) (hx : x < 2 ^ k) :
    v * 2 ^ (25 - k) ≤ x * 2 ^ (25 - k) + 1 := by
  rcases h with ⟨hx0, hv⟩ | ⟨σ, m, h1, _, h3, hv⟩
  · rw [hv, hx0]; simp
  · have hp : (0 : ℚ) < 2 ^ σ := by positivity
    have b := (nearest_bounds h3).2
    have hσ : σ + 24 ≤ k := by
      by_contra hc
      have h1σ : (k : ℤ) ≤ σ + 23 := by omega
      have h2 : (2 : ℚ) ^ (k : ℤ) ≤ 2 ^ (σ + 23) := zpow_le_zpow_right₀ (by norm_num) h1σ
      rw [zpow_natCast, zpow_add₀ (by norm_num : (2 : ℚ) ≠ 0)] at h2
      rw [le_div_iff₀ hp] at h1
      have h3 : (2 : ℚ) ^ (23 : ℤ) = 2 ^ 23 := by norm_num
      rw [h3] at h2
      linarith
    have hs : (2 : ℚ) ^ σ * 2 ^ (24 - k) ≤ 1 := by
      have e : (2 : ℚ) ^ σ * 2 ^ (24 - k) = 2 ^ (σ + ((24 - k : Nat) : ℤ)) := by
        rw [zpow_add₀ (by norm_num : (2 : ℚ) ≠ 0), zpow_natCast]
      rw [e]
      have hle : σ + ((24 - k : Nat) : ℤ) ≤ 0 := by omega
      have := zpow_le_zpow_right₀ (by norm_num : (1 : ℚ) ≤ 2) hle
      simpa using this
    have e25 : (2 : ℚ) ^ (25 - k) = 2 * 2 ^ (24 - k) := by
      have : 25 - k = (24 - k) + 1 := by omega
      rw [this, pow_succ]
      ring
    have hv2 : v ≤ x + 2 ^ σ / 2 := by
      rw [hv]
      calc (m : ℚ) * 2 ^ σ ≤ (x / 2 ^ σ + 1 / 2) * 2 ^ σ :=
            mul_le_mul_of_nonneg_right b (le_of_lt hp)
        _ = x + 2 ^ σ / 2 := by
            field_simp
            ring
    have hpk : (0 : ℚ) < 2 ^ (24 - k) := by positivity
    rw [e25]
    nlinarith [mul_le_mul_of_nonneg_right hv2 (le_of_lt hpk)]

/-- For a capacity below `2 ^ 22` the test bounds the size by `0.7 * t` exactly. -/
theorem lfExceeds_exact {n t : Nat} (hf : lfExceeds n t = false) (ht : t < 2 ^ 22) :
    10 * n ≤ 7 * t := by
  have ha := lfExceeds_approx hf
  have hn : n < 2 ^ 24 := by omega
  rw [lfExceeds_eq_false_iff] at hf
  have en : val (ofNat n) = n := isRound_natCast (ofNat_isRound n) hn
  have et : val (ofNat t) = t := isRound_natCast (ofNat_isRound t) (by omega)
  have hr := mul_isRound (ofNat t) max_lf
  rw [et, val_max_lf] at hr
  rw [en] at hf
  have htq : (t : ℚ) < 2 ^ 22 := by exact_mod_cast ht
  have ht0 : (0 : ℚ) ≤ t := by positivity
  by_contra hcon
  have h1 : 7 * t + 1 ≤ 10 * n := by omega
  have h1q : (7 : ℚ) * t + 1 ≤ 10 * n := by exact_mod_cast h1
  by_cases hx : (t : ℚ) * (11744051 / 2 ^ 24) < 2 ^ 21
  · have hb := isRound_upper hr (by norm_num : 21 ≤ 24) hx
    norm_num at hb
    linarith
  · have hx2 : (t : ℚ) * (11744051 / 2 ^ 24) < 2 ^ 22 := by
      norm_num
      linarith
    have hb := isRound_upper hr (by norm_num : 22 ≤ 24) hx2
    norm_num at hb hx
    linarith

theorem reserve_loop_ge (n : Nat) : ∀ fuel t, t ≤ reserve_loop n fuel t := by
  intro fuel
  induction fuel with
  | zero => intro t; exact le_refl _
  | succ f ih =>
    intro t
    simp only [reserve_loop]
    split_ifs
    · exact le_trans (by omega) (ih (t * 2 + 1))
    · exact le_refl _

theorem reserve_loop_exit_aux (n : Nat) :
    ∀ fuel t, 2 * n + 1 ≤ 2 ^ fuel * (t + 1) → lfExceeds n (reserve_loop n fuel t) = false := by
  intro fuel
  induction fuel with
  | zero =>
    intro t h
    simp only [reserve_loop]
    exact lfExceeds_of_large (by simpa using (by omega : 2 * n + 1 ≤ 2 ^ 0 * (t + 1) → 2 * n ≤ t) h)
  | succ f ih =>
    intro t h
    simp only [reserve_loop]
    split_ifs with hc
    · apply ih
      calc 2 * n + 1 ≤ 2 ^ (f + 1) * (t + 1) := h
        _ = 2 ^ f * (t * 2 + 1 + 1) := by rw [pow_succ]; ring
    · simpa using hc

/-- The loop of `reserve` leaves through its condition within `n + 4` rounds. -/
theorem reserve_loop_exit (n t : Nat) : lfExceeds n (reserve_loop n (n + 4) t) = false := by
  apply reserve_loop_exit_aux
  have h1 : n < 2 ^ n := Nat.lt_two_pow n
  have h2 : 2 ^ (n + 4) = 16 * 2 ^ n := by rw [pow_add]; ring
  calc 2 * n + 1 ≤ 2 ^ (n + 4) := by omega
    _ ≤ 2 ^ (n + 4) * (t + 1) := Nat.le_mul_of_pos_right _ (by omega)

end Rounding

section Basic

variable {Key : Type} [DecidableEq Key] [Inhabited Key] (hash : Key → Nat) (N : Nat)

theorem bucketAt_set (s : ADS_set Key) (p i : Nat) (b : Bucket Key) (ts es : Nat) :
    (ADS_set.mk ts es (s.table.set p b)).bucketAt i
      = if p = i ∧ p < s.table.length then b else s.bucketAt i := by
  simp only [ADS_set.bucketAt, getD_set_eq]

theorem count_chain_le (key : Key) (l : List (Element Key)) :
    count_chain key l = 0 ∨ count_chain key l = 1 := by
  induction l with
  | nil => left; rfl
  | cons e rest ih =>
    simp only [count_chain]
    split_ifs
    · right; rfl
    · exact ih

theorem count_le (s : ADS_set Key) (key : Key) :
    count hash s key = 0 ∨ count hash s key = 1 := by
  simp only [count]
  split_ifs
  · right; rfl
  · exact count_chain_le key _

theorem count_chain_eq_one (key : Key) (l : List (Element Key))
    (hl : ∀ e ∈ l, e.mode = Mode.inuse) :
    count_chain key l = 1 ↔ key ∈ l.map (fun e => e.key) := by
  induction l with
  | nil => simp [count_chain]
  | cons e rest ih =>
    have he := hl e (List.mem_cons_self _ _)
    have ih' := ih (fun x hx => hl x (List.mem_cons_of_mem _ hx))
    simp only [count_chain, he, true_and, List.map_cons, List.mem_cons]
    by_cases hk : e.key = key
    · simp [hk]
    · simp only [hk, if_false, ih']
      constructor
      · intro h; exact Or.inr h
      · rintro (h | h)
        · exact absurd h.symm hk
        · exact h

theorem count_eq_one_iff_bucket (s : ADS_set Key) (key : Key) (ts i : Nat)
    (hb : BucketOK hash ts i (s.bucketAt (hash_idx hash s key))) :
    count hash s key = 1 ↔ key ∈ bucketKeys (s.bucketAt (hash_idx hash s key)) := by
  simp only [count, bucketKeys]
  by_cases hm : (s.bucketAt (hash_idx hash s key)).slot.mode = Mode.inuse
  · simp only [hm, true_and, if_true, List.mem_cons]
    by_cases hk : key = (s.bucketAt (hash_idx hash s key)).slot.key
    · rw [if_pos hk]
      exact ⟨fun _ => Or.inl hk, fun _ => rfl⟩
    · simp only [hk, if_false, false_or]
      exact count_chain_eq_one key _ (fun e he => (hb.chain e he).1)
  · simp [hm, hb.free_chain hm, count_chain]

theorem mem_keysOf (s : ADS_set Key) (k : Key) :
    k ∈ keysOf s ↔ ∃ i, i < s.tableSize ∧ k ∈ bucketKeys (s.bucketAt i) := by
  simp [keysOf, List.mem_flatMap]

theorem hash_idx_lt (s : ADS_set Key) (hs : Inv hash N s) (k : Key) :
    hash_idx hash s k < s.tableSize :=
  Nat.mod_lt _ hs.pos

theorem mem_keysOf_iff_count (s : ADS_set Key) (hs : Inv hash N s) (k : Key) :
    k ∈ keysOf s ↔ count hash s k = 1 := by
  have hlt := hash_idx_lt hash N s hs k
  rw [count_eq_one_iff_bucket hash s k _ _ (hs.buckets _ hlt), mem_keysOf]
  constructor
  · rintro ⟨i, hi, hk⟩
    have := (hs.buckets i hi).home k hk
    have hidx : hash_idx hash s k = i := this
    rw [hidx]; exact hk
  · intro hk
    exact ⟨_, hlt, hk⟩

theorem nodup_keysOf (s : ADS_set Key) (hs : Inv hash N s) : (keysOf s).Nodup := by
  rw [keysOf, List.nodup_flatMap]
  refine ⟨fun i hi => (hs.buckets i (List.mem_range.mp hi)).nodup, ?_⟩
  refine (List.nodup_range _).pairwise_of_forall_ne ?_
  intro i hi j hj hij
  simp only [Function.onFun]
  intro k hki hkj
  have h1 := (hs.buckets i (List.mem_range.mp hi)).home k hki
  have h2 := (hs.buckets j (List.mem_range.mp hj)).home k hkj
  exact hij (h1.symm.trans h2)

theorem count_eq_zero_iff (s : ADS_set Key) (hs : Inv hash N s) (k : Key) :
    count hash s k = 0 ↔ k ∉ keysOf s := by
  rw [mem_keysOf_iff_count hash N s hs]
  rcases count_le hash s k with h | h <;> simp [h]

/-! ## Replacing one bucket -/

theorem Inv.update {s : ADS_set Key} (hs : Inv hash N s) {p : Nat} (hp : p < s.tableSize)
    {b : Bucket Key} (hb : BucketOK hash s.tableSize p b) {es : Nat}
    (hes : es + (bucketKeys (s.bucketAt p)).length
      = s.elementSize + (bucketKeys b).length) :
    Inv hash N ⟨s.tableSize, es, s.table.set p b⟩ := by
  have hlen : p < s.table.length := by rw [hs.len]; omega
  refine ⟨hs.cap, hs.pos, ?_, ?_, ?_, ?_⟩
  · simp [hs.len]
  · intro i hi
    rw [bucketAt_set]
    by_cases hpi : p = i
    · subst hpi; simpa [hlen] using hb
    · simpa [hpi] using hs.buckets i hi
  · rw [bucketAt_set]
    have : ¬ (p = s.tableSize) := by omega
    simpa [this] using hs.sentinel
  · have h := length_flatMap_update (fun i => bucketKeys (s.bucketAt i))
      (fun i => bucketKeys ((ADS_set.mk s.tableSize es (s.table.set p b)).bucketAt i)) p
      (by
        intro i hi
        simp only [bucketAt_set]
        rw [if_neg]
        intro h; exact hi h.1.symm) s.tableSize hp
    have hb' : (ADS_set.mk s.tableSize es (s.table.set p b)).bucketAt p = b := by
      rw [bucketAt_set]; simp [hlen]
    simp only [hb'] at h
    have hl := hs.live
    simp only [keysOf] at hl ⊢
    omega

theorem count_update {s : ADS_set Key} (hs : Inv hash N s) {p : Nat} (hp : p < s.tableSize)
    {b : Bucket Key} (hb : BucketOK hash s.tableSize p b) (es : Nat) (k : Key) :
    count hash ⟨s.tableSize, es, s.table.set p b⟩ k = 1 ↔
      if hash_idx hash s k = p then k ∈ bucketKeys b else count hash s k = 1 := by
  have hlen : p < s.table.length := by rw [hs.len]; omega
  have hidx : hash_idx hash (ADS_set.mk s.tableSize es (s.table.set p b)) k
      = hash_idx hash s k := rfl
  have hlt := hash_idx_lt hash N s hs k
  by_cases hkp : hash_idx hash s k = p
  · have hbk : (ADS_set.mk s.tableSize es (s.table.set p b)).bucketAt
        (hash_idx hash (ADS_set.mk s.tableSize es (s.table.set p b)) k) = b := by
      rw [hidx, bucketAt_set, hkp]; simp [hlen]
    rw [count_eq_one_iff_bucket hash _ k s.tableSize p (by rw [hbk]; exact hb), hbk, if_pos hkp]
  · have hbk : (ADS_set.mk s.tableSize es (s.table.set p b)).bucketAt
        (hash_idx hash (ADS_set.mk s.tableSize es (s.table.set p b)) k)
        = s.bucketAt (hash_idx hash s k) := by
      rw [hidx, bucketAt_set, if_neg]
      intro h; exact hkp h.1.symm
    rw [if_neg hkp,
      count_eq_one_iff_bucket hash _ k s.tableSize (hash_idx hash s k)
        (by rw [hbk]; exact hs.buckets _ hlt), hbk,
      count_eq_one_iff_bucket hash s k _ _ (hs.buckets _ hlt)]

/-! ## Raw placement -/

theorem bucketKeys_place {ts i : Nat} {b : Bucket Key} (hb : BucketOK hash ts i b) (key : Key) :
    bucketKeys (place b key) = key :: bucketKeys b := by
  by_cases hm : b.slot.mode = Mode.inuse
  · simp [place, bucketKeys, hm]
  · simp [place, bucketKeys, hm, hb.free_chain hm]

theorem bucketOK_place {ts i : Nat} {b : Bucket Key} (hb : BucketOK hash ts i b) (key : Key)
    (hhome : hash key % ts = i) (hnew : key ∉ bucketKeys b) :
    BucketOK hash ts i (place b key) := by
  have hkeys := bucketKeys_place hash hb key
  refine ⟨?_, ?_, ?_, ?_, ?_, ?_⟩
  · by_cases hm : b.slot.mode = Mode.inuse <;> simp [place, hm, hb.link]
  · by_cases hm : b.slot.mode = Mode.inuse <;> simp [place, hm]
  · intro h
    exfalso; apply h
    by_cases hm : b.slot.mode = Mode.inuse <;> simp [place, hm]
  · intro e he
    by_cases hm : b.slot.mode = Mode.inuse
    · simp only [place, hm, ne_eq, not_true_eq_false, if_false, List.mem_cons] at he
      rcases he with rfl | he
      · exact ⟨rfl, hb.link⟩
      · exact hb.chain e he
    · simp only [place, hm, ne_eq, not_false_eq_true, if_true, hb.free_chain hm,
        List.not_mem_nil] at he
  · intro k hk
    rw [hkeys, List.mem_cons] at hk
    rcases hk with rfl | hk
    · exact hhome
    · exact hb.home k hk
  · rw [hkeys]
    exact List.nodup_cons.mpr ⟨hnew, hb.nodup⟩

theorem insertReal_tableSize (s : ADS_set Key) (key : Key) :
    (insertReal hash s key).1.tableSize = s.tableSize := by
  simp only [insertReal]
  split_ifs <;> rfl

theorem insertReal_inv {s : ADS_set Key} (hs : Inv hash N s) (key : Key) :
    Inv hash N (insertReal hash s key).1 := by
  simp only [insertReal]
  split_ifs with hc
  · have hlt := hash_idx_lt hash N s hs key
    have hb := hs.buckets _ hlt
    have hnew : key ∉ bucketKeys (s.bucketAt (hash_idx hash s key)) := by
      rw [← count_eq_one_iff_bucket hash s key _ _ hb, hc]; simp
    refine Inv.update hash N hs hlt (bucketOK_place hash hb key rfl hnew) ?_
    rw [bucketKeys_place hash hb]; simp; omega
  · exact hs

theorem insertReal_count {s : ADS_set Key} (hs : Inv hash N s) (key k : Key) :
    count hash (insertReal hash s key).1 k = if k = key then 1 else count hash s k := by
  simp only [insertReal]
  split_ifs with hc hk hk
  · subst hk
    have hlt := hash_idx_lt hash N s hs k
    have hb := hs.buckets _ hlt
    have hnew : k ∉ bucketKeys (s.bucketAt (hash_idx hash s k)) := by
      rw [← count_eq_one_iff_bucket hash s k _ _ hb, hc]; simp
    rw [count_update hash N hs hlt (bucketOK_place hash hb k rfl hnew), if_pos rfl,
      bucketKeys_place hash hb]
    exact List.mem_cons_self _ _
  · have hlt := hash_idx_lt hash N s hs key
    have hb := hs.buckets _ hlt
    have hnew : key ∉ bucketKeys (s.bucketAt (hash_idx hash s key)) := by
      rw [← count_eq_one_iff_bucket hash s key _ _ hb, hc]; simp
    have hiff := count_update hash N hs hlt (bucketOK_place hash hb key rfl hnew)
      (s.elementSize + 1) k
    have hiff' : count hash ⟨s.tableSize, s.elementSize + 1,
        s.table.set (hash_idx hash s key) (place (s.bucketAt (hash_idx hash s key)) key)⟩ k = 1
        ↔ count hash s k = 1 := by
      rw [hiff]
      split_ifs with hkp
      · rw [bucketKeys_place hash hb, List.mem_cons, ← hkp,
          count_eq_one_iff_bucket hash s k _ _ (hs.buckets _ (hash_idx_lt hash N s hs k))]
        simp [hk]
      · rfl
    rcases count_le hash ⟨s.tableSize, s.elementSize + 1,
        s.table.set (hash_idx hash s key) (place (s.bucketAt (hash_idx hash s key)) key)⟩ k
      with h0 | h1
    · rcases count_le hash s k with h0' | h1'
      · rw [h0, h0']
      · exact absurd (hiff'.mpr h1') (by rw [h0]; simp)
    · rw [h1, hiff'.mp h1]
  · subst hk
    rcases count_le hash s k with h | h
    · exact absurd h hc
    · exact h
  · rfl

theorem insertReal_elementSize (s : ADS_set Key) (key : Key) :
    (insertReal hash s key).1.elementSize
      = s.elementSize + (if count hash s key = 0 then 1 else 0) := by
  simp only [insertReal]
  split_ifs <;> rfl

theorem insertReal_pos (s : ADS_set Key) (key : Key) (hc : count hash s key = 0) :
    (insertReal hash s key).2 = some ⟨hash_idx hash s key, 0⟩ := by
  simp [insertReal, hc]

/-! ## Placing a sequence of keys -/

theorem placeAll_spec (l : List Key) :
    ∀ s : ADS_set Key, Inv hash N s →
      Inv hash N (placeAll hash s l) ∧ (placeAll hash s l).tableSize = s.tableSize ∧
      ∀ k, count hash (placeAll hash s l) k = if k ∈ l then 1 else count hash s k := by
  induction l with
  | nil => intro s hs; exact ⟨hs, rfl, fun k => by simp [placeAll]⟩
  | cons a rest ih =>
    intro s hs
    have h1 := insertReal_inv hash N hs a
    obtain ⟨hi, ht, hc⟩ := ih _ h1
    refine ⟨hi, ?_, ?_⟩
    · simp only [placeAll, List.foldl_cons] at ht ⊢
      rw [ht, insertReal_tableSize]
    · intro k
      have := hc k
      simp only [placeAll, List.foldl_cons] at this ⊢
      rw [this, insertReal_count hash N hs]
      by_cases hk : k ∈ rest
      · simp [hk]
      · by_cases hka : k = a
        · simp [hka]
        · simp [hk, hka]

theorem size_eq_of_count_eq {s s' : ADS_set Key} (hs : Inv hash N s) (hs' : Inv hash N s')
    (h : ∀ k, count hash s' k = count hash s k) : s'.elementSize = s.elementSize := by
  rw [hs.live, hs'.live]
  apply List.Perm.length_eq
  rw [List.perm_ext_iff_of_nodup (nodup_keysOf hash N s' hs') (nodup_keysOf hash N s hs)]
  intro k
  rw [mem_keysOf_iff_count hash N s' hs', mem_keysOf_iff_count hash N s hs, h]

/-! ## The fresh table and rehash -/

theorem newTable_length (n : Nat) : (newTable n : List (Bucket Key)).length = n + 1 := by
  simp [newTable]

theorem newTable_getD_lt {n i : Nat} (hi : i < n) :
    (newTable n : List (Bucket Key)).getD i Bucket.fresh
      = ⟨⟨default, Mode.free, some (i + 1)⟩, []⟩ := by
  rw [List.getD_eq_getElem?_getD, newTable,
    List.getElem?_append_left (by simpa using hi), List.getElem?_map,
    List.getElem?_range hi]
  rfl

theorem newTable_getD_last (n : Nat) :
    (newTable n : List (Bucket Key)).getD n Bucket.fresh = ⟨⟨default, Mode.end, none⟩, []⟩ := by
  rw [List.getD_eq_getElem?_getD, newTable,
    List.getElem?_append_right (by simp)]
  simp

theorem bucketAt_newTable_lt {n i : Nat} (hi : i < n) :
    (⟨n, 0, newTable n⟩ : ADS_set Key).bucketAt i
      = ⟨⟨default, Mode.free, some (i + 1)⟩, []⟩ :=
  newTable_getD_lt hi

theorem bucketAt_newTable_last (n : Nat) :
    (⟨n, 0, newTable n⟩ : ADS_set Key).bucketAt n = ⟨⟨default, Mode.end, none⟩, []⟩ :=
  newTable_getD_last n

theorem keysOf_newTable (n : Nat) :
    keysOf (⟨n, 0, newTable n⟩ : ADS_set Key) = [] := by
  simp only [keysOf, List.flatMap_eq_nil_iff, List.mem_range]
  intro i hi
  rw [bucketAt_newTable_lt hi]
  simp [bucketKeys]

theorem inv_newTable {n : Nat} (hN : N ≤ n) (hn : 0 < n) :
    Inv hash N (⟨n, 0, newTable n⟩ : ADS_set Key) := by
  refine ⟨hN, hn, newTable_length n, ?_, ?_, ?_⟩
  · intro i hi
    rw [bucketAt_newTable_lt hi]
    refine ⟨rfl, by simp, fun _ => rfl, by simp, by simp [bucketKeys], by simp [bucketKeys]⟩
  · rw [bucketAt_newTable_last]
    exact ⟨rfl, rfl⟩
  · rw [keysOf_newTable]; rfl

theorem count_newTable {n : Nat} (hn : 0 < n) (k : Key) :
    count hash (⟨n, 0, newTable n⟩ : ADS_set Key) k = 0 := by
  have hlt : hash k % n < n := Nat.mod_lt _ hn
  simp only [count, hash_idx]
  rw [bucketAt_newTable_lt hlt]
  simp [count_chain]

theorem migrateChain_eq (l : List (Element Key)) (hl : ∀ e ∈ l, e.mode = Mode.inuse) :
    ∀ s : ADS_set Key, migrateChain hash s l = placeAll hash s (l.map (fun e => e.key)) := by
  induction l with
  | nil => intro s; rfl
  | cons e rest ih =>
    intro s
    simp only [migrateChain, hl e (List.mem_cons_self _ _), if_true, List.map_cons]
    rw [ih (fun x hx => hl x (List.mem_cons_of_mem _ hx))]
    rfl

theorem migrateBucket_eq {ts i : Nat} {b : Bucket Key} (hb : BucketOK hash ts i b)
    (s : ADS_set Key) : migrateBucket hash s b = placeAll hash s (bucketKeys b) := by
  simp only [migrateBucket, bucketKeys]
  split_ifs with hm
  · rw [migrateChain_eq]
    · rfl
    · intro e he
      rcases List.mem_cons.mp he with rfl | he
      · exact hm
      · exact (hb.chain e he).1
  · rfl

theorem foldl_placeAll (f : Nat → List Key) (L : List Nat) :
    ∀ s : ADS_set Key,
      L.foldl (fun acc i => placeAll hash acc (f i)) s = placeAll hash s (L.flatMap f) := by
  induction L with
  | nil => intro s; rfl
  | cons i rest ih =>
    intro s
    simp only [List.foldl_cons, List.flatMap_cons]
    rw [ih]
    simp [placeAll, List.foldl_append]

theorem rehash_eq (s : ADS_set Key) (n : Nat)
    (hb : ∀ i, i < s.tableSize → BucketOK hash s.tableSize i (s.bucketAt i)) :
    rehash hash N s n
      = placeAll hash ⟨max (max n (lfQuot s.elementSize)) N, 0,
          newTable (max (max n (lfQuot s.elementSize)) N)⟩ (keysOf s) := by
  simp only [rehash, keysOf]
  rw [← foldl_placeAll]
  apply List.foldl_ext
  intro acc i hi
  exact migrateBucket_eq hash (hb i (List.mem_range.mp hi)) acc

theorem rehash_spec (hN : 0 < N) (s : ADS_set Key) (n : Nat)
    (hb : ∀ i, i < s.tableSize → BucketOK hash s.tableSize i (s.bucketAt i)) :
    Inv hash N (rehash hash N s n) ∧
      (rehash hash N s n).tableSize = max (max n (lfQuot s.elementSize)) N ∧
      ∀ k, count hash (rehash hash N s n) k = if k ∈ keysOf s then 1 else 0 := by
  rw [rehash_eq hash N s n hb]
  have h0 : Inv hash N (⟨max (max n (lfQuot s.elementSize)) N, 0,
      newTable (max (max n (lfQuot s.elementSize)) N)⟩ : ADS_set Key) :=
    inv_newTable hash N (le_max_right _ _) (lt_of_lt_of_le hN (le_max_right _ _))
  obtain ⟨hi, ht, hc⟩ := placeAll_spec hash N (keysOf s) _ h0
  refine ⟨hi, ht, ?_⟩
  intro k
  rw [hc k, count_newTable hash (lt_of_lt_of_le hN (le_max_right _ _))]

theorem rehash_count (hN : 0 < N) {s : ADS_set Key} (hs : Inv hash N s) (n : Nat) (k : Key) :
    count hash (rehash hash N s n) k = count hash s k := by
  rw [(rehash_spec hash N hN s n hs.buckets).2.2 k]
  rcases count_le hash s k with h | h
  · rw [h, if_neg]
    rw [mem_keysOf_iff_count hash N s hs, h]; simp
  · rw [h, if_pos]
    rw [mem_keysOf_iff_count hash N s hs, h]

theorem rehash_inv (hN : 0 < N) {s : ADS_set Key} (hs : Inv hash N s) (n : Nat) :
    Inv hash N (rehash hash N s n) :=
  (rehash_spec hash N hN s n hs.buckets).1

theorem rehash_elementSize (hN : 0 < N) {s : ADS_set Key} (hs : Inv hash N s) (n : Nat) :
    (rehash hash N s n).elementSize = s.elementSize :=
  size_eq_of_count_eq hash N hs (rehash_inv hash N hN hs n) (rehash_count hash N hN hs n)

theorem ctor_inv (hN : 0 < N) : Inv hash N (ADS_set.ctor hash N : ADS_set Key) :=
  (rehash_spec hash N hN _ N (fun i hi => absurd hi (Nat.not_lt_zero i))).1

theorem ctor_count (hN : 0 < N) (k : Key) :
    count hash (ADS_set.ctor hash N : ADS_set Key) k = 0 := by
  have h := (rehash_spec hash N hN
    ({ (ADS_set.init : ADS_set Key) with tableSize := 0 }) N
    (fun i hi => absurd hi (Nat.not_lt_zero i))).2.2 k
  rw [ADS_set.ctor, h]
  simp [keysOf, ADS_set.init]

/-! ## Growth check -/

theorem reserve_inv (hN : 0 < N) {s : ADS_set Key} (hs : Inv hash N s) (n : Nat) :
    Inv hash N (reserve hash N s n) := by
  simp only [reserve]
  split_ifs
  · exact rehash_inv hash N hN hs _
  · exact hs

theorem reserve_count (hN : 0 < N) {s : ADS_set Key} (hs : Inv hash N s) (n : Nat) (k : Key) :
    count hash (reserve hash N s n) k = count hash s k := by
  simp only [reserve]
  split_ifs
  · exact rehash_count hash N hN hs _ k
  · rfl

theorem reserve_elementSize (hN : 0 < N) {s : ADS_set Key} (hs : Inv hash N s) (n : Nat) :
    (reserve hash N s n).elementSize = s.elementSize :=
  size_eq_of_count_eq hash N hs (reserve_inv hash N hN hs n) (reserve_count hash N hN hs n)

theorem reserve_load_factor (hN : 0 < N) {s : ADS_set Key} (hs : Inv hash N s) (n : Nat) :
    lfExceeds n (reserve hash N s n).tableSize = false := by
  simp only [reserve]
  split_ifs with h
  · rw [(rehash_spec hash N hN s _ hs.buckets).2.1]
    exact lfExceeds_mono (le_trans (le_max_left _ _) (le_max_left _ _))
      (reserve_loop_exit n s.tableSize)
  · simpa using h

/-! ## Erase -/

theorem erase_chain_spec (key : Key) (L : Nat) (rest : List (Element Key)) :
    ∀ cur : Element Key, cur.nextElementOfChain = some L →
      (∀ e ∈ rest, e.mode = Mode.inuse ∧ e.nextElementOfChain = some L) →
      (key ∉ rest.map (fun e => e.key) → erase_chain key cur rest = none) ∧
      (key ∈ rest.map (fun e => e.key) →
        ∃ rest', erase_chain key cur rest = some (cur, rest') ∧
          rest'.map (fun e => e.key) = (rest.map (fun e => e.key)).erase key ∧
          ∀ e ∈ rest', e ∈ rest) := by
  induction rest with
  | nil =>
    intro cur _ _
    exact ⟨fun _ => rfl, fun h => absurd h (by simp)⟩
  | cons n tl ih =>
    intro cur hcur hall
    have hn := hall n (List.mem_cons_self _ _)
    have htl : ∀ e ∈ tl, e.mode = Mode.inuse ∧ e.nextElementOfChain = some L :=
      fun e he => hall e (List.mem_cons_of_mem _ he)
    obtain ⟨ih1, ih2⟩ := ih n hn.2 htl
    have hfree : n.mode ≠ Mode.free := by rw [hn.1]; simp
    by_cases hk : key = n.key
    · refine ⟨fun h => absurd (by simp [hk]) h, fun _ => ?_⟩
      refine ⟨tl, ?_, ?_, fun e he => List.mem_cons_of_mem _ he⟩
      · cases tl with
        | nil =>
          have : ({ cur with nextElementOfChain := n.nextElementOfChain } : Element Key) = cur := by
            cases cur; simp_all
          simp [erase_chain, hk, hfree, this]
        | cons t tt => simp [erase_chain, hk, hfree]
      · simp [hk]
    · have hk' : ¬ (n.key = key) := fun h => hk h.symm
      constructor
      · intro hnot
        have : key ∉ tl.map (fun e => e.key) := fun h => hnot (by simp at h ⊢; exact Or.inr h)
        simp [erase_chain, hk, ih1 this]
      · intro hin
        have : key ∈ tl.map (fun e => e.key) := by
          simp only [List.map_cons, List.mem_cons] at hin
          rcases hin with h | h
          · exact absurd h hk
          · exact h
        obtain ⟨rest', h1, h2, h3⟩ := ih2 this
        refine ⟨n :: rest', ?_, ?_, ?_⟩
        · simp [erase_chain, hk, h1]
        · simp only [List.map_cons, h2]
          rw [List.erase_cons_tail]
          simpa using hk'
        · intro e he
          rcases List.mem_cons.mp he with rfl | he
          · exact List.mem_cons_self _ _
          · exact List.mem_cons_of_mem _ (h3 e he)

theorem erase_cases {s : ADS_set Key} (hs : Inv hash N s) (key : Key) :
    (count hash s key = 0 ∧ erase hash s key = (s, 0)) ∨
    (count hash s key = 1 ∧ ∃ b' : Bucket Key,
      erase hash s key
        = (⟨s.tableSize, s.elementSize - 1, s.table.set (hash_idx hash s key) b'⟩, 1) ∧
      BucketOK hash s.tableSize (hash_idx hash s key) b' ∧
      bucketKeys b' = (bucketKeys (s.bucketAt (hash_idx hash s key))).erase key) := by
  have hlt := hash_idx_lt hash N s hs key
  have hb := hs.buckets _ hlt
  have hcnt := count_eq_one_iff_bucket hash s key _ _ hb
  have hzero : key ∉ bucketKeys (s.bucketAt (hash_idx hash s key)) → count hash s key = 0 := by
    intro h
    rcases count_le hash s key with h0 | h1
    · exact h0
    · exact absurd (hcnt.mp h1) h
  by_cases hm : (s.bucketAt (hash_idx hash s key)).slot.mode = Mode.inuse
  · have hfree : (s.bucketAt (hash_idx hash s key)).slot.mode ≠ Mode.free := by rw [hm]; simp
    have hkeys : bucketKeys (s.bucketAt (hash_idx hash s key))
        = (s.bucketAt (hash_idx hash s key)).slot.key
          :: (s.bucketAt (hash_idx hash s key)).chain.map (fun e => e.key) := by
      simp [bucketKeys, hm]
    by_cases hk : key = (s.bucketAt (hash_idx hash s key)).slot.key
    · right
      refine ⟨hcnt.mpr (by rw [hkeys]; exact List.mem_cons.mpr (Or.inl hk)), ?_⟩
      cases hch : (s.bucketAt (hash_idx hash s key)).chain with
      | nil =>
        refine ⟨{ s.bucketAt (hash_idx hash s key) with
          slot := { (s.bucketAt (hash_idx hash s key)).slot with mode := Mode.free } }, ?_, ?_, ?_⟩
        · simp only [erase, hm, if_true]
          rw [if_pos ⟨hk, by simp⟩, hch]
        · refine ⟨hb.link, by simp, fun _ => hch, by simp [hch], by simp [bucketKeys],
            by simp [bucketKeys]⟩
        · rw [hkeys, hch, ← hk]
          simp [bucketKeys]
      | cons n rest =>
        have hn := hb.chain n (by rw [hch]; exact List.mem_cons_self _ _)
        have hkeys' : bucketKeys (⟨⟨n.key, n.mode, n.nextElementOfChain⟩, rest⟩ : Bucket Key)
            = n.key :: rest.map (fun e => e.key) := by
          simp [bucketKeys, hn.1]
        have hsub : bucketKeys (⟨⟨n.key, n.mode, n.nextElementOfChain⟩, rest⟩ : Bucket Key)
            = (bucketKeys (s.bucketAt (hash_idx hash s key))).erase key := by
          rw [hkeys, hkeys', hch, ← hk]
          simp
        refine ⟨⟨⟨n.key, n.mode, n.nextElementOfChain⟩, rest⟩, ?_, ?_, hsub⟩
        · simp only [erase, hm, if_true]
          rw [if_pos ⟨hk, by simp⟩, hch]
        · refine ⟨hn.2, by simp [hn.1], ?_, ?_, ?_, ?_⟩
          · intro h; exact absurd hn.1 h
          · intro e he
            exact hb.chain e (by rw [hch]; exact List.mem_cons_of_mem _ he)
          · intro k hk'
            rw [hsub] at hk'
            exact hb.home k (List.mem_of_mem_erase hk')
          · rw [hsub]
            exact hb.nodup.erase _
    · obtain ⟨e1, e2⟩ := erase_chain_spec key (hash_idx hash s key + 1)
        (s.bucketAt (hash_idx hash s key)).chain (s.bucketAt (hash_idx hash s key)).slot
        hb.link hb.chain
      by_cases hin : key ∈ (s.bucketAt (hash_idx hash s key)).chain.map (fun e => e.key)
      · right
        obtain ⟨rest', h1, h2, h3⟩ := e2 hin
        have hkeys' : bucketKeys (⟨(s.bucketAt (hash_idx hash s key)).slot, rest'⟩ : Bucket Key)
            = (bucketKeys (s.bucketAt (hash_idx hash s key))).erase key := by
          rw [hkeys, List.erase_cons_tail (by simpa using fun h => hk h.symm), ← h2]
          simp [bucketKeys, hm]
        refine ⟨hcnt.mpr (by rw [hkeys]; exact List.mem_cons_of_mem _ hin),
          ⟨(s.bucketAt (hash_idx hash s key)).slot, rest'⟩, ?_, ?_, hkeys'⟩
        · simp only [erase, hm, if_true]
          rw [if_neg (fun h => hk h.1), h1]
        · refine ⟨hb.link, hb.mode, fun h => absurd hm h, fun e he => hb.chain e (h3 e he), ?_, ?_⟩
          · intro k hk'
            rw [hkeys'] at hk'
            exact hb.home k (List.mem_of_mem_erase hk')
          · rw [hkeys']
            exact hb.nodup.erase _
      · left
        refine ⟨hzero (by rw [hkeys]; simp [hk, hin]), ?_⟩
        simp only [erase, hm, if_true]
        rw [if_neg (fun h => hk h.1), e1 hin]
  · left
    refine ⟨hzero (by simp [bucketKeys, hm]), ?_⟩
    simp [erase, hm]

theorem keysOf_length_pos {s : ADS_set Key} (hs : Inv hash N s) {k : Key}
    (hk : count hash s k = 1) : 0 < s.elementSize := by
  rw [hs.live]
  exact List.length_pos_of_mem ((mem_keysOf_iff_count hash N s hs k).mpr hk)

theorem erase_inv {s : ADS_set Key} (hs : Inv hash N s) (key : Key) :
    Inv hash N (erase hash s key).1 := by
  rcases erase_cases hash N hs key with ⟨_, h⟩ | ⟨hc, b', h, hb', hkeys⟩
  · rw [h]; exact hs
  · rw [h]
    have hlt := hash_idx_lt hash N s hs key
    have hb := hs.buckets _ hlt
    have hin := (count_eq_one_iff_bucket hash s key _ _ hb).mp hc
    refine Inv.update hash N hs hlt hb' ?_
    rw [hkeys, List.length_erase_of_mem hin]
    have h1 := keysOf_length_pos hash N hs hc
    have h2 := List.length_pos_of_mem hin
    omega

/-! ## Clear -/

theorem clear_chain_eq (l : List (Element Key)) :
    ∀ n : Nat, clear_chain n l = n - l.length := by
  induction l with
  | nil => intro n; rfl
  | cons e rest ih =>
    intro n
    simp only [clear_chain, ih, List.length_cons]
    omega

theorem bucketKeys_length_le {s : ADS_set Key} (hs : Inv hash N s) {i : Nat}
    (hi : i < s.tableSize) : (bucketKeys (s.bucketAt i)).length ≤ s.elementSize := by
  have h := length_flatMap_update (fun j => bucketKeys (s.bucketAt j))
    (fun j => if j = i then [] else bucketKeys (s.bucketAt j)) i
    (by intro j hj; simp [hj]) s.tableSize hi
  have hl := hs.live
  simp only [keysOf] at hl
  simp only [if_true, List.length_nil] at h
  omega

theorem clear_bucket_spec {s : ADS_set Key} (hs : Inv hash N s) {i : Nat}
    (hi : i < s.tableSize) :
    Inv hash N (clear_bucket s i) ∧ (clear_bucket s i).tableSize = s.tableSize ∧
      bucketKeys ((clear_bucket s i).bucketAt i) = [] ∧
      ∀ j, j ≠ i → (clear_bucket s i).bucketAt j = s.bucketAt j := by
  have hlen : i < s.table.length := by rw [hs.len]; omega
  have hb := hs.buckets i hi
  have hle := bucketKeys_length_le hash N hs hi
  have hmode : (if (s.bucketAt i).slot.mode ≠ Mode.free
      then { (s.bucketAt i).slot with mode := Mode.free } else (s.bucketAt i).slot).mode
      = Mode.free := by
    split_ifs with h
    · rfl
    · simpa using h
  have hlink : (if (s.bucketAt i).slot.mode ≠ Mode.free
      then { (s.bucketAt i).slot with mode := Mode.free } else (s.bucketAt i).slot).nextElementOfChain
      = some (i + 1) := by
    split_ifs with h
    · exact hb.link
    · exact hb.link
  have hfreeKeys : ∀ slot' : Element Key, slot'.mode = Mode.free →
      bucketKeys (⟨slot', []⟩ : Bucket Key) = [] := by
    intro slot' h; simp [bucketKeys, h]
  obtain ⟨slot', n, hcb, hmode', hlink', hn⟩ : ∃ (slot' : Element Key) (n : Nat),
      clear_bucket s i = ⟨s.tableSize, clear_chain n (s.bucketAt i).chain,
        s.table.set i ⟨slot', []⟩⟩ ∧ slot'.mode = Mode.free ∧
      slot'.nextElementOfChain = some (i + 1) ∧
      n = if (s.bucketAt i).slot.mode ≠ Mode.free then s.elementSize - 1 else s.elementSize :=
    ⟨_, _, rfl, hmode, hlink, rfl⟩
  rw [hcb]
  refine ⟨?_, rfl, ?_, ?_⟩
  · refine Inv.update hash N hs hi ⟨hlink', by rw [hmode']; simp, fun _ => rfl, by simp,
      by simp [hfreeKeys slot' hmode'], by simp [hfreeKeys slot' hmode']⟩ ?_
    rw [clear_chain_eq, hfreeKeys slot' hmode', hn]
    simp only [bucketKeys] at hle ⊢
    by_cases hm : (s.bucketAt i).slot.mode = Mode.inuse
    · have : (s.bucketAt i).slot.mode ≠ Mode.free := by rw [hm]; simp
      simp only [hm, if_true, List.length_cons, List.length_map] at hle
      simp only [hm, if_true, List.length_cons, List.length_map, List.length_nil, ne_eq]
      rw [if_pos (by simp)]
      omega
    · have hfree : (s.bucketAt i).slot.mode = Mode.free := by
        cases hmm : (s.bucketAt i).slot.mode with
        | free => rfl
        | inuse => exact absurd hmm hm
        | «end» => exact absurd hmm hb.mode
      simp [hfree, hb.free_chain hm]
  · rw [bucketAt_set]
    simp [hlen, hfreeKeys slot' hmode']
  · intro j hj
    rw [bucketAt_set, if_neg]
    intro h; exact hj h.1.symm

theorem clear_fold_spec (L : List Nat) :
    ∀ s : ADS_set Key, Inv hash N s → (∀ i ∈ L, i < s.tableSize) →
      Inv hash N (L.foldl clear_bucket s) ∧ (L.foldl clear_bucket s).tableSize = s.tableSize ∧
      (∀ j, j ∈ L → bucketKeys ((L.foldl clear_bucket s).bucketAt j) = []) ∧
      (∀ j, j ∉ L → (L.foldl clear_bucket s).bucketAt j = s.bucketAt j) := by
  induction L with
  | nil => intro s hs _; exact ⟨hs, rfl, fun j hj => absurd hj (by simp), fun _ _ => rfl⟩
  | cons i rest ih =>
    intro s hs hL
    obtain ⟨h1, h2, h3, h4⟩ := clear_bucket_spec hash N hs (hL i (List.mem_cons_self _ _))
    obtain ⟨g1, g2, g3, g4⟩ := ih (clear_bucket s i) h1
      (fun j hj => by rw [h2]; exact hL j (List.mem_cons_of_mem _ hj))
    refine ⟨g1, g2.trans h2, ?_, ?_⟩
    · intro j hj
      by_cases hjr : j ∈ rest
      · exact g3 j hjr
      · have hji : j = i := by
          rcases List.mem_cons.mp hj with h | h
          · exact h
          · exact absurd h hjr
        simp only [List.foldl_cons]
        rw [g4 j hjr, hji]; exact h3
    · intro j hj
      have hji : j ≠ i := fun h => hj (by rw [h]; exact List.mem_cons_self _ _)
      have hjr : j ∉ rest := fun h => hj (List.mem_cons_of_mem _ h)
      simp only [List.foldl_cons]
      rw [g4 j hjr, h4 j hji]

theorem clear_inv {s : ADS_set Key} (hs : Inv hash N s) : Inv hash N (clear s) :=
  (clear_fold_spec hash N _ s hs (fun _ hi => List.mem_range.mp hi)).1

theorem clear_tableSize {s : ADS_set Key} (hs : Inv hash N s) :
    (clear s).tableSize = s.tableSize :=
  (clear_fold_spec hash N _ s hs (fun _ hi => List.mem_range.mp hi)).2.1

theorem clear_keysOf {s : ADS_set Key} (hs : Inv hash N s) : keysOf (clear s) = [] := by
  obtain ⟨_, h2, h3, _⟩ := clear_fold_spec hash N _ s hs (fun _ hi => List.mem_range.mp hi)
  simp only [keysOf, List.flatMap_eq_nil_iff, List.mem_range]
  intro i hi
  exact h3 i (List.mem_range.mpr (by rw [clear_tableSize hash N hs] at hi; exact hi))

theorem clear_count {s : ADS_set Key} (hs : Inv hash N s) (k : Key) :
    count hash (clear s) k = 0 := by
  rw [count_eq_zero_iff hash N _ (clear_inv hash N hs), clear_keysOf hash N hs]
  simp

theorem clear_elementSize {s : ADS_set Key} (hs : Inv hash N s) :
    (clear s).elementSize = 0 := by
  rw [(clear_inv hash N hs).live, clear_keysOf hash N hs]; rfl

/-! ## Batch insertion -/

theorem find_chain_none_iff (key : Key) (position : Nat) (l : List (Element Key))
    (hl : ∀ e ∈ l, e.mode = Mode.inuse) :
    ∀ d, find_chain key position d l = none ↔ key ∉ l.map (fun e => e.key) := by
  induction l with
  | nil => intro d; simp [find_chain]
  | cons e rest ih =>
    intro d
    have he := hl e (List.mem_cons_self _ _)
    simp only [find_chain, he, if_true, List.map_cons, List.mem_cons, not_or]
    by_cases hk : key = e.key
    · simp [hk]
    · simp only [hk, if_false, not_false_eq_true, true_and]
      exact ih (fun x hx => hl x (List.mem_cons_of_mem _ hx)) (d + 1)

theorem find_pos_none_iff {s : ADS_set Key} (hs : Inv hash N s) (key : Key) :
    find_pos hash s key = none ↔ count hash s key = 0 := by
  have hlt := hash_idx_lt hash N s hs key
  have hb := hs.buckets _ hlt
  rw [count_eq_zero_iff hash N s hs, mem_keysOf_iff_count hash N s hs,
    count_eq_one_iff_bucket hash s key _ _ hb]
  simp only [find_pos, bucketKeys]
  by_cases hm : (s.bucketAt (hash_idx hash s key)).slot.mode = Mode.inuse
  · simp only [hm, if_true, List.mem_cons, not_or]
    by_cases hk : key = (s.bucketAt (hash_idx hash s key)).slot.key
    · rw [if_pos hk]
      exact ⟨fun h => by simp at h, fun h => absurd hk h.1⟩
    · rw [if_neg hk]
      simp only [hk, not_false_eq_true, true_and]
      exact find_chain_none_iff key _ _ (fun e he => (hb.chain e he).1) 1
  · simp [hm]

theorem insert_list_eq (s : ADS_set Key) (l : List Key) :
    insert_list hash s l = placeAll hash s l := rfl

theorem insert_range_spec (hN : 0 < N) (l : List Key) :
    ∀ s : ADS_set Key, Inv hash N s →
      Inv hash N (insert_range hash N s l) ∧
      ∀ k, count hash (insert_range hash N s l) k = if k ∈ l then 1 else count hash s k := by
  induction l with
  | nil => intro s hs; exact ⟨hs, fun k => by simp [insert_range]⟩
  | cons a rest ih =>
    intro s hs
    have hstep : Inv hash N (if find_pos hash s a = none then
        (insertReal hash (reserve hash N s (s.elementSize + 1)) a).1 else s) ∧
        ∀ k, count hash (if find_pos hash s a = none then
          (insertReal hash (reserve hash N s (s.elementSize + 1)) a).1 else s) k
          = if k = a then 1 else count hash s k := by
      split_ifs with hf
      · have hr := reserve_inv hash N hN hs (s.elementSize + 1)
        refine ⟨insertReal_inv hash N hr a, fun k => ?_⟩
        rw [insertReal_count hash N hr, reserve_count hash N hN hs]
      · refine ⟨hs, fun k => ?_⟩
        have hc : count hash s a = 1 := by
          rcases count_le hash s a with h | h
          · exact absurd ((find_pos_none_iff hash N hs a).mpr h) hf
          · exact h
        split_ifs with hk
        · rw [hk, hc]
        · rfl
    obtain ⟨hi, hc⟩ := ih _ hstep.1
    refine ⟨hi, fun k => ?_⟩
    have := hc k
    simp only [insert_range, List.foldl_cons] at this ⊢
    rw [this, hstep.2 k]
    by_cases hk : k ∈ rest
    · simp [hk]
    · by_cases hka : k = a
      · simp [hka]
      · simp [hk, hka]

/-! ## Iteration -/

theorem keysFrom_zero (s : ADS_set Key) : keysFrom s 0 = keysOf s := by
  simp [keysFrom, keysOf, List.range_eq_range']

theorem keysFrom_ge (s : ADS_set Key) {i : Nat} (hi : s.tableSize ≤ i) : keysFrom s i = [] := by
  simp [keysFrom, Nat.sub_eq_zero_of_le hi]

theorem keysFrom_lt (s : ADS_set Key) {i : Nat} (hi : i < s.tableSize) :
    keysFrom s i = bucketKeys (s.bucketAt i) ++ keysFrom s (i + 1) := by
  have h : s.tableSize - i = (s.tableSize - (i + 1)) + 1 := by omega
  simp only [keysFrom]
  rw [h, List.range'_succ, List.flatMap_cons]

theorem elemAt_slot {s : ADS_set Key} (hs : Inv hash N s) {i : Nat} (hi : i ≤ s.tableSize) :
    s.elemAt ⟨i, 0⟩ = some (s.bucketAt i).slot := by
  have : i < s.table.length := by rw [hs.len]; omega
  simp [ADS_set.elemAt, this]

theorem elemAt_chain {s : ADS_set Key} (hs : Inv hash N s) {i d : Nat} (hi : i ≤ s.tableSize)
    (hd : d < (s.bucketAt i).chain.length) :
    s.elemAt ⟨i, d + 1⟩ = some ((s.bucketAt i).chain.get ⟨d, hd⟩) := by
  have : i < s.table.length := by rw [hs.len]; omega
  simp [ADS_set.elemAt, this, List.getElem?_eq_getElem hd]

theorem skip_free_loop_slot {s : ADS_set Key} (hs : Inv hash N s) :
    ∀ (m i fuel : Nat), s.tableSize - i = m → i ≤ s.tableSize → m + 1 ≤ fuel →
      ∃ j, i ≤ j ∧ j ≤ s.tableSize ∧ skip_free_loop s fuel ⟨i, 0⟩ = some ⟨j, 0⟩ ∧
        keysFrom s j = keysFrom s i ∧
        (j < s.tableSize → (s.bucketAt j).slot.mode = Mode.inuse) := by
  intro m
  induction m with
  | zero =>
    intro i fuel hm hi hf
    have hit : i = s.tableSize := by omega
    subst hit
    obtain ⟨f, rfl⟩ : ∃ f, fuel = f + 1 := ⟨fuel - 1, by omega⟩
    refine ⟨s.tableSize, le_refl _, le_refl _, ?_, rfl, fun h => absurd h (lt_irrefl _)⟩
    simp [skip_free_loop, elemAt_slot hash N hs (le_refl _), hs.sentinel.1]
  | succ m ih =>
    intro i fuel hm hi hf
    have hlt : i < s.tableSize := by omega
    obtain ⟨f, rfl⟩ : ∃ f, fuel = f + 1 := ⟨fuel - 1, by omega⟩
    have hb := hs.buckets i hlt
    by_cases hmode : (s.bucketAt i).slot.mode = Mode.inuse
    · refine ⟨i, le_refl _, hi, ?_, rfl, fun _ => hmode⟩
      simp [skip_free_loop, elemAt_slot hash N hs hi, hmode]
    · obtain ⟨j, h1, h2, h3, h4, h5⟩ := ih (i + 1) f (by omega) (by omega) (by omega)
      refine ⟨j, by omega, h2, ?_, ?_, h5⟩
      · have hne : s.nextElement ⟨i, 0⟩ = none := by
          simp [ADS_set.nextElement, hb.free_chain hmode]
        simp only [skip_free_loop, elemAt_slot hash N hs hi]
        rw [if_pos ⟨hmode, hb.mode⟩, if_pos hne, hb.link]
        exact h3
      · rw [h4, keysFrom_lt s hlt]
        simp [bucketKeys, hmode]

theorem skip_free_slot {s : ADS_set Key} (hs : Inv hash N s) {i : Nat} (hi : i ≤ s.tableSize) :
    ∃ j, i ≤ j ∧ j ≤ s.tableSize ∧ skip_free s ⟨i, 0⟩ = some ⟨j, 0⟩ ∧
      keysFrom s j = keysFrom s i ∧
      (j < s.tableSize → (s.bucketAt j).slot.mode = Mode.inuse) :=
  skip_free_loop_slot hash N hs _ i _ rfl hi (by rw [hs.len]; omega)

theorem skip_free_inuse (s : ADS_set Key) (p : Pos) {e : Element Key}
    (he : s.elemAt p = some e) (hm : e.mode = Mode.inuse) : skip_free s p = some p := by
  simp [skip_free, skip_free_loop, he, hm]

theorem end_eq {s : ADS_set Key} (hs : Inv hash N s) :
    s.end = some ⟨some ⟨s.tableSize, 0⟩⟩ := by
  simp [ADS_set.end, Iterator.ctor, skip_free, skip_free_loop,
    elemAt_slot hash N hs (le_refl _), hs.sentinel.1]

/-- The key at depth `d` of a bucket whose primary slot is in use. -/
theorem bucketKeys_drop {b : Bucket Key} (hm : b.slot.mode = Mode.inuse) {d : Nat}
    (hd : d < b.chain.length) :
    (bucketKeys b).drop (d + 1)
      = (b.chain.get ⟨d, hd⟩).key :: (bucketKeys b).drop (d + 2) := by
  simp only [bucketKeys, hm, if_true, List.drop_succ_cons]
  rw [List.drop_eq_getElem_cons (by simpa using hd)]
  simp

theorem for_range_spec {s : ADS_set Key} (hs : Inv hash N s) :
    ∀ (n i d fuel : Nat), i < s.tableSize → (s.bucketAt i).slot.mode = Mode.inuse →
      d ≤ (s.bucketAt i).chain.length →
      ((bucketKeys (s.bucketAt i)).drop d ++ keysFrom s (i + 1)).length = n → n < fuel →
      for_range s fuel ⟨some ⟨i, d⟩⟩
        = some ((bucketKeys (s.bucketAt i)).drop d ++ keysFrom s (i + 1)) := by
  intro n
  induction n using Nat.strong_induction_on with
  | _ n ih =>
    intro i d fuel hi hm hd hn hf
    obtain ⟨f, rfl⟩ : ∃ f, fuel = f + 1 := ⟨fuel - 1, by omega⟩
    have hb := hs.buckets i hi
    have hne : (⟨some ⟨i, d⟩⟩ : Iterator) ≠ ⟨some ⟨s.tableSize, 0⟩⟩ := by
      intro h
      simp only [Iterator.mk.injEq, Option.some.injEq, Pos.mk.injEq] at h
      omega
    -- the element under the cursor and its key
    obtain ⟨e, he, hemode, hlist⟩ : ∃ e : Element Key, s.elemAt ⟨i, d⟩ = some e ∧
        e.mode = Mode.inuse ∧
        (bucketKeys (s.bucketAt i)).drop d = e.key :: (bucketKeys (s.bucketAt i)).drop (d + 1) := by
      cases d with
      | zero =>
        exact ⟨_, elemAt_slot hash N hs (le_of_lt hi), hm, by simp [bucketKeys, hm]⟩
      | succ d' =>
        have hd' : d' < (s.bucketAt i).chain.length := by omega
        exact ⟨_, elemAt_chain hash N hs (le_of_lt hi) hd',
          (hb.chain _ (List.get_mem _ _ _)).1, bucketKeys_drop hm hd'⟩
    have hlink : e.nextElementOfChain = some (i + 1) := by
      cases d with
      | zero =>
        rw [elemAt_slot hash N hs (le_of_lt hi)] at he
        cases he; exact hb.link
      | succ d' =>
        have hd' : d' < (s.bucketAt i).chain.length := by omega
        rw [elemAt_chain hash N hs (le_of_lt hi) hd'] at he
        cases he; exact (hb.chain _ (List.get_mem _ _ _)).2
    have hderef : Iterator.deref s ⟨some ⟨i, d⟩⟩ = some e.key := by
      simp [Iterator.deref, he]
    rw [hlist, List.cons_append]
    rw [hlist, List.cons_append, List.length_cons] at hn
    by_cases hdlt : d < (s.bucketAt i).chain.length
    · -- the successor in the chain
      have hnext : Iterator.next s ⟨some ⟨i, d⟩⟩ = some ⟨some ⟨i, d + 1⟩⟩ := by
        have hne' : s.nextElement ⟨i, d⟩ = some ⟨i, d + 1⟩ := by
          simp [ADS_set.nextElement, hdlt]
        have hsk : skip_free s ⟨i, d + 1⟩ = some ⟨i, d + 1⟩ :=
          skip_free_inuse s _ (elemAt_chain hash N hs (le_of_lt hi) hdlt)
            (hb.chain _ (List.get_mem _ _ _)).1
        simp [Iterator.next, he, hemode, hne', hsk]
      have hrec := ih (n - 1) (by omega) i (d + 1) f hi hm (by omega) (by omega) (by omega)
      simp only [for_range, end_eq hash N hs]
      rw [if_neg hne, hderef, hnext]
      simp only [hrec, Option.map_some']
    · -- the last element of the bucket: on to the next bucket in use
      have hdeq : d = (s.bucketAt i).chain.length := by omega
      have hdrop : (bucketKeys (s.bucketAt i)).drop (d + 1) = [] := by
        apply List.drop_eq_nil_of_le
        simp [bucketKeys, hm, hdeq]
      obtain ⟨j, hj1, hj2, hj3, hj4, hj5⟩ := skip_free_slot hash N hs (show i + 1 ≤ s.tableSize from hi)
      have hnext : Iterator.next s ⟨some ⟨i, d⟩⟩ = some ⟨some ⟨j, 0⟩⟩ := by
        have hne' : s.nextElement ⟨i, d⟩ = none := by
          simp [ADS_set.nextElement, hdeq]
        simp [Iterator.next, he, hemode, hne', hlink, hj3]
      rw [hdrop, List.nil_append] at hn ⊢
      simp only [for_range, end_eq hash N hs]
      rw [if_neg hne, hderef, hnext]
      simp only
      by_cases hjt : j < s.tableSize
      · have hrec := ih (n - 1) (by omega) j 0 f hjt (hj5 hjt) (Nat.zero_le _)
          (by rw [List.drop_zero, ← keysFrom_lt s hjt, hj4]; omega) (by omega)
        rw [hrec, List.drop_zero, ← keysFrom_lt s hjt, hj4]
        rfl
      · have hjeq : j = s.tableSize := by omega
        have hnil : keysFrom s (i + 1) = [] := by
          rw [← hj4, keysFrom_ge s (le_of_eq hjeq.symm)]
        obtain ⟨f', rfl⟩ : ∃ f', f = f' + 1 := ⟨f - 1, by omega⟩
        rw [hnil, hjeq]
        simp [for_range, end_eq hash N hs]

theorem numElements_ge {s : ADS_set Key} (hs : Inv hash N s) :
    s.elementSize ≤ s.numElements := by
  have htab : s.table = (List.range s.table.length).map (fun i => s.bucketAt i) :=
    list_eq_map_range s.table Bucket.fresh
  have h1 : s.numElements
      = ((List.range (s.tableSize + 1)).map (fun i => (s.bucketAt i).chain.length + 1)).sum := by
    rw [ADS_set.numElements]
    conv_lhs => rw [htab]
    rw [List.map_map, hs.len]
    rfl
  rw [h1, hs.live, keysOf, List.length_flatMap, List.range_succ, List.map_append,
    List.sum_append]
  refine le_trans (List.sum_le_sum ?_) (Nat.le_add_right _ _)
  intro i _
  simp only [Function.comp, bucketKeys]
  split_ifs <;> simp

theorem toList_eq {s : ADS_set Key} (hs : Inv hash N s) : s.toList = some (keysOf s) := by
  obtain ⟨j, _, hj2, hj3, hj4, hj5⟩ := skip_free_slot hash N hs (Nat.zero_le s.tableSize)
  have hbegin : s.begin = some ⟨some ⟨j, 0⟩⟩ := by
    simp [ADS_set.begin, Iterator.ctor, hj3]
  have hlen := numElements_ge hash N hs
  rw [hs.live, ← keysFrom_zero, ← hj4] at hlen
  simp only [ADS_set.toList, hbegin]
  rw [← keysFrom_zero, ← hj4]
  by_cases hjt : j < s.tableSize
  · have h := for_range_spec hash N hs _ j 0 (s.numElements + 1) hjt (hj5 hjt) (Nat.zero_le _) rfl
      (by rw [List.drop_zero, ← keysFrom_lt s hjt]; omega)
    rw [h, List.drop_zero, ← keysFrom_lt s hjt]
  · have hjeq : j = s.tableSize := by omega
    rw [keysFrom_ge s (le_of_eq hjeq.symm), hjeq]
    simp [for_range, end_eq hash N hs]

theorem begin_eq_end_of_empty {s : ADS_set Key} (hs : Inv hash N s) (h : s.elementSize = 0) :
    s.begin = s.end := by
  obtain ⟨j, _, hj2, hj3, hj4, hj5⟩ := skip_free_slot hash N hs (Nat.zero_le s.tableSize)
  have hbegin : s.begin = some ⟨some ⟨j, 0⟩⟩ := by
    simp [ADS_set.begin, Iterator.ctor, hj3]
  have hnil : keysFrom s j = [] := by
    rw [hj4, keysFrom_zero]
    apply List.eq_nil_of_length_eq_zero
    rw [← hs.live, h]
  have hj : j = s.tableSize := by
    by_contra hne
    have hjt : j < s.tableSize := by omega
    rw [keysFrom_lt s hjt] at hnil
    simp [bucketKeys, hj5 hjt] at hnil
  rw [hbegin, end_eq hash N hs, hj]

/-! ## Lookup -/

theorem find_chain_some (key : Key) (position : Nat) (l : List (Element Key)) :
    ∀ (d : Nat) (p : Pos), find_chain key position d l = some p →
      ∃ j, ∃ hj : j < l.length, p = ⟨position, d + j⟩ ∧ (l.get ⟨j, hj⟩).key = key ∧
        (l.get ⟨j, hj⟩).mode = Mode.inuse := by
  induction l with
  | nil => intro d p h; simp [find_chain] at h
  | cons e rest ih =>
    intro d p h
    simp only [find_chain] at h
    split_ifs at h with hm hk
    · cases h
      exact ⟨0, by simp, rfl, hk.symm, hm⟩
    · obtain ⟨j, hj, h1, h2, h3⟩ := ih (d + 1) p h
      refine ⟨j + 1, by simpa using hj, ?_, ?_, ?_⟩
      · rw [h1]; congr 1; omega
      · simpa using h2
      · simpa using h3

theorem find_pos_some {s : ADS_set Key} (hs : Inv hash N s) {key : Key} {p : Pos}
    (h : find_pos hash s key = some p) :
    p.bucket < s.tableSize ∧
      ∃ e, s.elemAt p = some e ∧ e.mode = Mode.inuse ∧ e.key = key := by
  have hlt := hash_idx_lt hash N s hs key
  simp only [find_pos] at h
  split_ifs at h with hm hk
  · cases h
    exact ⟨hlt, _, elemAt_slot hash N hs (le_of_lt hlt), hm, hk.symm⟩
  · obtain ⟨j, hj, h1, h2, h3⟩ := find_chain_some key _ _ 1 p h
    subst h1
    refine ⟨hlt, _, ?_, h3, h2⟩
    have := elemAt_chain hash N hs (le_of_lt hlt) hj
    rw [show 1 + j = j + 1 from by omega]
    exact this

theorem iterator_of_find_pos {s : ADS_set Key} (hs : Inv hash N s) {key : Key} {p : Pos}
    (h : find_pos hash s key = some p) :
    Iterator.ctor s (some p) = some ⟨some p⟩ ∧ Iterator.deref s ⟨some p⟩ = some key ∧
      (some (⟨some p⟩ : Iterator)) ≠ s.end := by
  obtain ⟨hb, e, he, hm, hk⟩ := find_pos_some hash N hs h
  refine ⟨?_, ?_, ?_⟩
  · simp [Iterator.ctor, skip_free_inuse s p he hm]
  · simp [Iterator.deref, he, hk]
  · rw [end_eq hash N hs]
    intro heq
    simp only [Option.some.injEq, Iterator.mk.injEq] at heq
    rw [heq] at hb
    exact lt_irrefl _ hb

/-! ## Single insert -/

theorem insert_found {s : ADS_set Key} (hs : Inv hash N s) {key : Key}
    (hc : count hash s key = 1) :
    ∃ p, find_pos hash s key = some p ∧ insert hash N s key = some (s, ⟨some p⟩, false) ∧
      Iterator.deref s ⟨some p⟩ = some key := by
  cases hf : find_pos hash s key with
  | none =>
    rw [find_pos_none_iff hash N hs] at hf
    rw [hf] at hc; exact absurd hc (by simp)
  | some p =>
    obtain ⟨h1, h2, _⟩ := iterator_of_find_pos hash N hs hf
    exact ⟨p, rfl, by simp [insert, hf, h1], h2⟩

theorem insertReal_slot {s : ADS_set Key} (hs : Inv hash N s) {key : Key}
    (hc : count hash s key = 0) :
    (insertReal hash s key).2 = some ⟨hash_idx hash s key, 0⟩ ∧
    ∃ e, (insertReal hash s key).1.elemAt ⟨hash_idx hash s key, 0⟩ = some e ∧
      e.mode = Mode.inuse ∧ e.key = key := by
  have hlt := hash_idx_lt hash N s hs key
  have hi := insertReal_inv hash N hs key
  have hts := insertReal_tableSize hash s key
  refine ⟨insertReal_pos hash s key hc, _, elemAt_slot hash N hi (by rw [hts]; exact le_of_lt hlt), ?_⟩
  have hlen : hash_idx hash s key < s.table.length := by rw [hs.len]; omega
  have hb : (insertReal hash s key).1.bucketAt (hash_idx hash s key)
      = place (s.bucketAt (hash_idx hash s key)) key := by
    simp only [insertReal, hc, if_true]
    rw [bucketAt_set]; simp [hlen]
  rw [hb]
  by_cases hm : (s.bucketAt (hash_idx hash s key)).slot.mode = Mode.inuse <;> simp [place, hm]

theorem insert_new (hN : 0 < N) {s : ADS_set Key} (hs : Inv hash N s) {key : Key}
    (hc : count hash s key = 0) :
    ∃ p, insert hash N s key
        = some ((insertReal hash (reserve hash N s (s.elementSize + 1)) key).1, ⟨some p⟩, true) ∧
      Iterator.deref (insertReal hash (reserve hash N s (s.elementSize + 1)) key).1 ⟨some p⟩
        = some key := by
  have hf := (find_pos_none_iff hash N hs key).mpr hc
  have hr := reserve_inv hash N hN hs (s.elementSize + 1)
  have hcr : count hash (reserve hash N s (s.elementSize + 1)) key = 0 := by
    rw [reserve_count hash N hN hs]; exact hc
  obtain ⟨h1, e, he, hm, hk⟩ := insertReal_slot hash N hr hcr
  refine ⟨⟨hash_idx hash (reserve hash N s (s.elementSize + 1)) key, 0⟩, ?_, ?_⟩
  · simp only [insert, hf, h1, Iterator.ctor]
    rw [skip_free_inuse _ _ he hm]
    rfl
  · simp [Iterator.deref, he, hk]

theorem insert_state (hN : 0 < N) {s s' : ADS_set Key} (hs : Inv hash N s) {key : Key}
    {it : Iterator} {b : Bool} (h : insert hash N s key = some (s', it, b)) :
    (count hash s key = 1 ∧ s' = s ∧ b = false) ∨
    (count hash s key = 0 ∧
      s' = (insertReal hash (reserve hash N s (s.elementSize + 1)) key).1 ∧ b = true) := by
  rcases count_le hash s key with hc | hc
  · right
    obtain ⟨p, hp, _⟩ := insert_new hash N hN hs hc
    rw [hp] at h
    simp only [Option.some.injEq, Prod.mk.injEq] at h
    exact ⟨hc, h.1.symm, h.2.2.symm⟩
  · left
    obtain ⟨p, _, hp, _⟩ := insert_found hash N hs hc
    rw [hp] at h
    simp only [Option.some.injEq, Prod.mk.injEq] at h
    exact ⟨hc, h.1.symm, h.2.2.symm⟩

/-! ## Equality, copies -/

theorem eq_loop_of_for_range (lhs rhs : ADS_set Key) :
    ∀ (fuel : Nat) (it : Iterator) (ks : List Key), for_range lhs fuel it = some ks →
      eq_loop hash lhs rhs fuel it = some (ks.all (fun k => (find_pos hash rhs k).isSome)) := by
  intro fuel
  induction fuel with
  | zero => intro it ks h; simp [for_range] at h
  | succ f ih =>
    intro it ks h
    simp only [for_range] at h
    simp only [eq_loop]
    cases he : lhs.end with
    | none => simp [he] at h
    | some e =>
      simp only [he] at h ⊢
      by_cases hit : it = e
      · simp only [hit, if_true, Option.some.injEq] at h ⊢
        subst h; rfl
      · simp only [hit, if_false] at h ⊢
        cases hd : Iterator.deref lhs it with
        | none => simp [hd] at h
        | some k =>
          cases hn : Iterator.next lhs it with
          | none => simp [hd, hn] at h
          | some it' =>
            simp only [hd, hn] at h ⊢
            cases hr : for_range lhs f it' with
            | none => simp [hr] at h
            | some ks' =>
              simp only [hr, Option.map_some', Option.some.injEq] at h
              subst h
              cases hfp : find_pos hash rhs k with
              | none => simp [hfp]
              | some p =>
                simp only [reduceCtorEq, if_false, List.all_cons, hfp, Option.isSome_some,
                  Bool.true_and]
                exact ih it' ks' hr

theorem op_eq_spec {lhs rhs : ADS_set Key} (hl : Inv hash N lhs) (hr : Inv hash N rhs) :
    ∃ b, op_eq hash lhs rhs = some b ∧
      (b = true ↔ ∀ k, count hash lhs k = count hash rhs k) := by
  by_cases hsz : lhs.elementSize = rhs.elementSize
  · have htl := toList_eq hash N hl
    simp only [ADS_set.toList] at htl
    cases hb : lhs.begin with
    | none => simp [hb] at htl
    | some it =>
      simp only [hb] at htl
      have hop : op_eq hash lhs rhs
          = some ((keysOf lhs).all (fun k => (find_pos hash rhs k).isSome)) := by
        simp only [op_eq, hsz, ne_eq, not_true_eq_false, if_false, hb]
        exact eq_loop_of_for_range hash lhs rhs _ it _ htl
      refine ⟨_, hop, ?_⟩
      rw [List.all_eq_true]
      constructor
      · intro hall
        have hsub : keysOf lhs ⊆ keysOf rhs := by
          intro k hk
          have := hall k hk
          rw [mem_keysOf_iff_count hash N rhs hr]
          rcases count_le hash rhs k with h0 | h1
          · rw [(find_pos_none_iff hash N hr k).mpr h0] at this
            simp at this
          · exact h1
        have hperm : (keysOf lhs).Perm (keysOf rhs) :=
          (List.subperm_of_subset (nodup_keysOf hash N lhs hl) hsub).perm_of_length_le
            (by rw [← hl.live, ← hr.live, hsz])
        intro k
        have hmem := hperm.mem_iff (a := k)
        rw [mem_keysOf_iff_count hash N lhs hl, mem_keysOf_iff_count hash N rhs hr] at hmem
        rcases count_le hash lhs k with h0 | h1
        · rcases count_le hash rhs k with h0' | h1'
          · rw [h0, h0']
          · rw [hmem.mpr h1'] at h0; exact absurd h0 (by simp)
        · rw [h1, hmem.mp h1]
      · intro heq k hk
        have h1 : count hash rhs k = 1 := by
          rw [← heq k, ← mem_keysOf_iff_count hash N lhs hl]; exact hk
        cases hfp : find_pos hash rhs k with
        | none =>
          rw [find_pos_none_iff hash N hr] at hfp
          rw [hfp] at h1; exact absurd h1 (by simp)
        | some p => rfl
  · refine ⟨false, by simp [op_eq, hsz], ?_⟩
    constructor
    · intro h; exact absurd h (by simp)
    · intro heq
      exact absurd (size_eq_of_count_eq hash N hr hl heq) hsz

theorem init_rehash_spec (hN : 0 < N) (n : Nat) :
    Inv hash N (rehash hash N (ADS_set.init : ADS_set Key) n) ∧
      ∀ k, count hash (rehash hash N (ADS_set.init : ADS_set Key) n) k = 0 := by
  obtain ⟨h1, _, h3⟩ := rehash_spec hash N hN (ADS_set.init : ADS_set Key) n
    (fun i hi => absurd hi (Nat.not_lt_zero i))
  refine ⟨h1, fun k => ?_⟩
  rw [h3 k]
  simp [keysOf, ADS_set.init]

theorem ctor_copy_spec (hN : 0 < N) {other : ADS_set Key} (ho : Inv hash N other) :
    ∃ s, ADS_set.ctor_copy hash N other = some s ∧ Inv hash N s ∧
      ∀ k, count hash s k = count hash other k := by
  obtain ⟨h1, h2⟩ := init_rehash_spec hash N hN other.tableSize
  obtain ⟨g1, _, g3⟩ := placeAll_spec hash N (keysOf other) _ h1
  refine ⟨_, by simp only [ADS_set.ctor_copy, toList_eq hash N ho, Option.map_some']; rfl,
    g1, fun k => ?_⟩
  rw [g3 k, h2 k]
  rcases count_le hash other k with h | h
  · rw [h, if_neg]; rw [mem_keysOf_iff_count hash N other ho, h]; simp
  · rw [h, if_pos]; rw [mem_keysOf_iff_count hash N other ho, h]

theorem assign_spec (hN : 0 < N) {s other : ADS_set Key} (hs : Inv hash N s)
    (ho : Inv hash N other) :
    ∃ s', assign hash N s other = some s' ∧ Inv hash N s' ∧
      ∀ k, count hash s' k = count hash other k := by
  have h1 := reserve_inv hash N hN (clear_inv hash N hs) other.elementSize
  have h2 : ∀ k, count hash (reserve hash N (clear s) other.elementSize) k = 0 := by
    intro k
    rw [reserve_count hash N hN (clear_inv hash N hs), clear_count hash N hs]
  obtain ⟨g1, _, g3⟩ := placeAll_spec hash N (keysOf other) _ h1
  refine ⟨_, by simp only [assign, toList_eq hash N ho, Option.map_some']; rfl,
    g1, fun k => ?_⟩
  rw [g3 k, h2 k]
  rcases count_le hash other k with h | h
  · rw [h, if_neg]; rw [mem_keysOf_iff_count hash N other ho, h]; simp
  · rw [h, if_pos]; rw [mem_keysOf_iff_count hash N other ho, h]

/-! ## Every reachable state satisfies the invariant -/

theorem Reachable.inv (hN : 0 < N) {s : ADS_set Key} (h : Reachable hash N s) :
    Inv hash N s := by
  induction h with
  | ctor => exact ctor_inv hash N hN
  | ctor_list ilist => exact (placeAll_spec hash N ilist _ (ctor_inv hash N hN)).1
  | ctor_range range => exact (insert_range_spec hash N hN range _ (ctor_inv hash N hN)).1
  | ctor_copy _ hc ih =>
    obtain ⟨s', h1, h2, _⟩ := ctor_copy_spec hash N hN ih
    rw [h1] at hc; cases hc; exact h2
  | assign _ _ ha ih1 ih2 =>
    obtain ⟨s', h1, h2, _⟩ := assign_spec hash N hN ih1 ih2
    rw [h1] at ha; cases ha; exact h2
  | assign_list ilist _ ih => exact (placeAll_spec hash N ilist _ (clear_inv hash N ih)).1
  | insert key _ hi ih =>
    rcases insert_state hash N hN ih hi with ⟨_, h, _⟩ | ⟨_, h, _⟩
    · rw [h]; exact ih
    · rw [h]; exact insertReal_inv hash N (reserve_inv hash N hN ih _) key
  | insert_list ilist _ ih => exact (placeAll_spec hash N ilist _ ih).1
  | insert_range range _ ih => exact (insert_range_spec hash N hN range _ ih).1
  | erase key _ ih => exact erase_inv hash N ih key
  | clear _ ih => exact clear_inv hash N ih
  | swap_left _ _ _ ih2 => exact ih2
  | swap_right _ _ ih1 _ => exact ih1

end Basic

/-! ## The contract of the public operations -/

/-! ## Further structure of reachable states -/

section Structure

variable {Key : Type} [DecidableEq Key] [Inhabited Key] (hash : Key → Nat) (N : Nat)

theorem storedKeys_eq {ts i : Nat} {b : Bucket Key} (hb : BucketOK hash ts i b) :
    storedKeys b = bucketKeys b := by
  by_cases hm : b.slot.mode = Mode.inuse
  · have hf : b.chain.filter (fun e => e.mode = Mode.inuse) = b.chain := by
      rw [List.filter_eq_self]
      intro e he
      simpa using (hb.chain e he).1
    simp [storedKeys, bucketKeys, hm, hf]
  · simp [storedKeys, bucketKeys, hm, hb.free_chain hm]

/-- The state after a call `insert(key)`. -/
theorem insert_step (hN : 0 < N) {s : ADS_set Key} (hs : Inv hash N s) (key : Key) :
    ∃ it b, insert hash N s key
      = some ((if find_pos hash s key = none
          then (insertReal hash (reserve hash N s (s.elementSize + 1)) key).1 else s), it, b) := by
  rcases count_le hash s key with hc | hc
  · obtain ⟨p, hp, _⟩ := insert_new hash N hN hs hc
    rw [if_pos ((find_pos_none_iff hash N hs key).mpr hc)]
    exact ⟨_, _, hp⟩
  · obtain ⟨p, hf, hp, _⟩ := insert_found hash N hs hc
    rw [if_neg (by rw [hf]; simp)]
    exact ⟨_, _, hp⟩

theorem insert_each_eq_range (hN : 0 < N) (l : List Key) :
    ∀ s : ADS_set Key, Inv hash N s →
      insert_each hash N s l = some (insert_range hash N s l) := by
  induction l with
  | nil => intro s _; rfl
  | cons k rest ih =>
    intro s hs
    obtain ⟨it, b, h⟩ := insert_step hash N hN hs k
    have hi : Inv hash N (if find_pos hash s k = none
        then (insertReal hash (reserve hash N s (s.elementSize + 1)) k).1 else s) := by
      split_ifs
      · exact insertReal_inv hash N (reserve_inv hash N hN hs _) k
      · exact hs
    simp only [insert_each, h, insert_range, List.foldl_cons]
    exact ih _ hi

/-- The search of `skip_free` from a primary slot passes free slots only. -/
theorem skip_free_loop_gap {s : ADS_set Key} (hs : Inv hash N s) :
    ∀ (m i fuel : Nat), s.tableSize - i = m → i ≤ s.tableSize → m + 1 ≤ fuel →
      ∃ j, i ≤ j ∧ j ≤ s.tableSize ∧ skip_free_loop s fuel ⟨i, 0⟩ = some ⟨j, 0⟩ ∧
        (∀ l, i ≤ l → l < j → (s.bucketAt l).slot.mode = Mode.free) ∧
        (j < s.tableSize → (s.bucketAt j).slot.mode = Mode.inuse) := by
  intro m
  induction m with
  | zero =>
    intro i fuel hm hi hf
    have hit : i = s.tableSize := by omega
    subst hit
    obtain ⟨f, rfl⟩ : ∃ f, fuel = f + 1 := ⟨fuel - 1, by omega⟩
    refine ⟨s.tableSize, le_refl _, le_refl _, ?_, fun l h1 h2 => absurd h1 (by omega),
      fun h => absurd h (lt_irrefl _)⟩
    simp [skip_free_loop, elemAt_slot hash N hs (le_refl _), hs.sentinel.1]
  | succ m ih =>
    intro i fuel hm hi hf
    have hlt : i < s.tableSize := by omega
    obtain ⟨f, rfl⟩ : ∃ f, fuel = f + 1 := ⟨fuel - 1, by omega⟩
    have hb := hs.buckets i hlt
    by_cases hmode : (s.bucketAt i).slot.mode = Mode.inuse
    · refine ⟨i, le_refl _, hi, ?_, fun l h1 h2 => absurd h1 (by omega), fun _ => hmode⟩
      simp [skip_free_loop, elemAt_slot hash N hs hi, hmode]
    · obtain ⟨j, h1, h2, h3, h4, h5⟩ := ih (i + 1) f (by omega) (by omega) (by omega)
      have hfree : (s.bucketAt i).slot.mode = Mode.free := by
        cases hmm : (s.bucketAt i).slot.mode with
        | free => rfl
        | inuse => exact absurd hmm hmode
        | «end» => exact absurd hmm hb.mode
      refine ⟨j, by omega, h2, ?_, ?_, h5⟩
      · have hne : s.nextElement ⟨i, 0⟩ = none := by
          simp [ADS_set.nextElement, hb.free_chain hmode]
        simp only [skip_free_loop, elemAt_slot hash N hs hi]
        rw [if_pos ⟨hmode, hb.mode⟩, if_pos hne, hb.link]
        exact h3
      · intro l hl1 hl2
        by_cases hli : l = i
        · rw [hli]; exact hfree
        · exact h4 l (by omega) hl2

/-- The element at the end of a bucket: the primary slot when the chain is empty, the
last overflow node otherwise. -/
theorem elemAt_last {s : ADS_set Key} (hs : Inv hash N s) {i : Nat} (hi : i < s.tableSize)
    (hm : (s.bucketAt i).slot.mode = Mode.inuse) :
    ∃ e, s.elemAt ⟨i, (s.bucketAt i).chain.length⟩ = some e ∧ e.mode = Mode.inuse ∧
      e.nextElementOfChain = some (i + 1) := by
  have hb := hs.buckets i hi
  cases hlen : (s.bucketAt i).chain.length with
  | zero => exact ⟨_, elemAt_slot hash N hs (le_of_lt hi), hm, hb.link⟩
  | succ d =>
    have hd : d < (s.bucketAt i).chain.length := by omega
    exact ⟨_, elemAt_chain hash N hs (le_of_lt hi) hd, hb.chain _ (List.get_mem _ _ _)⟩

/-- Advancing from the end of a bucket continues the search at the next primary slot. -/
theorem next_last {s : ADS_set Key} (hs : Inv hash N s) {i : Nat} (hi : i < s.tableSize)
    (hm : (s.bucketAt i).slot.mode = Mode.inuse) :
    Iterator.next s ⟨some ⟨i, (s.bucketAt i).chain.length⟩⟩
      = (skip_free s ⟨i + 1, 0⟩).map (fun r => ⟨some r⟩) := by
  obtain ⟨e, he, hem, hel⟩ := elemAt_last hash N hs hi hm
  have hne : s.nextElement ⟨i, (s.bucketAt i).chain.length⟩ = none := by
    simp [ADS_set.nextElement]
  simp [Iterator.next, he, hem, hne, hel]

theorem lfExceeds_anti {n n' t : Nat} (h : n' ≤ n) (hf : lfExceeds n t = false) :
    lfExceeds n' t = false := by
  rw [lfExceeds_eq_false_iff] at hf ⊢
  exact le_trans ((F32.ofNat_isRound n').mono (F32.ofNat_isRound n) (by exact_mod_cast h)) hf

theorem reserve_noop (s : ADS_set Key) (n : Nat) (h : lfExceeds n s.tableSize = false) :
    reserve hash N s n = s := by
  simp [reserve, h]

theorem find_of_count {s : ADS_set Key} (hs : Inv hash N s) {k : Key}
    (hc : count hash s k = 1) :
    ∃ it, find hash s k = some it ∧ Iterator.deref s it = some k ∧ some it ≠ s.end := by
  cases hf : find_pos hash s k with
  | none =>
    rw [find_pos_none_iff hash N hs] at hf
    rw [hf] at hc; cases hc
  | some p =>
    obtain ⟨h1, h2, h3⟩ := iterator_of_find_pos hash N hs hf
    exact ⟨_, by simp only [find, hf]; exact h1, h2, h3⟩

theorem insertReal_bucketAt {s : ADS_set Key} (hs : Inv hash N s) {k : Key}
    (hc : count hash s k = 0) (i : Nat) :
    (insertReal hash s k).1.bucketAt i
      = if i = hash_idx hash s k then place (s.bucketAt i) k else s.bucketAt i := by
  have hlen : hash_idx hash s k < s.table.length := by
    rw [hs.len]; exact Nat.lt_succ_of_lt (hash_idx_lt hash N s hs k)
  simp only [insertReal, hc, if_true]
  rw [bucketAt_set]
  by_cases hi : i = hash_idx hash s k
  · subst hi; simp [hlen]
  · rw [if_neg (fun h => hi h.1.symm), if_neg hi]

/-- Keys inserted one by one without a rehash pile up in front of their buckets. -/
theorem insert_each_order (hN : 0 < N) (l : List Key) :
    ∀ s : ADS_set Key, Inv hash N s → l.Nodup → (∀ k ∈ l, count hash s k = 0) →
      lfExceeds (s.elementSize + l.length) s.tableSize = false →
      insert_each hash N s l = some (placeAll hash s l) ∧
      (placeAll hash s l).elementSize = s.elementSize + l.length ∧
      ∀ i, i < s.tableSize →
        bucketKeys ((placeAll hash s l).bucketAt i)
          = l.reverse.filter (fun k => hash k % s.tableSize = i) ++ bucketKeys (s.bucketAt i) := by
  induction l with
  | nil => intro s _ _ _ _; exact ⟨rfl, rfl, fun i _ => by simp [placeAll]⟩
  | cons k rest ih =>
    intro s hs hnd habs hlf
    have hk : count hash s k = 0 := habs k (List.mem_cons_self _ _)
    have hlf1 : lfExceeds (s.elementSize + 1) s.tableSize = false :=
      lfExceeds_anti (by simp) hlf
    have hres : reserve hash N s (s.elementSize + 1) = s := reserve_noop hash N s _ hlf1
    obtain ⟨p, hins, _⟩ := insert_new hash N hN hs hk
    rw [hres] at hins
    have hs1 := insertReal_inv hash N hs k
    have hts1 := insertReal_tableSize hash s k
    have hes1 : (insertReal hash s k).1.elementSize = s.elementSize + 1 := by
      rw [insertReal_elementSize, hk]; rfl
    have hnd' := List.nodup_cons.mp hnd
    have habs1 : ∀ k' ∈ rest, count hash (insertReal hash s k).1 k' = 0 := by
      intro k' hk'
      rw [insertReal_count hash N hs, if_neg, habs k' (List.mem_cons_of_mem _ hk')]
      intro h; rw [h] at hk'; exact hnd'.1 hk'
    have hlf' : lfExceeds ((insertReal hash s k).1.elementSize + rest.length)
        (insertReal hash s k).1.tableSize = false := by
      rw [hes1, hts1]
      have : s.elementSize + 1 + rest.length = s.elementSize + (k :: rest).length := by
        simp only [List.length_cons]; omega
      rw [this]; exact hlf
    obtain ⟨h1, h2, h3⟩ := ih _ hs1 hnd'.2 habs1 hlf'
    have hpl : placeAll hash s (k :: rest) = placeAll hash (insertReal hash s k).1 rest := rfl
    refine ⟨?_, ?_, ?_⟩
    · simp only [insert_each, hins]
      rw [hpl]; exact h1
    · rw [hpl, h2, hes1]
      simp only [List.length_cons]; omega
    · intro i hi
      have hb := hs.buckets i hi
      have htail : bucketKeys ((insertReal hash s k).1.bucketAt i)
          = [k].filter (fun k => hash k % s.tableSize = i) ++ bucketKeys (s.bucketAt i) := by
        rw [insertReal_bucketAt hash N hs hk]
        by_cases hik : i = hash_idx hash s k
        · have hp : hash k % s.tableSize = i := hik.symm
          rw [if_pos hik, bucketKeys_place hash hb]
          simp [List.filter, hp]
        · have hp : ¬ hash k % s.tableSize = i := fun h => hik h.symm
          rw [if_neg hik]
          simp [List.filter, hp]
      rw [hpl, h3 i (by rw [hts1]; exact hi), hts1, htail,
        List.reverse_cons, List.filter_append, List.append_assoc]

theorem migrateChain_tableSize (l : List (Element Key)) :
    ∀ s : ADS_set Key, (migrateChain hash s l).tableSize = s.tableSize := by
  induction l with
  | nil => intro s; rfl
  | cons e rest ih =>
    intro s
    simp only [migrateChain]
    rw [ih]
    split_ifs
    · exact insertReal_tableSize hash s e.key
    · rfl

theorem migrateBucket_tableSize (s : ADS_set Key) (b : Bucket Key) :
    (migrateBucket hash s b).tableSize = s.tableSize := by
  simp only [migrateBucket]
  split_ifs
  · exact migrateChain_tableSize hash _ s
  · rfl

theorem foldl_migrate_tableSize (s : ADS_set Key) (L : List Nat) :
    ∀ acc : ADS_set Key,
      (L.foldl (fun acc i => migrateBucket hash acc (s.bucketAt i)) acc).tableSize
        = acc.tableSize := by
  induction L with
  | nil => intro acc; rfl
  | cons i rest ih =>
    intro acc
    simp only [List.foldl_cons]
    rw [ih, migrateBucket_tableSize]

theorem rehash_tableSize (s : ADS_set Key) (n : Nat) :
    (rehash hash N s n).tableSize = max (max n (lfQuot s.elementSize)) N := by
  simp only [rehash]
  rw [foldl_migrate_tableSize]

/-- The growth scenario of capacity 7 from any empty well-formed table of 7 buckets. -/
theorem grow_at_fifth_key {s0 : ADS_set Key} (h0 : Inv hash 7 s0) (hts : s0.tableSize = 7)
    (hes : s0.elementSize = 0) (hcnt : ∀ k, count hash s0 k = 0) (k1 k2 k3 k4 k5 : Key)
    (hd : [k1, k2, k3, k4, k5].Nodup) :
    ∃ s4 s5 it,
      insert_each hash 7 s0 [k1, k2, k3, k4] = some s4 ∧
      (∀ l s, l <+: [k1, k2, k3, k4] →
        insert_each hash 7 s0 l = some s →
          s = placeAll hash s0 l ∧ s.tableSize = 7) ∧
      size s4 = 4 ∧
      insert hash 7 s4 k5 = some (s5, it, true) ∧
      reserve hash 7 s4 (size s4 + 1) = rehash hash 7 s4 15 ∧
      s5 = (insertReal hash (rehash hash 7 s4 15) k5).1 ∧
      s5.tableSize = 15 ∧ size s5 = 5 ∧
      ∀ k ∈ [k1, k2, k3, k4, k5], count hash s5 k = 1 ∧
        ∃ it', find hash s5 k = some it' ∧ Iterator.deref s5 it' = some k ∧
          some it' ≠ s5.end := by
  have h7 : 0 < 7 := by decide
  have hlf4 : lfExceeds 4 7 = false := by decide
  have hsplit : [k1, k2, k3, k4, k5] = [k1, k2, k3, k4] ++ [k5] := rfl
  have hnd4 : [k1, k2, k3, k4].Nodup := by
    rw [hsplit] at hd; exact (List.nodup_append.mp hd).1
  have hk5 : k5 ∉ [k1, k2, k3, k4] := by
    rw [hsplit] at hd
    intro h
    exact (List.nodup_append.mp hd).2.2 h (List.mem_singleton_self k5)
  -- every prefix of the first four keys is placed without growth
  have hpre : ∀ l, l <+: [k1, k2, k3, k4] →
      insert_each hash 7 s0 l = some (placeAll hash s0 l) ∧
      (placeAll hash s0 l).elementSize = l.length := by
    intro l hl
    have hlen : l.length ≤ 4 := hl.length_le
    obtain ⟨h1, h2, _⟩ := insert_each_order hash 7 h7 l _ h0 (hl.sublist.nodup hnd4)
      (fun k _ => hcnt k)
      (by rw [hes, hts]; exact lfExceeds_anti (by omega) hlf4)
    exact ⟨h1, by rw [h2, hes]; omega⟩
  obtain ⟨hi4, ht4, hc4⟩ := placeAll_spec hash 7 [k1, k2, k3, k4] _ h0
  have hes4 : (placeAll hash s0 [k1, k2, k3, k4]).elementSize = 4 :=
    (hpre _ (List.prefix_refl _)).2
  have hts4 : (placeAll hash s0 [k1, k2, k3, k4]).tableSize = 7 := by
    rw [ht4, hts]
  have hcount5 : count hash (placeAll hash s0 [k1, k2, k3, k4]) k5 = 0 := by
    rw [hc4 k5, if_neg hk5, hcnt _]
  have hres : reserve hash 7 (placeAll hash s0 [k1, k2, k3, k4])
      ((placeAll hash s0 [k1, k2, k3, k4]).elementSize + 1)
      = rehash hash 7 (placeAll hash s0 [k1, k2, k3, k4]) 15 := by
    have e1 : lfExceeds 5 7 = true := by decide
    have e2 : reserve_loop 5 (5 + 4) 7 = 15 := by decide
    simp only [reserve, hes4, hts4, e1, if_true, e2]
  obtain ⟨p, hins, _⟩ := insert_new hash 7 h7 hi4 hcount5
  rw [hres] at hins
  have hreh := rehash_inv hash 7 h7 hi4 15
  have hi5 := insertReal_inv hash 7 hreh k5
  have hcnt : ∀ k, count hash (insertReal hash
      (rehash hash 7 (placeAll hash s0 [k1, k2, k3, k4]) 15) k5).1 k
      = if k = k5 then 1 else if k ∈ [k1, k2, k3, k4] then 1 else 0 := by
    intro k
    rw [insertReal_count hash 7 hreh, rehash_count hash 7 h7 hi4, hc4 k, hcnt _]
  refine ⟨placeAll hash s0 [k1, k2, k3, k4],
    (insertReal hash (rehash hash 7 (placeAll hash s0 [k1, k2, k3, k4]) 15) k5).1,
    ⟨some p⟩, ?_, ?_, ?_, ?_, ?_, ?_, ?_, ?_, ?_⟩
  · exact (hpre _ (List.prefix_refl _)).1
  · intro l s hl hs
    rw [(hpre l hl).1] at hs
    cases hs
    exact ⟨rfl, by rw [(placeAll_spec hash 7 l _ h0).2.1, hts]⟩
  · exact hes4
  · exact hins
  · exact hres
  · rfl
  · rw [insertReal_tableSize, rehash_tableSize, hes4]
    have : lfQuot 4 = 5 := by decide
    rw [this]; rfl
  · simp only [size]
    rw [insertReal_elementSize, rehash_count hash 7 h7 hi4, hcount5,
      rehash_elementSize hash 7 h7 hi4, hes4]
    rfl
  · intro k hk
    have h1 : count hash (insertReal hash
        (rehash hash 7 (placeAll hash s0 [k1, k2, k3, k4]) 15) k5).1 k = 1 := by
      rw [hcnt k]
      by_cases h5 : k = k5
      · rw [if_pos h5]
      · rw [if_neg h5, if_pos]
        rw [hsplit, List.mem_append] at hk
        rcases hk with h | h
        · exact h
        · exact absurd (List.mem_singleton.mp h) h5
    exact ⟨h1, find_of_count hash 7 hi5 h1⟩

theorem ctor_tableSize : (ADS_set.ctor hash N : ADS_set Key).tableSize = N := by
  rw [ADS_set.ctor, rehash_tableSize]
  have : lfQuot 0 = 0 := by decide
  simp [ADS_set.init, this]

theorem ctor_elementSize (hN : 0 < N) : (ADS_set.ctor hash N : ADS_set Key).elementSize = 0 := by
  have hc : Inv hash N (ADS_set.ctor hash N : ADS_set Key) := ctor_inv hash N hN
  rw [hc.live]
  have : keysOf (ADS_set.ctor hash N : ADS_set Key) = [] := by
    apply List.eq_nil_iff_forall_not_mem.mpr
    intro k hk
    rw [mem_keysOf_iff_count hash N _ hc, ctor_count hash N hN] at hk
    cases hk
  rw [this]; rfl

/-- Raw placement of distinct absent keys adds their number to the element count. -/
theorem placeAll_elementSize (l : List Key) :
    ∀ s : ADS_set Key, Inv hash N s → l.Nodup → (∀ k ∈ l, count hash s k = 0) →
      (placeAll hash s l).elementSize = s.elementSize + l.length := by
  induction l with
  | nil => intro s _ _ _; rfl
  | cons a rest ih =>
    intro s hs hnd habs
    have ha : count hash s a = 0 := habs a (List.mem_cons_self _ _)
    have hs1 := insertReal_inv hash N hs a
    have e : placeAll hash s (a :: rest) = placeAll hash (insertReal hash s a).1 rest := rfl
    have hrest : ∀ k ∈ rest, count hash (insertReal hash s a).1 k = 0 := by
      intro k hk
      rw [insertReal_count hash N hs, if_neg, habs k (List.mem_cons_of_mem _ hk)]
      rintro rfl
      exact (List.nodup_cons.mp hnd).1 hk
    rw [e, ih _ hs1 (List.nodup_cons.mp hnd).2 hrest, insertReal_elementSize, if_pos ha,
      List.length_cons]
    omega

/-- An inserting call on a table of 7 buckets that holds 5872024 keys grows to 8388607
buckets, where the binary32 product `8388607 * max_lf` rounds up to `5872025`: the growth
test is false for 5872025 keys although `5872025 > 0.7 * 8388607`. -/
theorem insert_at_rounded_threshold {s : ADS_set Key} (hs : Inv hash 7 s)
    (hts : s.tableSize = 7) (hes : s.elementSize = 5872024) {k : Key}
    (hk : count hash s k = 0) :
    ∃ s' it, insert hash 7 s k = some (s', it, true) ∧
      s'.tableSize = 8388607 ∧ size s' = 5872025 ∧
      lfExceeds (size s') s'.tableSize = false ∧
      ¬ (10 * size s' ≤ 7 * s'.tableSize) ∧
      ¬ ((size s' : ℚ) ≤ F32.val max_lf * (s'.tableSize : ℚ)) := by
  have h7 : 0 < 7 := by decide
  obtain ⟨p, hins, _⟩ := insert_new hash 7 h7 hs hk
  have hres : reserve hash 7 s (s.elementSize + 1) = rehash hash 7 s 8388607 := by
    have e1 : lfExceeds 5872025 7 = true := by decide
    have e2 : reserve_loop 5872025 (5872025 + 4) 7 = 8388607 := by decide
    simp only [reserve, hes, hts, e1, if_true, e2]
  rw [hres] at hins
  have hq : lfQuot 5872024 = 8388606 := by decide
  have hcap : (insertReal hash (rehash hash 7 s 8388607) k).1.tableSize = 8388607 := by
    rw [insertReal_tableSize, rehash_tableSize, hes, hq]
    rfl
  have hsz : size (insertReal hash (rehash hash 7 s 8388607) k).1 = 5872025 := by
    simp only [size]
    rw [insertReal_elementSize, rehash_count hash 7 h7 hs, hk,
      rehash_elementSize hash 7 h7 hs, hes]
    rfl
  have hlf : lfExceeds 5872025 8388607 = false := by decide
  refine ⟨_, ⟨some p⟩, hins, hcap, hsz, ?_, ?_, ?_⟩
  · rw [hsz, hcap]; exact hlf
  · rw [hsz, hcap]; decide
  · rw [hsz, hcap, val_max_lf]; norm_num

/-- The same call after the list constructor has placed 5872024 distinct keys. -/
theorem insert_after_long_list (l : List Key) (hl : l.Nodup) (hlen : l.length = 5872024)
    (k : Key) (hk : k ∉ l) :
    ∃ s' it, insert hash 7 (ADS_set.ctor_list hash 7 l) k = some (s', it, true) ∧
      s'.tableSize = 8388607 ∧ size s' = 5872025 ∧
      lfExceeds (size s') s'.tableSize = false ∧
      ¬ (10 * size s' ≤ 7 * s'.tableSize) ∧
      ¬ ((size s' : ℚ) ≤ F32.val max_lf * (s'.tableSize : ℚ)) := by
  have h7 : 0 < 7 := by decide
  have hc : Inv hash 7 (ADS_set.ctor hash 7 : ADS_set Key) := ctor_inv hash 7 h7
  have e : ADS_set.ctor_list hash 7 l = placeAll hash (ADS_set.ctor hash 7) l := rfl
  obtain ⟨hi, ht, hcn⟩ := placeAll_spec hash 7 l _ hc
  rw [e]
  refine insert_at_rounded_threshold hash hi ?_ ?_ ?_
  · rw [ht, ctor_tableSize]
  · rw [placeAll_elementSize hash 7 l _ hc hl (fun k _ => ctor_count hash 7 h7 k),
      ctor_elementSize hash 7 h7, hlen]
  · rw [hcn k, if_neg hk, ctor_count hash 7 h7]

end Structure

section Contract

variable {Key : Type} [DecidableEq Key] [Inhabited Key] (hash : Key → Nat) (N : Nat)

/-- C1: in a reachable container, `insert(k)` of a key with `count(k) = 0` returns
`inserted = true` and an iterator that dereferences to `k`; afterwards `count(k) = 1`,
`size()` is one more than before and the count of every other key is unchanged
(whether or not `reserve` rebuilt the table). -/
theorem insert_absent_key (hN : 0 < N) (s : ADS_set Key) (hr : Reachable hash N s) (k : Key)
    (hk : count hash s k = 0) :
    ∃ s' it, insert hash N s k = some (s', it, true) ∧ Iterator.deref s' it = some k ∧
      count hash s' k = 1 ∧ size s' = size s + 1 ∧
      ∀ k', k' ≠ k → count hash s' k' = count hash s k' := by
  have hs := hr.inv hash N hN
  have hres := reserve_inv hash N hN hs (s.elementSize + 1)
  obtain ⟨p, h1, h2⟩ := insert_new hash N hN hs hk
  refine ⟨_, _, h1, h2, ?_, ?_, ?_⟩
  · rw [insertReal_count hash N hres]; simp
  · simp only [size]
    rw [insertReal_elementSize, reserve_count hash N hN hs, hk,
      reserve_elementSize hash N hN hs]
    rfl
  · intro k' hk'
    rw [insertReal_count hash N hres, if_neg hk', reserve_count hash N hN hs]

theorem insert_absent_key_witness :
    0 < 7 ∧ Reachable (fun k : Nat => k) 7 (ADS_set.ctor_range (fun k : Nat => k) 7 [3, 10, 17, 4]) ∧
    count (fun k : Nat => k) (ADS_set.ctor_range (fun k : Nat => k) 7 [3, 10, 17, 4]) 11 = 0 ∧
    ∃ s' it, insert (fun k : Nat => k) 7
        (ADS_set.ctor_range (fun k : Nat => k) 7 [3, 10, 17, 4]) 11 = some (s', it, true) ∧
      Iterator.deref s' it = some 11 ∧ count (fun k : Nat => k) s' 11 = 1 ∧
      size s' = size (ADS_set.ctor_range (fun k : Nat => k) 7 [3, 10, 17, 4]) + 1 ∧
      ∀ k', k' ≠ 11 → count (fun k : Nat => k) s' k'
        = count (fun k : Nat => k) (ADS_set.ctor_range (fun k : Nat => k) 7 [3, 10, 17, 4]) k' :=
  ⟨by decide, Reachable.ctor_range _, by decide,
    insert_absent_key (fun k : Nat => k) 7 (by decide) _ (Reachable.ctor_range _) 11 (by decide)⟩

/-- C2: in a reachable container, `erase(k)` returns 1 if `count(k) = 1` and 0
otherwise; afterwards `count(k) = 0`, `size()` has gone down by the returned value,
the count of every other key is unchanged, and the state is unchanged when 0 is
returned. -/
theorem erase_contract (hN : 0 < N) (s : ADS_set Key) (hr : Reachable hash N s) (k : Key) :
    (erase hash s k).2 = (if count hash s k = 1 then 1 else 0) ∧
    count hash (erase hash s k).1 k = 0 ∧
    size (erase hash s k).1 + (erase hash s k).2 = size s ∧
    (∀ k', k' ≠ k → count hash (erase hash s k).1 k' = count hash s k') ∧
    ((erase hash s k).2 = 0 → (erase hash s k).1 = s) := by
  have hs := hr.inv hash N hN
  rcases erase_cases hash N hs k with ⟨hc, h⟩ | ⟨hc, b', h, hb', hkeys⟩
  · rw [h]
    exact ⟨by simp [hc], hc, rfl, fun _ _ => rfl, fun _ => rfl⟩
  · have hlt := hash_idx_lt hash N s hs k
    have hb := hs.buckets _ hlt
    have hcu := count_update hash N hs hlt hb' (s.elementSize - 1)
    have hzero_of : ∀ k', ¬ (count hash ⟨s.tableSize, s.elementSize - 1,
        s.table.set (hash_idx hash s k) b'⟩ k' = 1) →
        count hash ⟨s.tableSize, s.elementSize - 1,
          s.table.set (hash_idx hash s k) b'⟩ k' = 0 := by
      intro k' hne
      rcases count_le hash ⟨s.tableSize, s.elementSize - 1,
        s.table.set (hash_idx hash s k) b'⟩ k' with h0 | h1
      · exact h0
      · exact absurd h1 hne
    rw [h]
    refine ⟨by simp [hc], ?_, ?_, ?_, fun h0 => absurd h0 (by simp)⟩
    · apply hzero_of
      rw [hcu k, if_pos rfl, hkeys, hb.nodup.mem_erase_iff]
      simp
    · have := keysOf_length_pos hash N hs hc
      simp only [size]
      omega
    · intro k' hk'
      have hiff : count hash ⟨s.tableSize, s.elementSize - 1,
          s.table.set (hash_idx hash s k) b'⟩ k' = 1 ↔ count hash s k' = 1 := by
        rw [hcu k']
        split_ifs with hidx
        · rw [hkeys, hb.nodup.mem_erase_iff, ← hidx,
            count_eq_one_iff_bucket hash s k' _ _ (hs.buckets _ (hash_idx_lt hash N s hs k'))]
          simp [hk']
        · rfl
      rcases count_le hash s k' with h0 | h1
      · rw [h0]
        apply hzero_of
        rw [hiff, h0]; simp
      · rw [h1, hiff.mpr h1]

theorem erase_contract_witness :
    0 < 7 ∧ Reachable (fun k : Nat => k) 7 (ADS_set.ctor_list (fun k : Nat => k) 7 [3, 10, 17, 4]) ∧
    (erase (fun k : Nat => k) (ADS_set.ctor_list (fun k : Nat => k) 7 [3, 10, 17, 4]) 10).2
      = (if count (fun k : Nat => k) (ADS_set.ctor_list (fun k : Nat => k) 7 [3, 10, 17, 4]) 10 = 1
          then 1 else 0) ∧
    count (fun k : Nat => k)
      (erase (fun k : Nat => k) (ADS_set.ctor_list (fun k : Nat => k) 7 [3, 10, 17, 4]) 10).1 10 = 0 ∧
    size (erase (fun k : Nat => k) (ADS_set.ctor_list (fun k : Nat => k) 7 [3, 10, 17, 4]) 10).1
      + (erase (fun k : Nat => k) (ADS_set.ctor_list (fun k : Nat => k) 7 [3, 10, 17, 4]) 10).2
      = size (ADS_set.ctor_list (fun k : Nat => k) 7 [3, 10, 17, 4]) ∧
    (∀ k', k' ≠ 10 →
      count (fun k : Nat => k)
        (erase (fun k : Nat => k) (ADS_set.ctor_list (fun k : Nat => k) 7 [3, 10, 17, 4]) 10).1 k'
      = count (fun k : Nat => k) (ADS_set.ctor_list (fun k : Nat => k) 7 [3, 10, 17, 4]) k') ∧
    ((erase (fun k : Nat => k) (ADS_set.ctor_list (fun k : Nat => k) 7 [3, 10, 17, 4]) 10).2 = 0 →
      (erase (fun k : Nat => k) (ADS_set.ctor_list (fun k : Nat => k) 7 [3, 10, 17, 4]) 10).1
        = ADS_set.ctor_list (fun k : Nat => k) 7 [3, 10, 17, 4]) :=
  ⟨by decide, Reachable.ctor_list _,
    erase_contract (fun k : Nat => k) 7 (by decide) _ (Reachable.ctor_list _) 10⟩

/-- C3: in a reachable container, `insert(k)` of a key with `count(k) = 1` returns
`inserted = false` and an iterator that dereferences to `k`, and the state after the
call is the state before it (size, capacity, buckets, hence every count). -/
theorem insert_present_key (hN : 0 < N) (s : ADS_set Key) (hr : Reachable hash N s) (k : Key)
    (hk : count hash s k = 1) :
    ∃ it, insert hash N s k = some (s, it, false) ∧ Iterator.deref s it = some k := by
  obtain ⟨p, _, h1, h2⟩ := insert_found hash N (hr.inv hash N hN) hk
  exact ⟨_, h1, h2⟩

theorem insert_present_key_witness :
    0 < 7 ∧ Reachable (fun k : Nat => k) 7 (ADS_set.ctor_list (fun k : Nat => k) 7 [3, 10, 17, 4]) ∧
    count (fun k : Nat => k) (ADS_set.ctor_list (fun k : Nat => k) 7 [3, 10, 17, 4]) 3 = 1 ∧
    ∃ it, insert (fun k : Nat => k) 7 (ADS_set.ctor_list (fun k : Nat => k) 7 [3, 10, 17, 4]) 3
        = some (ADS_set.ctor_list (fun k : Nat => k) 7 [3, 10, 17, 4], it, false) ∧
      Iterator.deref (ADS_set.ctor_list (fun k : Nat => k) 7 [3, 10, 17, 4]) it = some 3 :=
  ⟨by decide, Reachable.ctor_list _, by decide,
    insert_present_key (fun k : Nat => k) 7 (by decide) _ (Reachable.ctor_list _) 3 (by decide)⟩

/-- C4: in every reachable state `size()` is the number of distinct keys `k` with
`count(k) = 1`. -/
theorem size_eq_number_of_keys (hN : 0 < N) (s : ADS_set Key) (hr : Reachable hash N s) :
    Set.ncard {k | count hash s k = 1} = size s := by
  have hs := hr.inv hash N hN
  have hset : {k | count hash s k = 1} = ↑(keysOf s).toFinset := by
    ext k
    simp [mem_keysOf_iff_count hash N s hs]
  rw [hset, Set.ncard_coe_Finset, List.toFinset_card_of_nodup (nodup_keysOf hash N s hs)]
  exact hs.live.symm

theorem size_eq_number_of_keys_witness :
    0 < 7 ∧ Reachable (fun k : Nat => k) 7 (ADS_set.ctor_list (fun k : Nat => k) 7 [3, 10, 17, 4]) ∧
    Set.ncard {k | count (fun k : Nat => k)
        (ADS_set.ctor_list (fun k : Nat => k) 7 [3, 10, 17, 4]) k = 1}
      = size (ADS_set.ctor_list (fun k : Nat => k) 7 [3, 10, 17, 4]) :=
  ⟨by decide, Reachable.ctor_list _,
    size_eq_number_of_keys (fun k : Nat => k) 7 (by decide) _ (Reachable.ctor_list _)⟩

/-- C5: in a reachable container the walk from `begin()` with `operator++` reaches
`end()`; the keys it dereferences have no repetition and are exactly the keys with
`count = 1`, so there are `size()` of them, and `begin() == end()` when the container
is empty. -/
theorem iteration_visits_each_key_once (hN : 0 < N) (s : ADS_set Key)
    (hr : Reachable hash N s) :
    ∃ l b e, s.toList = some l ∧ l.Nodup ∧ (∀ k, k ∈ l ↔ count hash s k = 1) ∧
      l.length = size s ∧ s.begin = some b ∧ s.end = some e ∧ (size s = 0 → b = e) := by
  have hs := hr.inv hash N hN
  obtain ⟨j, _, _, hj3, _, _⟩ := skip_free_slot hash N hs (Nat.zero_le s.tableSize)
  have hbegin : s.begin = some ⟨some ⟨j, 0⟩⟩ := by
    simp [ADS_set.begin, Iterator.ctor, hj3]
  refine ⟨keysOf s, _, _, toList_eq hash N hs, nodup_keysOf hash N s hs,
    mem_keysOf_iff_count hash N s hs, hs.live.symm, hbegin, end_eq hash N hs, ?_⟩
  intro h0
  have := begin_eq_end_of_empty hash N hs h0
  rw [hbegin, end_eq hash N hs] at this
  exact Option.some.inj this

theorem iteration_visits_each_key_once_witness :
    0 < 7 ∧ Reachable (fun k : Nat => k) 7 (ADS_set.ctor_list (fun k : Nat => k) 7 [3, 10, 17, 4]) ∧
    ∃ l b e, (ADS_set.ctor_list (fun k : Nat => k) 7 [3, 10, 17, 4]).toList = some l ∧ l.Nodup ∧
      (∀ k, k ∈ l ↔ count (fun k : Nat => k)
        (ADS_set.ctor_list (fun k : Nat => k) 7 [3, 10, 17, 4]) k = 1) ∧
      l.length = size (ADS_set.ctor_list (fun k : Nat => k) 7 [3, 10, 17, 4]) ∧
      (ADS_set.ctor_list (fun k : Nat => k) 7 [3, 10, 17, 4]).begin = some b ∧
      (ADS_set.ctor_list (fun k : Nat => k) 7 [3, 10, 17, 4]).end = some e ∧
      (size (ADS_set.ctor_list (fun k : Nat => k) 7 [3, 10, 17, 4]) = 0 → b = e) :=
  ⟨by decide, Reachable.ctor_list _,
    iteration_visits_each_key_once (fun k : Nat => k) 7 (by decide) _ (Reachable.ctor_list _)⟩

/-- C6, refuted as stated: the list constructor with the keys `0 .. 5872023` (identity
hash, `N = 7`) gives a reachable container of 7 buckets; `insert(5872024)` returns
`inserted = true`, grows the table to 8388607 buckets and leaves 5872025 keys.  The growth
test of `reserve` is false there, because the binary32 product `8388607 * max_lf` rounds
up to `5872025`, yet `size() <= 0.7 * capacity` fails (`10 * 5872025 = 7 * 8388607 + 1`),
and so does `size() <= max_lf * capacity` for the exact value of the stored constant. -/
theorem load_factor_bound_counterexample :
    Reachable (fun k : Nat => k) 7
      (ADS_set.ctor_list (fun k : Nat => k) 7 (List.range 5872024)) ∧
    ∃ s' it,
      insert (fun k : Nat => k) 7
        (ADS_set.ctor_list (fun k : Nat => k) 7 (List.range 5872024)) 5872024
          = some (s', it, true) ∧
      s'.tableSize = 8388607 ∧ size s' = 5872025 ∧
      lfExceeds (size s') s'.tableSize = false ∧
      ¬ (10 * size s' ≤ 7 * s'.tableSize) ∧
      ¬ ((size s' : ℚ) ≤ F32.val max_lf * (s'.tableSize : ℚ)) :=
  ⟨Reachable.ctor_list _,
    insert_after_long_list (fun k : Nat => k) (List.range 5872024) (List.nodup_range _)
      (List.length_range _) 5872024 (fun h => lt_irrefl _ (List.mem_range.mp h))⟩

/-- C6, amended: after a call `insert(k)` on a reachable container that returns
`inserted = true`, the growth test of `reserve` is false for the new size and capacity:
`size() <= capacity * max_lf` as the code evaluates it in binary32, whatever the load of
the container was before the call.  In exact arithmetic this gives
`size() <= 0.7 * capacity * (1 + 2 ^ (-22))` for every capacity, and
`size() <= 0.7 * capacity` for a capacity below `2 ^ 22`. -/
theorem insert_keeps_load_factor (hN : 0 < N) (s : ADS_set Key) (hr : Reachable hash N s)
    (k : Key) (s' : ADS_set Key) (it : Iterator)
    (h : insert hash N s k = some (s', it, true)) :
    lfExceeds (size s') s'.tableSize = false ∧
      10 * size s' * 2 ^ 22 ≤ 7 * s'.tableSize * (2 ^ 22 + 1) ∧
      (s'.tableSize < 2 ^ 22 → 10 * size s' ≤ 7 * s'.tableSize) := by
  have hs := hr.inv hash N hN
  rcases insert_state hash N hN hs h with ⟨_, _, hb⟩ | ⟨hc, hs', _⟩
  · cases hb
  · have hsize : size s' = s.elementSize + 1 := by
      rw [hs']
      simp only [size]
      rw [insertReal_elementSize, reserve_count hash N hN hs, hc,
        reserve_elementSize hash N hN hs]
      rfl
    have hcap : s'.tableSize = (reserve hash N s (s.elementSize + 1)).tableSize := by
      rw [hs', insertReal_tableSize]
    have hlf : lfExceeds (size s') s'.tableSize = false := by
      rw [hsize, hcap]
      exact reserve_load_factor hash N hN hs _
    exact ⟨hlf, lfExceeds_approx hlf, fun hlt => lfExceeds_exact hlf hlt⟩

set_option maxRecDepth 100000 in
theorem insert_keeps_load_factor_witness :
    0 < 7 ∧
    Reachable (fun k : Nat => k) 7 (ADS_set.ctor_list (fun k : Nat => k) 7 [0, 1, 2, 3, 4, 5, 6]) ∧
    insert (fun k : Nat => k) 7 (ADS_set.ctor_list (fun k : Nat => k) 7 [0, 1, 2, 3, 4, 5, 6]) 7
      = some ((insertReal (fun k : Nat => k) (reserve (fun k : Nat => k) 7
          (ADS_set.ctor_list (fun k : Nat => k) 7 [0, 1, 2, 3, 4, 5, 6]) 8) 7).1,
        ⟨some ⟨7, 0⟩⟩, true) ∧
    lfExceeds (size (insertReal (fun k : Nat => k) (reserve (fun k : Nat => k) 7
        (ADS_set.ctor_list (fun k : Nat => k) 7 [0, 1, 2, 3, 4, 5, 6]) 8) 7).1)
      (insertReal (fun k : Nat => k) (reserve (fun k : Nat => k) 7
        (ADS_set.ctor_list (fun k : Nat => k) 7 [0, 1, 2, 3, 4, 5, 6]) 8) 7).1.tableSize = false ∧
    10 * size (insertReal (fun k : Nat => k) (reserve (fun k : Nat => k) 7
        (ADS_set.ctor_list (fun k : Nat => k) 7 [0, 1, 2, 3, 4, 5, 6]) 8) 7).1 * 2 ^ 22
      ≤ 7 * (insertReal (fun k : Nat => k) (reserve (fun k : Nat => k) 7
        (ADS_set.ctor_list (fun k : Nat => k) 7 [0, 1, 2, 3, 4, 5, 6]) 8) 7).1.tableSize
          * (2 ^ 22 + 1) ∧
    ((insertReal (fun k : Nat => k) (reserve (fun k : Nat => k) 7
        (ADS_set.ctor_list (fun k : Nat => k) 7 [0, 1, 2, 3, 4, 5, 6]) 8) 7).1.tableSize < 2 ^ 22 →
      10 * size (insertReal (fun k : Nat => k) (reserve (fun k : Nat => k) 7
        (ADS_set.ctor_list (fun k : Nat => k) 7 [0, 1, 2, 3, 4, 5, 6]) 8) 7).1
      ≤ 7 * (insertReal (fun k : Nat => k) (reserve (fun k : Nat => k) 7
        (ADS_set.ctor_list (fun k : Nat => k) 7 [0, 1, 2, 3, 4, 5, 6]) 8) 7).1.tableSize) :=
  ⟨by decide, Reachable.ctor_list _, by decide,
    insert_keeps_load_factor (fun k : Nat => k) 7 (by decide)
      (ADS_set.ctor_list (fun k : Nat => k) 7 [0, 1, 2, 3, 4, 5, 6]) (Reachable.ctor_list _) 7
      (insertReal (fun k : Nat => k) (reserve (fun k : Nat => k) 7
        (ADS_set.ctor_list (fun k : Nat => k) 7 [0, 1, 2, 3, 4, 5, 6]) 8) 7).1
      ⟨some ⟨7, 0⟩⟩ (by decide)⟩

set_option maxRecDepth 100000 in
/-- C7 (defect of the code): list insert places its keys with `insertReal` and never
calls `reserve`.  The list constructor applied to five distinct keys leaves the default
capacity 7 with `size() = 5`, so the growth test `5 > 7 * max_lf` is true and
`size() <= 0.7 * capacity` fails, while the range constructor applied to the same keys
grows to capacity 15 and keeps the bound. -/
theorem insert_list_skips_growth_check :
    size (ADS_set.ctor_list (fun k : Nat => k) 7 [0, 1, 2, 3, 4]) = 5 ∧
    (ADS_set.ctor_list (fun k : Nat => k) 7 [0, 1, 2, 3, 4]).tableSize = 7 ∧
    lfExceeds 5 7 = true ∧ ¬ (10 * 5 ≤ 7 * 7) ∧
    size (ADS_set.ctor_range (fun k : Nat => k) 7 [0, 1, 2, 3, 4]) = 5 ∧
    (ADS_set.ctor_range (fun k : Nat => k) 7 [0, 1, 2, 3, 4]).tableSize = 15 ∧
    lfExceeds 5 15 = false := by
  decide

/-- C8: in a reachable container `find(k)` returns an iterator different from `end()`
that dereferences to `k` exactly when `count(k) = 1`, and returns `end()` exactly when
`count(k) = 0`: the scans of `find_pos` and of `count` agree. -/
theorem find_agrees_with_count (hN : 0 < N) (s : ADS_set Key) (hr : Reachable hash N s)
    (k : Key) :
    ∃ it e, find hash s k = some it ∧ s.end = some e ∧
      ((it ≠ e ∧ Iterator.deref s it = some k) ↔ count hash s k = 1) ∧
      (it = e ↔ count hash s k = 0) ∧
      ((find_pos hash s k).isSome ↔ count hash s k = 1) := by
  have hs := hr.inv hash N hN
  have hend := end_eq hash N hs
  cases hf : find_pos hash s k with
  | none =>
    have hc := (find_pos_none_iff hash N hs k).mp hf
    refine ⟨_, _, by simp only [find, hf]; exact hend, hend, ?_, ?_, ?_⟩
    · simp [hc]
    · simp [hc]
    · simp [hc]
  | some p =>
    obtain ⟨h1, h2, h3⟩ := iterator_of_find_pos hash N hs hf
    have hc : count hash s k = 1 := by
      rcases count_le hash s k with h0 | h1
      · rw [(find_pos_none_iff hash N hs k).mpr h0] at hf; cases hf
      · exact h1
    have hne : (⟨some p⟩ : Iterator) ≠ ⟨some ⟨s.tableSize, 0⟩⟩ := by
      intro h; apply h3; rw [hend, h]
    refine ⟨_, _, by simp only [find, hf]; exact h1, hend, ?_, ?_, ?_⟩
    · exact ⟨fun _ => hc, fun _ => ⟨hne, h2⟩⟩
    · rw [hc]
      exact ⟨fun h => absurd h hne, fun h => absurd h (by simp)⟩
    · simp [hc]

theorem find_agrees_with_count_witness :
    0 < 7 ∧ Reachable (fun k : Nat => k) 7 (ADS_set.ctor_list (fun k : Nat => k) 7 [3, 10, 17, 4]) ∧
    ∃ it e, find (fun k : Nat => k) (ADS_set.ctor_list (fun k : Nat => k) 7 [3, 10, 17, 4]) 10
        = some it ∧
      (ADS_set.ctor_list (fun k : Nat => k) 7 [3, 10, 17, 4]).end = some e ∧
      ((it ≠ e ∧ Iterator.deref (ADS_set.ctor_list (fun k : Nat => k) 7 [3, 10, 17, 4]) it = some 10)
        ↔ count (fun k : Nat => k) (ADS_set.ctor_list (fun k : Nat => k) 7 [3, 10, 17, 4]) 10 = 1) ∧
      (it = e ↔ count (fun k : Nat => k)
        (ADS_set.ctor_list (fun k : Nat => k) 7 [3, 10, 17, 4]) 10 = 0) ∧
      ((find_pos (fun k : Nat => k)
          (ADS_set.ctor_list (fun k : Nat => k) 7 [3, 10, 17, 4]) 10).isSome
        ↔ count (fun k : Nat => k) (ADS_set.ctor_list (fun k : Nat => k) 7 [3, 10, 17, 4]) 10 = 1) :=
  ⟨by decide, Reachable.ctor_list _,
    find_agrees_with_count (fun k : Nat => k) 7 (by decide) _ (Reachable.ctor_list _) 10⟩

/-- C9: for reachable containers `A == B` is true exactly when every key has the same
count in both, whatever their capacities and bucket layouts; `==` is reflexive and
symmetric and `!=` is its negation. -/
theorem op_eq_is_set_equality (hN : 0 < N) (A B : ADS_set Key) (hA : Reachable hash N A)
    (hB : Reachable hash N B) :
    ∃ b, op_eq hash A B = some b ∧ (b = true ↔ ∀ k, count hash A k = count hash B k) ∧
      op_eq hash A A = some true ∧ op_eq hash B A = some b ∧ op_ne hash A B = some (!b) := by
  have hsA := hA.inv hash N hN
  have hsB := hB.inv hash N hN
  obtain ⟨b, h1, h2⟩ := op_eq_spec hash N hsA hsB
  obtain ⟨b', h1', h2'⟩ := op_eq_spec hash N hsB hsA
  obtain ⟨r, g1, g2⟩ := op_eq_spec hash N hsA hsA
  have hr : r = true := g2.mpr (fun _ => rfl)
  have hbb : b' = b := by
    cases b <;> cases b' <;> simp_all
  refine ⟨b, h1, h2, by rw [g1, hr], by rw [h1', hbb], by simp [op_ne, h1]⟩

theorem op_eq_is_set_equality_witness :
    0 < 7 ∧ Reachable (fun k : Nat => k) 7 (ADS_set.ctor_list (fun k : Nat => k) 7 [3, 10, 17, 4, 11]) ∧
    Reachable (fun k : Nat => k) 7 (ADS_set.ctor_range (fun k : Nat => k) 7 [11, 4, 3, 10, 17]) ∧
    ∃ b, op_eq (fun k : Nat => k) (ADS_set.ctor_list (fun k : Nat => k) 7 [3, 10, 17, 4, 11])
        (ADS_set.ctor_range (fun k : Nat => k) 7 [11, 4, 3, 10, 17]) = some b ∧
      (b = true ↔ ∀ k, count (fun k : Nat => k)
          (ADS_set.ctor_list (fun k : Nat => k) 7 [3, 10, 17, 4, 11]) k
        = count (fun k : Nat => k) (ADS_set.ctor_range (fun k : Nat => k) 7 [11, 4, 3, 10, 17]) k) ∧
      op_eq (fun k : Nat => k) (ADS_set.ctor_list (fun k : Nat => k) 7 [3, 10, 17, 4, 11])
        (ADS_set.ctor_list (fun k : Nat => k) 7 [3, 10, 17, 4, 11]) = some true ∧
      op_eq (fun k : Nat => k) (ADS_set.ctor_range (fun k : Nat => k) 7 [11, 4, 3, 10, 17])
        (ADS_set.ctor_list (fun k : Nat => k) 7 [3, 10, 17, 4, 11]) = some b ∧
      op_ne (fun k : Nat => k) (ADS_set.ctor_list (fun k : Nat => k) 7 [3, 10, 17, 4, 11])
        (ADS_set.ctor_range (fun k : Nat => k) 7 [11, 4, 3, 10, 17]) = some (!b) :=
  ⟨by decide, Reachable.ctor_list _, Reachable.ctor_range _,
    op_eq_is_set_equality (fun k : Nat => k) 7 (by decide) _ _ (Reachable.ctor_list _)
      (Reachable.ctor_range _)⟩

/-- C10: for a reachable container `C`, the container built by the range constructor
from `begin(C)..end(C)` compares equal to `C`, has the same `size()` and the same
count for every key. -/
theorem range_ctor_round_trip (hN : 0 < N) (C : ADS_set Key) (hC : Reachable hash N C) :
    ∃ l, C.toList = some l ∧
      op_eq hash (ADS_set.ctor_range hash N l) C = some true ∧
      op_eq hash C (ADS_set.ctor_range hash N l) = some true ∧
      size (ADS_set.ctor_range hash N l) = size C ∧
      ∀ k, count hash (ADS_set.ctor_range hash N l) k = count hash C k := by
  have hs := hC.inv hash N hN
  obtain ⟨hi, hc⟩ := insert_range_spec hash N hN (keysOf C) _ (ctor_inv hash N hN)
  change Inv hash N (ADS_set.ctor_range hash N (keysOf C)) at hi
  have hcount : ∀ k, count hash (ADS_set.ctor_range hash N (keysOf C)) k = count hash C k := by
    intro k
    rw [ADS_set.ctor_range, hc k, ctor_count hash N hN]
    rcases count_le hash C k with h | h
    · rw [h, if_neg]; rw [mem_keysOf_iff_count hash N C hs, h]; simp
    · rw [h, if_pos]; rw [mem_keysOf_iff_count hash N C hs, h]
  obtain ⟨b, h1, h2⟩ := op_eq_spec hash N hi hs
  obtain ⟨b', h1', h2'⟩ := op_eq_spec hash N hs hi
  refine ⟨keysOf C, toList_eq hash N hs, ?_, ?_, ?_, hcount⟩
  · rw [h1, h2.mpr hcount]
  · rw [h1', h2'.mpr (fun k => (hcount k).symm)]
  · exact size_eq_of_count_eq hash N hs hi hcount

theorem range_ctor_round_trip_witness :
    0 < 7 ∧ Reachable (fun k : Nat => k) 7 (ADS_set.ctor_list (fun k : Nat => k) 7 [3, 10, 17, 4, 11]) ∧
    ∃ l, (ADS_set.ctor_list (fun k : Nat => k) 7 [3, 10, 17, 4, 11]).toList = some l ∧
      op_eq (fun k : Nat => k) (ADS_set.ctor_range (fun k : Nat => k) 7 l)
        (ADS_set.ctor_list (fun k : Nat => k) 7 [3, 10, 17, 4, 11]) = some true ∧
      op_eq (fun k : Nat => k) (ADS_set.ctor_list (fun k : Nat => k) 7 [3, 10, 17, 4, 11])
        (ADS_set.ctor_range (fun k : Nat => k) 7 l) = some true ∧
      size (ADS_set.ctor_range (fun k : Nat => k) 7 l)
        = size (ADS_set.ctor_list (fun k : Nat => k) 7 [3, 10, 17, 4, 11]) ∧
      ∀ k, count (fun k : Nat => k) (ADS_set.ctor_range (fun k : Nat => k) 7 l) k
        = count (fun k : Nat => k) (ADS_set.ctor_list (fun k : Nat => k) 7 [3, 10, 17, 4, 11]) k :=
  ⟨by decide, Reachable.ctor_list _,
    range_ctor_round_trip (fun k : Nat => k) 7 (by decide) _ (Reachable.ctor_list _)⟩

/-- C11: for reachable `S` and `D`, the copy constructed from `S` and the result of the
copy assignment `D = S` have the same `size()` and the same count for every key as `S`
and compare equal to `S`; a key that is not in `S` is not in the result of the
assignment, whether or not `D` held it. -/
theorem copy_has_contents_of_source (hN : 0 < N) (S D : ADS_set Key)
    (hS : Reachable hash N S) (hD : Reachable hash N D) :
    (∃ c, ADS_set.ctor_copy hash N S = some c ∧ size c = size S ∧
      (∀ k, count hash c k = count hash S k) ∧ op_eq hash c S = some true) ∧
    (∃ d, assign hash N D S = some d ∧ size d = size S ∧
      (∀ k, count hash d k = count hash S k) ∧ op_eq hash d S = some true ∧
      ∀ k, count hash D k = 1 → count hash S k = 0 → count hash d k = 0) := by
  have hs := hS.inv hash N hN
  have hd := hD.inv hash N hN
  obtain ⟨c, hc1, hc2, hc3⟩ := ctor_copy_spec hash N hN hs
  obtain ⟨d, hd1, hd2, hd3⟩ := assign_spec hash N hN hd hs
  obtain ⟨b, hb1, hb2⟩ := op_eq_spec hash N hc2 hs
  obtain ⟨b', hb1', hb2'⟩ := op_eq_spec hash N hd2 hs
  refine ⟨⟨c, hc1, size_eq_of_count_eq hash N hs hc2 hc3, hc3, ?_⟩,
    ⟨d, hd1, size_eq_of_count_eq hash N hs hd2 hd3, hd3, ?_, ?_⟩⟩
  · rw [hb1, hb2.mpr hc3]
  · rw [hb1', hb2'.mpr hd3]
  · intro k _ h0
    rw [hd3 k, h0]

theorem copy_has_contents_of_source_witness :
    0 < 7 ∧
    Reachable (fun k : Nat => k) 7 (ADS_set.ctor_list (fun k : Nat => k) 7 [3, 10, 17, 4]) ∧
    Reachable (fun k : Nat => k) 7 (ADS_set.ctor_list (fun k : Nat => k) 7 [1, 2, 3]) ∧
    (∃ c, ADS_set.ctor_copy (fun k : Nat => k) 7
        (ADS_set.ctor_list (fun k : Nat => k) 7 [3, 10, 17, 4]) = some c ∧
      size c = size (ADS_set.ctor_list (fun k : Nat => k) 7 [3, 10, 17, 4]) ∧
      (∀ k, count (fun k : Nat => k) c k
        = count (fun k : Nat => k) (ADS_set.ctor_list (fun k : Nat => k) 7 [3, 10, 17, 4]) k) ∧
      op_eq (fun k : Nat => k) c (ADS_set.ctor_list (fun k : Nat => k) 7 [3, 10, 17, 4])
        = some true) ∧
    (∃ d, assign (fun k : Nat => k) 7 (ADS_set.ctor_list (fun k : Nat => k) 7 [1, 2, 3])
        (ADS_set.ctor_list (fun k : Nat => k) 7 [3, 10, 17, 4]) = some d ∧
      size d = size (ADS_set.ctor_list (fun k : Nat => k) 7 [3, 10, 17, 4]) ∧
      (∀ k, count (fun k : Nat => k) d k
        = count (fun k : Nat => k) (ADS_set.ctor_list (fun k : Nat => k) 7 [3, 10, 17, 4]) k) ∧
      op_eq (fun k : Nat => k) d (ADS_set.ctor_list (fun k : Nat => k) 7 [3, 10, 17, 4])
        = some true ∧
      ∀ k, count (fun k : Nat => k) (ADS_set.ctor_list (fun k : Nat => k) 7 [1, 2, 3]) k = 1 →
        count (fun k : Nat => k) (ADS_set.ctor_list (fun k : Nat => k) 7 [3, 10, 17, 4]) k = 0 →
        count (fun k : Nat => k) d k = 0) :=
  ⟨by decide, Reachable.ctor_list _, Reachable.ctor_list _,
    copy_has_contents_of_source (fun k : Nat => k) 7 (by decide) _ _
      (Reachable.ctor_list _) (Reachable.ctor_list _)⟩

/-- C12: for a reachable container, after `clear()` the size is 0, every count is 0,
`begin() == end()` and the capacity is the one before the call; a following
`insert(k)` of any key returns `inserted = true` and makes `count(k) = 1`. -/
theorem clear_contract (hN : 0 < N) (s : ADS_set Key) (hr : Reachable hash N s) :
    size (clear s) = 0 ∧ (∀ k, count hash (clear s) k = 0) ∧
    (∃ b, (clear s).begin = some b ∧ (clear s).end = some b) ∧
    (clear s).tableSize = s.tableSize ∧
    ∀ k, ∃ s' it, insert hash N (clear s) k = some (s', it, true) ∧ count hash s' k = 1 := by
  have hs := hr.inv hash N hN
  have hc := clear_inv hash N hs
  refine ⟨clear_elementSize hash N hs, clear_count hash N hs, ?_, clear_tableSize hash N hs, ?_⟩
  · have h := begin_eq_end_of_empty hash N hc (clear_elementSize hash N hs)
    exact ⟨_, by rw [h]; exact end_eq hash N hc, end_eq hash N hc⟩
  · intro k
    obtain ⟨p, h1, _⟩ := insert_new hash N hN hc (clear_count hash N hs k)
    refine ⟨_, _, h1, ?_⟩
    rw [insertReal_count hash N (reserve_inv hash N hN hc _)]
    simp

theorem clear_contract_witness :
    0 < 7 ∧
    Reachable (fun k : Nat => k) 7 (ADS_set.ctor_range (fun k : Nat => k) 7 [3, 10, 17, 4, 11]) ∧
    size (clear (ADS_set.ctor_range (fun k : Nat => k) 7 [3, 10, 17, 4, 11])) = 0 ∧
    (∀ k, count (fun k : Nat => k)
      (clear (ADS_set.ctor_range (fun k : Nat => k) 7 [3, 10, 17, 4, 11])) k = 0) ∧
    (∃ b, (clear (ADS_set.ctor_range (fun k : Nat => k) 7 [3, 10, 17, 4, 11])).begin = some b ∧
      (clear (ADS_set.ctor_range (fun k : Nat => k) 7 [3, 10, 17, 4, 11])).end = some b) ∧
    (clear (ADS_set.ctor_range (fun k : Nat => k) 7 [3, 10, 17, 4, 11])).tableSize
      = (ADS_set.ctor_range (fun k : Nat => k) 7 [3, 10, 17, 4, 11]).tableSize ∧
    ∀ k, ∃ s' it, insert (fun k : Nat => k) 7
        (clear (ADS_set.ctor_range (fun k : Nat => k) 7 [3, 10, 17, 4, 11])) k
        = some (s', it, true) ∧ count (fun k : Nat => k) s' k = 1 :=
  ⟨by decide, Reachable.ctor_range _,
    clear_contract (fun k : Nat => k) 7 (by decide) _ (Reachable.ctor_range _)⟩

/-- C13: every reachable state is well formed.  The table has `tableSize + 1` slots;
in bucket `i` every stored key hashes to `i`, the primary slot is in use exactly when
the bucket stores a key, a free primary slot has an empty chain, every overflow node
is in use and the primary slot is not in state `end`; no key is stored twice; and the
slot at index `tableSize` is in state `end` and has no chain. -/
theorem reachable_well_formed (hN : 0 < N) (s : ADS_set Key) (hr : Reachable hash N s) :
    s.table.length = s.tableSize + 1 ∧
    (∀ i, i < s.tableSize →
      (∀ k ∈ storedKeys (s.bucketAt i), hash k % s.tableSize = i) ∧
      ((s.bucketAt i).slot.mode = Mode.inuse ↔ storedKeys (s.bucketAt i) ≠ []) ∧
      ((s.bucketAt i).slot.mode = Mode.free → (s.bucketAt i).chain = []) ∧
      (∀ e ∈ (s.bucketAt i).chain, e.mode = Mode.inuse) ∧
      (s.bucketAt i).slot.mode ≠ Mode.end) ∧
    ((List.range s.tableSize).flatMap (fun i => storedKeys (s.bucketAt i))).Nodup ∧
    (s.bucketAt s.tableSize).slot.mode = Mode.end ∧ (s.bucketAt s.tableSize).chain = [] := by
  have hs := hr.inv hash N hN
  refine ⟨hs.len, ?_, ?_, hs.sentinel.1, hs.sentinel.2⟩
  · intro i hi
    have hb := hs.buckets i hi
    rw [storedKeys_eq hash hb]
    refine ⟨hb.home, ?_, ?_, fun e he => (hb.chain e he).1, hb.mode⟩
    · by_cases hm : (s.bucketAt i).slot.mode = Mode.inuse <;> simp [bucketKeys, hm]
    · intro hf
      exact hb.free_chain (by rw [hf]; simp)
  · have h := nodup_keysOf hash N s hs
    have heq : (List.range s.tableSize).flatMap (fun i => storedKeys (s.bucketAt i))
        = keysOf s := by
      rw [keysOf, List.flatMap_eq_foldl, List.flatMap_eq_foldl]
      apply List.foldl_ext
      intro acc i hi
      rw [storedKeys_eq hash (hs.buckets i (List.mem_range.mp hi))]
    rw [heq]; exact h

theorem reachable_well_formed_witness :
    0 < 7 ∧
    Reachable (fun k : Nat => k) 7 (ADS_set.ctor_list (fun k : Nat => k) 7 [3, 10, 17, 4]) ∧
    (ADS_set.ctor_list (fun k : Nat => k) 7 [3, 10, 17, 4]).table.length
      = (ADS_set.ctor_list (fun k : Nat => k) 7 [3, 10, 17, 4]).tableSize + 1 ∧
    (∀ i, i < (ADS_set.ctor_list (fun k : Nat => k) 7 [3, 10, 17, 4]).tableSize →
      (∀ k ∈ storedKeys ((ADS_set.ctor_list (fun k : Nat => k) 7 [3, 10, 17, 4]).bucketAt i),
        (fun k : Nat => k) k % (ADS_set.ctor_list (fun k : Nat => k) 7 [3, 10, 17, 4]).tableSize
          = i) ∧
      (((ADS_set.ctor_list (fun k : Nat => k) 7 [3, 10, 17, 4]).bucketAt i).slot.mode = Mode.inuse
        ↔ storedKeys ((ADS_set.ctor_list (fun k : Nat => k) 7 [3, 10, 17, 4]).bucketAt i) ≠ []) ∧
      (((ADS_set.ctor_list (fun k : Nat => k) 7 [3, 10, 17, 4]).bucketAt i).slot.mode = Mode.free →
        ((ADS_set.ctor_list (fun k : Nat => k) 7 [3, 10, 17, 4]).bucketAt i).chain = []) ∧
      (∀ e ∈ ((ADS_set.ctor_list (fun k : Nat => k) 7 [3, 10, 17, 4]).bucketAt i).chain,
        e.mode = Mode.inuse) ∧
      ((ADS_set.ctor_list (fun k : Nat => k) 7 [3, 10, 17, 4]).bucketAt i).slot.mode ≠ Mode.end) ∧
    ((List.range (ADS_set.ctor_list (fun k : Nat => k) 7 [3, 10, 17, 4]).tableSize).flatMap
      (fun i => storedKeys
        ((ADS_set.ctor_list (fun k : Nat => k) 7 [3, 10, 17, 4]).bucketAt i))).Nodup ∧
    ((ADS_set.ctor_list (fun k : Nat => k) 7 [3, 10, 17, 4]).bucketAt
      (ADS_set.ctor_list (fun k : Nat => k) 7 [3, 10, 17, 4]).tableSize).slot.mode = Mode.end ∧
    ((ADS_set.ctor_list (fun k : Nat => k) 7 [3, 10, 17, 4]).bucketAt
      (ADS_set.ctor_list (fun k : Nat => k) 7 [3, 10, 17, 4]).tableSize).chain = [] :=
  ⟨by decide, Reachable.ctor_list _,
    reachable_well_formed (fun k : Nat => k) 7 (by decide) _ (Reachable.ctor_list _)⟩

set_option maxRecDepth 100000 in
/-- C14, refuted as stated: after the list constructor on 3, 10, 4 (capacity 7, identity
hash) the overflow node of bucket 3 carries the link to slot 4, and `operator++` from
that node arrives at the primary slot of bucket 4, which holds key 4.  The same holds
for a node made by the migration of a rehash: after the range constructor on
0, 15, 1, 2, 3 the overflow node of bucket 0 links to slot 1 and `operator++` from it
arrives there. -/
theorem overflow_node_link_counterexample :
    ((ADS_set.ctor_list (fun k : Nat => k) 7 [3, 10, 4]).bucketAt 3).chain
      = [⟨3, Mode.inuse, some 4⟩] ∧
    Iterator.next (ADS_set.ctor_list (fun k : Nat => k) 7 [3, 10, 4]) ⟨some ⟨3, 1⟩⟩
      = some ⟨some ⟨4, 0⟩⟩ ∧
    (ADS_set.ctor_list (fun k : Nat => k) 7 [3, 10, 4]).elemAt ⟨4, 0⟩
      = some ⟨4, Mode.inuse, some 5⟩ ∧
    (ADS_set.ctor_range (fun k : Nat => k) 7 [0, 15, 1, 2, 3]).tableSize = 15 ∧
    ((ADS_set.ctor_range (fun k : Nat => k) 7 [0, 15, 1, 2, 3]).bucketAt 0).chain
      = [⟨0, Mode.inuse, some 1⟩] ∧
    Iterator.next (ADS_set.ctor_range (fun k : Nat => k) 7 [0, 15, 1, 2, 3]) ⟨some ⟨0, 1⟩⟩
      = some ⟨some ⟨1, 0⟩⟩ := by
  decide

/-- C14, amended: in a reachable container every overflow node of bucket `i` carries
the link to the primary slot `i + 1` (a copy of the link of its primary slot), and
`operator++` from the last overflow node of a chain arrives at the first primary slot
in use after bucket `i`, or at `end()` when there is none; it is the primary slot of
bucket `i + 1` when that slot is in use. -/
theorem overflow_nodes_carry_link (hN : 0 < N) (s : ADS_set Key) (hr : Reachable hash N s)
    (i : Nat) (hi : i < s.tableSize) :
    (∀ e ∈ (s.bucketAt i).chain, e.nextElementOfChain = some (i + 1)) ∧
    ((s.bucketAt i).chain ≠ [] →
      ∃ j, i < j ∧ j ≤ s.tableSize ∧
        Iterator.next s ⟨some ⟨i, (s.bucketAt i).chain.length⟩⟩ = some ⟨some ⟨j, 0⟩⟩ ∧
        (∀ l, i < l → l < j → (s.bucketAt l).slot.mode = Mode.free) ∧
        (j < s.tableSize → (s.bucketAt j).slot.mode = Mode.inuse) ∧
        ((s.bucketAt (i + 1)).slot.mode = Mode.inuse → j = i + 1)) := by
  have hs := hr.inv hash N hN
  have hb := hs.buckets i hi
  refine ⟨fun e he => (hb.chain e he).2, ?_⟩
  intro hne
  have hm : (s.bucketAt i).slot.mode = Mode.inuse := by
    by_contra h
    exact hne (hb.free_chain h)
  obtain ⟨j, h1, h2, h3, h4, h5⟩ := skip_free_loop_gap hash N hs _ (i + 1)
    (s.table.length + 2) rfl hi (by rw [hs.len]; omega)
  refine ⟨j, h1, h2, ?_, fun l hl1 hl2 => h4 l hl1 hl2, h5, ?_⟩
  · rw [next_last hash N hs hi hm]
    simp only [skip_free, h3, Option.map_some']
  · intro hnext
    by_contra hj
    have := h4 (i + 1) (le_refl _) (by omega)
    rw [hnext] at this
    cases this

set_option maxRecDepth 100000 in
theorem overflow_nodes_carry_link_witness :
    0 < 7 ∧
    Reachable (fun k : Nat => k) 7 (ADS_set.ctor_list (fun k : Nat => k) 7 [3, 10, 17, 5]) ∧
    3 < (ADS_set.ctor_list (fun k : Nat => k) 7 [3, 10, 17, 5]).tableSize ∧
    (∀ e ∈ ((ADS_set.ctor_list (fun k : Nat => k) 7 [3, 10, 17, 5]).bucketAt 3).chain,
      e.nextElementOfChain = some (3 + 1)) ∧
    (((ADS_set.ctor_list (fun k : Nat => k) 7 [3, 10, 17, 5]).bucketAt 3).chain ≠ [] →
      ∃ j, 3 < j ∧ j ≤ (ADS_set.ctor_list (fun k : Nat => k) 7 [3, 10, 17, 5]).tableSize ∧
        Iterator.next (ADS_set.ctor_list (fun k : Nat => k) 7 [3, 10, 17, 5])
          ⟨some ⟨3, ((ADS_set.ctor_list (fun k : Nat => k) 7 [3, 10, 17, 5]).bucketAt 3).chain.length⟩⟩
          = some ⟨some ⟨j, 0⟩⟩ ∧
        (∀ l, 3 < l → l < j →
          ((ADS_set.ctor_list (fun k : Nat => k) 7 [3, 10, 17, 5]).bucketAt l).slot.mode
            = Mode.free) ∧
        (j < (ADS_set.ctor_list (fun k : Nat => k) 7 [3, 10, 17, 5]).tableSize →
          ((ADS_set.ctor_list (fun k : Nat => k) 7 [3, 10, 17, 5]).bucketAt j).slot.mode
            = Mode.inuse) ∧
        (((ADS_set.ctor_list (fun k : Nat => k) 7 [3, 10, 17, 5]).bucketAt (3 + 1)).slot.mode
            = Mode.inuse → j = 3 + 1)) :=
  ⟨by decide, Reachable.ctor_list _, by decide,
    overflow_nodes_carry_link (fun k : Nat => k) 7 (by decide) _ (Reachable.ctor_list _) 3
      (by decide)⟩

/-- C15: from an empty container of capacity 7, inserting four pairwise distinct keys
one by one leaves the capacity at 7 after each of them (the state is the constructor's
table with the keys placed); inserting a fifth distinct key makes `reserve` call
`rehash(15)` once, and afterwards the capacity is 15, `size()` is 5 and each of the five
keys has count 1 and is found by `find`. -/
theorem fifth_key_triggers_one_rehash (k1 k2 k3 k4 k5 : Key)
    (hd : [k1, k2, k3, k4, k5].Nodup) :
    ∃ s4 s5 it,
      insert_each hash 7 (ADS_set.ctor hash 7) [k1, k2, k3, k4] = some s4 ∧
      (∀ l s, l <+: [k1, k2, k3, k4] →
        insert_each hash 7 (ADS_set.ctor hash 7) l = some s →
          s = placeAll hash (ADS_set.ctor hash 7) l ∧ s.tableSize = 7) ∧
      size s4 = 4 ∧
      insert hash 7 s4 k5 = some (s5, it, true) ∧
      reserve hash 7 s4 (size s4 + 1) = rehash hash 7 s4 15 ∧
      s5 = (insertReal hash (rehash hash 7 s4 15) k5).1 ∧
      s5.tableSize = 15 ∧ size s5 = 5 ∧
      ∀ k ∈ [k1, k2, k3, k4, k5], count hash s5 k = 1 ∧
        ∃ it', find hash s5 k = some it' ∧ Iterator.deref s5 it' = some k ∧
          some it' ≠ s5.end := by
  have h7 : 0 < 7 := by decide
  have hc : Inv hash 7 (ADS_set.ctor hash 7 : ADS_set Key) := ctor_inv hash 7 h7
  have hcts : (ADS_set.ctor hash 7 : ADS_set Key).tableSize = 7 := by
    rw [ADS_set.ctor, rehash_tableSize]
    have : lfQuot 0 = 0 := by decide
    simp [ADS_set.init, this]
  have hces : (ADS_set.ctor hash 7 : ADS_set Key).elementSize = 0 := by
    rw [hc.live]
    have : keysOf (ADS_set.ctor hash 7 : ADS_set Key) = [] := by
      apply List.eq_nil_iff_forall_not_mem.mpr
      intro k hk
      rw [mem_keysOf_iff_count hash 7 _ hc, ctor_count hash 7 h7] at hk
      cases hk
    rw [this]; rfl
  exact grow_at_fifth_key hash hc hcts hces (ctor_count hash 7 h7) k1 k2 k3 k4 k5 hd

set_option maxRecDepth 100000 in
theorem fifth_key_triggers_one_rehash_witness :
    [3, 10, 17, 4, 11].Nodup ∧
    ∃ s4 s5 it,
      insert_each (fun k : Nat => k) 7 (ADS_set.ctor (fun k : Nat => k) 7) [3, 10, 17, 4] = some s4 ∧
      (∀ l s, l <+: [3, 10, 17, 4] →
        insert_each (fun k : Nat => k) 7 (ADS_set.ctor (fun k : Nat => k) 7) l = some s →
          s = placeAll (fun k : Nat => k) (ADS_set.ctor (fun k : Nat => k) 7) l ∧ s.tableSize = 7) ∧
      size s4 = 4 ∧
      insert (fun k : Nat => k) 7 s4 11 = some (s5, it, true) ∧
      reserve (fun k : Nat => k) 7 s4 (size s4 + 1) = rehash (fun k : Nat => k) 7 s4 15 ∧
      s5 = (insertReal (fun k : Nat => k) (rehash (fun k : Nat => k) 7 s4 15) 11).1 ∧
      s5.tableSize = 15 ∧ size s5 = 5 ∧
      ∀ k ∈ [3, 10, 17, 4, 11], count (fun k : Nat => k) s5 k = 1 ∧
        ∃ it', find (fun k : Nat => k) s5 k = some it' ∧ Iterator.deref s5 it' = some k ∧
          some it' ≠ s5.end :=
  ⟨by decide, fifth_key_triggers_one_rehash (fun k : Nat => k) 3 10 17 4 11 (by decide)⟩

/-- C16: for a well-formed container (one that satisfies the representation invariant)
and every `n`, `rehash(n)` keeps `size()` and the count of every key, leaves every
stored key in the bucket `hash(k) mod tableSize` of the new table, and gives a capacity
that is at least `n` and at least the minimum capacity `N`; the result is well formed. -/
theorem rehash_preserves_set (hN : 0 < N) (s : ADS_set Key) (hs : Inv hash N s) (n : Nat) :
    size (rehash hash N s n) = size s ∧
    (∀ k, count hash (rehash hash N s n) k = count hash s k) ∧
    (∀ i, i < (rehash hash N s n).tableSize →
      ∀ k ∈ storedKeys ((rehash hash N s n).bucketAt i),
        hash k % (rehash hash N s n).tableSize = i) ∧
    n ≤ (rehash hash N s n).tableSize ∧ N ≤ (rehash hash N s n).tableSize ∧
    Inv hash N (rehash hash N s n) := by
  have hr := rehash_inv hash N hN hs n
  refine ⟨rehash_elementSize hash N hN hs n, rehash_count hash N hN hs n, ?_, ?_, hr.cap, hr⟩
  · intro i hi k hk
    rw [storedKeys_eq hash (hr.buckets i hi)] at hk
    exact (hr.buckets i hi).home k hk
  · rw [rehash_tableSize]
    exact le_trans (le_max_left _ _) (le_max_left _ _)

theorem rehash_preserves_set_witness :
    0 < 7 ∧
    Inv (fun k : Nat => k) 7 (ADS_set.ctor_list (fun k : Nat => k) 7 [3, 10, 17, 4]) ∧
    size (rehash (fun k : Nat => k) 7 (ADS_set.ctor_list (fun k : Nat => k) 7 [3, 10, 17, 4]) 20)
      = size (ADS_set.ctor_list (fun k : Nat => k) 7 [3, 10, 17, 4]) ∧
    (∀ k, count (fun k : Nat => k)
        (rehash (fun k : Nat => k) 7 (ADS_set.ctor_list (fun k : Nat => k) 7 [3, 10, 17, 4]) 20) k
      = count (fun k : Nat => k) (ADS_set.ctor_list (fun k : Nat => k) 7 [3, 10, 17, 4]) k) ∧
    (∀ i, i < (rehash (fun k : Nat => k) 7
        (ADS_set.ctor_list (fun k : Nat => k) 7 [3, 10, 17, 4]) 20).tableSize →
      ∀ k ∈ storedKeys ((rehash (fun k : Nat => k) 7
          (ADS_set.ctor_list (fun k : Nat => k) 7 [3, 10, 17, 4]) 20).bucketAt i),
        (fun k : Nat => k) k % (rehash (fun k : Nat => k) 7
          (ADS_set.ctor_list (fun k : Nat => k) 7 [3, 10, 17, 4]) 20).tableSize = i) ∧
    20 ≤ (rehash (fun k : Nat => k) 7
      (ADS_set.ctor_list (fun k : Nat => k) 7 [3, 10, 17, 4]) 20).tableSize ∧
    7 ≤ (rehash (fun k : Nat => k) 7
      (ADS_set.ctor_list (fun k : Nat => k) 7 [3, 10, 17, 4]) 20).tableSize ∧
    Inv (fun k : Nat => k) 7
      (rehash (fun k : Nat => k) 7 (ADS_set.ctor_list (fun k : Nat => k) 7 [3, 10, 17, 4]) 20) :=
  ⟨by decide, (Reachable.ctor_list [3, 10, 17, 4]).inv (fun k : Nat => k) 7 (by decide),
    rehash_preserves_set (fun k : Nat => k) 7 (by decide) _
      ((Reachable.ctor_list [3, 10, 17, 4]).inv (fun k : Nat => k) 7 (by decide)) 20⟩

/-- C17: for a reachable container and every finite key sequence, range insert gives
exactly the state (capacity, size, buckets and chain order) reached by calling
`insert(key)` for each key of the sequence in order. -/
theorem range_insert_is_fold (hN : 0 < N) (s : ADS_set Key) (hr : Reachable hash N s)
    (range : List Key) :
    insert_each hash N s range = some (insert_range hash N s range) :=
  insert_each_eq_range hash N hN range s (hr.inv hash N hN)

theorem range_insert_is_fold_witness :
    0 < 7 ∧
    Reachable (fun k : Nat => k) 7 (ADS_set.ctor_list (fun k : Nat => k) 7 [3, 10]) ∧
    insert_each (fun k : Nat => k) 7 (ADS_set.ctor_list (fun k : Nat => k) 7 [3, 10])
        [17, 3, 4, 11, 18, 4]
      = some (insert_range (fun k : Nat => k) 7 (ADS_set.ctor_list (fun k : Nat => k) 7 [3, 10])
        [17, 3, 4, 11, 18, 4]) :=
  ⟨by decide, Reachable.ctor_list _,
    range_insert_is_fold (fun k : Nat => k) 7 (by decide) _ (Reachable.ctor_list _)
      [17, 3, 4, 11, 18, 4]⟩

set_option maxRecDepth 100000 in
/-- C18: when no rehash intervenes (the growth test stays false up to the final size),
inserting pairwise distinct absent keys one by one into a reachable container puts, in
every bucket, the new keys of that bucket in front of the old ones in reverse insertion
order: the primary slot holds the key inserted last and the chain the older ones, newest
first.  With capacity 7 and the identity hash, inserting 3, 10, 17 into the empty
container gives size 3, count 1 for each, bucket 3 holding 17, 10, 3 (17 in the primary
slot) and every other bucket empty. -/
theorem bucket_holds_reverse_insertion_order (hN : 0 < N) (s : ADS_set Key)
    (hr : Reachable hash N s) (l : List Key) (hl : l.Nodup)
    (habs : ∀ k ∈ l, count hash s k = 0)
    (hno : lfExceeds (size s + l.length) s.tableSize = false) :
    (∃ s', insert_each hash N s l = some s' ∧ s' = placeAll hash s l ∧
      s'.tableSize = s.tableSize ∧ size s' = size s + l.length ∧
      (∀ k ∈ l, count hash s' k = 1) ∧
      ∀ i, i < s.tableSize →
        bucketKeys (s'.bucketAt i)
          = l.reverse.filter (fun k => hash k % s.tableSize = i) ++ bucketKeys (s.bucketAt i)) ∧
    (insert_each (fun k : Nat => k) 7 (ADS_set.ctor (fun k : Nat => k) 7) [3, 10, 17]
        = some (placeAll (fun k : Nat => k) (ADS_set.ctor (fun k : Nat => k) 7) [3, 10, 17]) ∧
      (placeAll (fun k : Nat => k) (ADS_set.ctor (fun k : Nat => k) 7) [3, 10, 17]).tableSize = 7 ∧
      size (placeAll (fun k : Nat => k) (ADS_set.ctor (fun k : Nat => k) 7) [3, 10, 17]) = 3 ∧
      (∀ k ∈ [3, 10, 17], count (fun k : Nat => k)
        (placeAll (fun k : Nat => k) (ADS_set.ctor (fun k : Nat => k) 7) [3, 10, 17]) k = 1) ∧
      ((placeAll (fun k : Nat => k) (ADS_set.ctor (fun k : Nat => k) 7) [3, 10, 17]).bucketAt 3).slot.key
        = 17 ∧
      (((placeAll (fun k : Nat => k) (ADS_set.ctor (fun k : Nat => k) 7)
        [3, 10, 17]).bucketAt 3).chain.map (fun e => e.key)) = [10, 3] ∧
      ∀ i, i < 7 →
        storedKeys ((placeAll (fun k : Nat => k) (ADS_set.ctor (fun k : Nat => k) 7)
          [3, 10, 17]).bucketAt i) = if i = 3 then [17, 10, 3] else []) := by
  have hs := hr.inv hash N hN
  obtain ⟨h1, h2, h3⟩ := insert_each_order hash N hN l s hs hl habs hno
  obtain ⟨_, g2, g3⟩ := placeAll_spec hash N l s hs
  refine ⟨⟨_, h1, rfl, g2, h2, ?_, h3⟩, by decide⟩
  intro k hk
  rw [g3 k, if_pos hk]

set_option maxRecDepth 100000 in
theorem bucket_holds_reverse_insertion_order_witness :
    0 < 7 ∧ Reachable (fun k : Nat => k) 7 (ADS_set.ctor_list (fun k : Nat => k) 7 [5]) ∧
    [3, 10, 17].Nodup ∧
    (∀ k ∈ [3, 10, 17],
      count (fun k : Nat => k) (ADS_set.ctor_list (fun k : Nat => k) 7 [5]) k = 0) ∧
    lfExceeds (size (ADS_set.ctor_list (fun k : Nat => k) 7 [5]) + [3, 10, 17].length)
      (ADS_set.ctor_list (fun k : Nat => k) 7 [5]).tableSize = false ∧
    ∃ s', insert_each (fun k : Nat => k) 7 (ADS_set.ctor_list (fun k : Nat => k) 7 [5]) [3, 10, 17]
        = some s' ∧
      s' = placeAll (fun k : Nat => k) (ADS_set.ctor_list (fun k : Nat => k) 7 [5]) [3, 10, 17] ∧
      s'.tableSize = (ADS_set.ctor_list (fun k : Nat => k) 7 [5]).tableSize ∧
      size s' = size (ADS_set.ctor_list (fun k : Nat => k) 7 [5]) + [3, 10, 17].length ∧
      (∀ k ∈ [3, 10, 17], count (fun k : Nat => k) s' k = 1) ∧
      ∀ i, i < (ADS_set.ctor_list (fun k : Nat => k) 7 [5]).tableSize →
        bucketKeys (s'.bucketAt i)
          = [3, 10, 17].reverse.filter
              (fun k => (fun k : Nat => k) k %
                (ADS_set.ctor_list (fun k : Nat => k) 7 [5]).tableSize = i)
            ++ bucketKeys ((ADS_set.ctor_list (fun k : Nat => k) 7 [5]).bucketAt i) :=
  ⟨by decide, Reachable.ctor_list _, by decide, by decide, by decide,
    (bucket_holds_reverse_insertion_order (fun k : Nat => k) 7 (by decide)
      (ADS_set.ctor_list (fun k : Nat => k) 7 [5]) (Reachable.ctor_list _) [3, 10, 17]
      (by decide) (by decide) (by decide)).1⟩

/-- C19: in a reachable container, when bucket `i` holds the keys `k0, k1, ...` (primary
slot first) with at least one overflow node, `erase(k0)` returns 1 and leaves that bucket
holding `k1, ...` in the same order with `k1` in the primary slot, which is in use; all
other buckets are untouched, `size()` goes down by exactly 1 and `find(k1)` returns an
iterator that dereferences to `k1`. -/
theorem erase_primary_promotes_successor (hN : 0 < N) (s : ADS_set Key)
    (hr : Reachable hash N s) (i : Nat) (hi : i < s.tableSize) (k0 k1 : Key) (rest : List Key)
    (hb : bucketKeys (s.bucketAt i) = k0 :: k1 :: rest) :
    (erase hash s k0).2 = 1 ∧
    bucketKeys ((erase hash s k0).1.bucketAt i) = k1 :: rest ∧
    ((erase hash s k0).1.bucketAt i).slot.key = k1 ∧
    ((erase hash s k0).1.bucketAt i).slot.mode = Mode.inuse ∧
    (∀ j, j ≠ i → (erase hash s k0).1.bucketAt j = s.bucketAt j) ∧
    (erase hash s k0).1.tableSize = s.tableSize ∧
    size (erase hash s k0).1 + 1 = size s ∧
    ∃ it, find hash (erase hash s k0).1 k1 = some it ∧
      Iterator.deref (erase hash s k0).1 it = some k1 ∧ some it ≠ (erase hash s k0).1.end := by
  have hs := hr.inv hash N hN
  have hbk := hs.buckets i hi
  have hidx : hash_idx hash s k0 = i := hbk.home k0 (by rw [hb]; exact List.mem_cons_self _ _)
  have hc : count hash s k0 = 1 := by
    rw [← mem_keysOf_iff_count hash N s hs, mem_keysOf]
    exact ⟨i, hi, by rw [hb]; exact List.mem_cons_self _ _⟩
  have hlen : i < s.table.length := by rw [hs.len]; omega
  have hinv := erase_inv hash N hs k0
  rcases erase_cases hash N hs k0 with ⟨h0, _⟩ | ⟨_, b', he, hb', hkeys⟩
  · rw [h0] at hc; cases hc
  · rw [hidx] at he hb' hkeys
    rw [hb] at hkeys
    have hkeys' : bucketKeys b' = k1 :: rest := by
      rw [hkeys]; simp
    have hbucket : (erase hash s k0).1.bucketAt i = b' := by
      rw [he, bucketAt_set]; simp [hlen]
    have hmode : b'.slot.mode = Mode.inuse := by
      by_contra h
      simp [bucketKeys, h] at hkeys'
    have hkey : b'.slot.key = k1 := by
      simp only [bucketKeys, hmode, if_true, List.cons.injEq] at hkeys'
      exact hkeys'.1
    have hc1 : count hash (erase hash s k0).1 k1 = 1 := by
      rw [← mem_keysOf_iff_count hash N _ hinv, mem_keysOf]
      refine ⟨i, by rw [he]; exact hi, ?_⟩
      rw [hbucket, hkeys']
      exact List.mem_cons_self _ _
    refine ⟨by rw [he], by rw [hbucket, hkeys'], by rw [hbucket, hkey],
      by rw [hbucket, hmode], ?_, by rw [he], ?_, find_of_count hash N hinv hc1⟩
    · intro j hj
      rw [he, bucketAt_set, if_neg]
      intro h; exact hj h.1.symm
    · have := keysOf_length_pos hash N hs hc
      rw [he]
      simp only [size]
      omega

set_option maxRecDepth 100000 in
theorem erase_primary_promotes_successor_witness :
    0 < 7 ∧ Reachable (fun k : Nat => k) 7 (ADS_set.ctor_list (fun k : Nat => k) 7 [3, 10, 17, 4]) ∧
    3 < (ADS_set.ctor_list (fun k : Nat => k) 7 [3, 10, 17, 4]).tableSize ∧
    bucketKeys ((ADS_set.ctor_list (fun k : Nat => k) 7 [3, 10, 17, 4]).bucketAt 3)
      = 17 :: 10 :: [3] ∧
    (erase (fun k : Nat => k) (ADS_set.ctor_list (fun k : Nat => k) 7 [3, 10, 17, 4]) 17).2 = 1 ∧
    bucketKeys ((erase (fun k : Nat => k)
      (ADS_set.ctor_list (fun k : Nat => k) 7 [3, 10, 17, 4]) 17).1.bucketAt 3) = 10 :: [3] ∧
    ((erase (fun k : Nat => k)
      (ADS_set.ctor_list (fun k : Nat => k) 7 [3, 10, 17, 4]) 17).1.bucketAt 3).slot.key = 10 ∧
    ((erase (fun k : Nat => k)
      (ADS_set.ctor_list (fun k : Nat => k) 7 [3, 10, 17, 4]) 17).1.bucketAt 3).slot.mode
      = Mode.inuse ∧
    (∀ j, j ≠ 3 →
      (erase (fun k : Nat => k)
        (ADS_set.ctor_list (fun k : Nat => k) 7 [3, 10, 17, 4]) 17).1.bucketAt j
      = (ADS_set.ctor_list (fun k : Nat => k) 7 [3, 10, 17, 4]).bucketAt j) ∧
    (erase (fun k : Nat => k)
      (ADS_set.ctor_list (fun k : Nat => k) 7 [3, 10, 17, 4]) 17).1.tableSize
      = (ADS_set.ctor_list (fun k : Nat => k) 7 [3, 10, 17, 4]).tableSize ∧
    size (erase (fun k : Nat => k)
      (ADS_set.ctor_list (fun k : Nat => k) 7 [3, 10, 17, 4]) 17).1 + 1
      = size (ADS_set.ctor_list (fun k : Nat => k) 7 [3, 10, 17, 4]) ∧
    ∃ it, find (fun k : Nat => k) (erase (fun k : Nat => k)
        (ADS_set.ctor_list (fun k : Nat => k) 7 [3, 10, 17, 4]) 17).1 10 = some it ∧
      Iterator.deref (erase (fun k : Nat => k)
        (ADS_set.ctor_list (fun k : Nat => k) 7 [3, 10, 17, 4]) 17).1 it = some 10 ∧
      some it ≠ (erase (fun k : Nat => k)
        (ADS_set.ctor_list (fun k : Nat => k) 7 [3, 10, 17, 4]) 17).1.end :=
  ⟨by decide, Reachable.ctor_list _, by decide, by decide,
    erase_primary_promotes_successor (fun k : Nat => k) 7 (by decide) _ (Reachable.ctor_list _)
      3 (by decide) 17 10 [3] (by decide)⟩

set_option maxRecDepth 100000 in
/-- C20, refuted as stated: a container with 5 live keys (range constructor on
0, 1, 2, 3, 4, capacity 15) gets capacity 7 from `rehash(0)`, while
`max(0, ceil(5 / max_load_factor), 7)` is 8, for the binary32 value of `max_lf` as for
`0.7`: the code converts the quotient to `size_t` by truncation. -/
theorem rehash_capacity_counterexample :
    size (ADS_set.ctor_range (fun k : Nat => k) 7 [0, 1, 2, 3, 4]) = 5 ∧
    (rehash (fun k : Nat => k) 7 (ADS_set.ctor_range (fun k : Nat => k) 7 [0, 1, 2, 3, 4]) 0).tableSize
      = 7 ∧
    max (max 0 ⌈((5 : Nat) : ℚ) / F32.val max_lf⌉₊) 7 = 8 ∧
    max (max 0 ⌈((5 : Nat) : ℚ) / (7 / 10)⌉₊) 7 = 8 ∧
    (rehash (fun k : Nat => k) 7 (ADS_set.ctor_range (fun k : Nat => k) 7 [0, 1, 2, 3, 4]) 0).tableSize
      ≠ max (max 0 ⌈((size (ADS_set.ctor_range (fun k : Nat => k) 7 [0, 1, 2, 3, 4]) : Nat) : ℚ)
          / F32.val max_lf⌉₊) 7 := by
  have h1 : size (ADS_set.ctor_range (fun k : Nat => k) 7 [0, 1, 2, 3, 4]) = 5 := by decide
  have h2 : (rehash (fun k : Nat => k) 7
      (ADS_set.ctor_range (fun k : Nat => k) 7 [0, 1, 2, 3, 4]) 0).tableSize = 7 := by decide
  have h3 : ⌈((5 : Nat) : ℚ) / F32.val max_lf⌉₊ = 8 := by
    rw [Nat.ceil_eq_iff (by norm_num), val_max_lf]
    norm_num
  have h4 : ⌈((5 : Nat) : ℚ) / (7 / 10)⌉₊ = 8 := by
    rw [Nat.ceil_eq_iff (by norm_num)]
    norm_num
  refine ⟨h1, h2, by rw [h3]; rfl, by rw [h4]; rfl, ?_⟩
  rw [h1, h2, h3]
  decide

/-- C20, amended: for every container state and every `n`, `rehash(n)` sets the
capacity to exactly `max(n, size_type(elementSize / max_lf), N)`, where the quotient is
computed in binary32 and converted by truncation (`lfQuot`); for 5 live keys the middle
term is 7. -/
theorem rehash_capacity (s : ADS_set Key) (n : Nat) :
    (rehash hash N s n).tableSize = max (max n (lfQuot s.elementSize)) N ∧
    lfQuot s.elementSize
      = F32.toNat (F32.div (F32.ofNat s.elementSize) max_lf) ∧
    lfQuot 5 = 7 :=
  ⟨rehash_tableSize hash N s n, rfl, by decide⟩

end Contract

end SepChain
